import Mathlib

/-!
# strongbow-backtester: entry scan and trade simulation

A shallow embedding of the strategy core of the back-tester
(`internal/backtestData/data.go`, `internal/tradeConfig/trade.go`,
`internal/utils/rounding.go`) together with theorems about it.

Modelling conventions

* `float64` prices are rationals (`ℚ`): comparisons and the field operations are
  exact, NaN and the infinities do not exist.
* `time.Time` is an integer instant (`Time := Int`), counted in nanoseconds from the
  zero `time.Time` (0001-01-01 00:00:00 UTC, a Monday), which is the instant `0`;
  `Before`, `After` and `Equal` are `<`, `>` and `=`.  Every time is in the location
  UTC, so a calendar day is 24 hours long.
* Slices of pointers (`Boundaries`, `Data`, `Trades`) are lists of values.  The
  functions embedded here never write through a pointer they share, so value
  semantics is faithful; `DeepCopy` is kept as the function that rebuilds the value.
* A run-time panic (index out of range) is the result `none`.
* Go `int` values are integers (`Int`).  The sum `i+rightBars` in the guard of
  `isPivotHigh` and `isPivotLow` can leave the 64-bit range and is taken through
  `intAdd`, which wraps as the machine does.  The other integer expressions are
  indices and counts bounded by the length of a slice, or (the slice bound of
  `filterOldBoundaries` under a negative cap) panic whether they wrap or not.
* `sort.Slice` is modelled by the insertion sort `sortSlice` on the supplied `less`.
* Logging calls are dropped.
-/

namespace Strongbow

/-! ## Data model -/

/-- Instants of `time.Time`. -/
abbrev Time := Int

/-- Error values declared at the top of `data.go`. -/
inductive DataError where
  | DataEmptyError
  | FilterEmptyError
  | EarliestTimeOutOfRange
  | SMALookbackInvalid
  | SMAValuesIntersect
  | NoBoundaryFound
deriving DecidableEq, Repr

/-- Values of `utils.TradeDirection`. -/
def LONG : String := "LONG"

/-- Values of `utils.TradeDirection`. -/
def SHORT : String := "SHORT"

/-- Struct `Boundary` of `data.go`. -/
structure Boundary where
  Time : Time
  Value : ℚ
  Broken : Bool
deriving DecidableEq, Repr

/-- Slice type `Boundaries`. -/
abbrev Boundaries := List Boundary

/-- Struct `Row` of `data.go`: one candle. -/
structure Row where
  Time : Time
  Open : ℚ
  High : ℚ
  Low : ℚ
  Close : ℚ
  Volume : Int
  LargeSMA : ℚ
  SmallSMA : ℚ
  HighBoundaries : Boundaries
  LowBoundaries : Boundaries
deriving DecidableEq, Repr

/-- Slice type `Data`. -/
abbrev Data := List Row

/-- Modelled from the spec: the boolean field `TrailingStop` ("Trailing stop
enabled"), which `ValidateTradeWithWindow` reads but the struct declaration in
`internal/utils/configuration.go` does not list.  All other fields are those of the
struct `InstrumentConfiguration` as declared there. -/
structure InstrumentConfiguration where
  MinimumRR : ℚ
  StopSizeAddition : Int
  TrailingStopAmount : Int
  LargeSMALookbackAmount : Int
  SmallSMALookbackAmount : Int
  UnbrokenBoundaryLeftBars : Int
  UnbrokenBoundaryRightBars : Int
  UnbrokenBoundaryMemoryLimit : Int
  StochasticUpperBand : ℚ
  StochasticLowerBand : ℚ
  StochasticKPeriods : Int
  StochasticDPeriods : Int
  MoveToBreakEvenAt : ℚ
  TrailingStop : Bool
deriving DecidableEq, Repr

/-- Struct `Trade` of `trade.go`. -/
structure Trade where
  Instrument : String
  TakenAt : Time
  Direction : String
  EntryPrice : ℚ
  StopPrice : ℚ
  InitialStopPrice : ℚ
  TargetPrice : ℚ
  ClosedAtPrice : ℚ
  ClosedAtTime : Time
deriving DecidableEq, Repr

/-- Slice type `Trades`. -/
abbrev Trades := List Trade

/-! ## `utils/rounding.go` -/

/-- Length of a `width`-digit fraction `n` once its trailing zeros are trimmed
(`strings.TrimRight(decimalPart, "0")`). -/
def trimRightZeros : Nat → Nat → Nat
  | 0, _ => 0
  | w + 1, n => if n % 10 = 0 then trimRightZeros w (n / 10) else w + 1

/-- Nearest integer, ties to even: the rounding `%f` applies to the digits it prints. -/
def roundHalfEven (x : ℚ) : Int :=
  let f := Rat.floor x
  let d := x - (f : ℚ)
  if d < 1 / 2 then f
  else if 1 / 2 < d then f + 1
  else if f % 2 = 0 then f else f + 1

/-- Function `getDecimalPlaces`: the number is printed with `%f` (six decimals) and
the decimal part is counted after trimming trailing zeros. -/
def getDecimalPlaces (num : ℚ) : Nat :=
  trimRightZeros 6 ((roundHalfEven (|num| * 1000000)).toNat % 1000000)

/-- Function `math.Round`: nearest integer, halves away from zero. -/
def mathRound (x : ℚ) : ℚ :=
  if x < 0 then -((Rat.floor (-x + 1 / 2) : Int) : ℚ) else ((Rat.floor (x + 1 / 2) : Int) : ℚ)

/-- Function `RoundToDecimalLength`. -/
def RoundToDecimalLength (numberA numberB : ℚ) : ℚ :=
  let decimalPlaces := getDecimalPlaces numberB
  let multiplier : ℚ := 10 ^ decimalPlaces
  let normalizedA := numberA * multiplier
  let normalizedB := numberB * multiplier
  let roundedA := mathRound (normalizedA / normalizedB) * normalizedB
  roundedA / multiplier

/-! ## Boundary queries (`data.go`) -/

/-- Method `Boundary.DeepCopy`. -/
def Boundary.DeepCopy (b : Boundary) : Boundary :=
  { Time := b.Time, Value := b.Value, Broken := b.Broken }

/-- Method `Boundaries.DeepCopy`. -/
def Boundaries.DeepCopy (b : Boundaries) : Boundaries :=
  b.map Boundary.DeepCopy

/-- Insertion of `x` into a sorted list, the step of `sortSlice`: `x` goes in front of
the first element that is not `less` than it. -/
def sortInsert {α : Type} (less : α → α → Bool) (x : α) : List α → List α
  | [] => [x]
  | y :: ys => if less y x then y :: sortInsert less x ys else x :: y :: ys

/-- Model of `sort.Slice`: insertion sort by `less`, which keeps the order of the
elements that `less` does not separate. -/
def sortSlice {α : Type} (less : α → α → Bool) : List α → List α
  | [] => []
  | x :: xs => sortInsert less x (sortSlice less xs)

/-- Method `Boundaries.SortBoundaryByValue`. -/
def Boundaries.SortBoundaryByValue (b : Boundaries) (ascending : Bool) : Boundaries :=
  let newBoundaries := Boundaries.DeepCopy b
  if ascending then
    sortSlice (fun x y => decide (x.Value < y.Value)) newBoundaries
  else
    sortSlice (fun x y => decide (x.Value > y.Value)) newBoundaries

/-- Method `Boundaries.GetSortedUnbrokenBoundary`. -/
def Boundaries.GetSortedUnbrokenBoundary (b : Boundaries) (ascending : Bool) :
    Except DataError Boundaries :=
  if b.length = 0 then .error .NoBoundaryFound
  else
    let boundariesToReturn := b.filter (fun boundary => !boundary.Broken)
    if boundariesToReturn.length = 0 then .error .NoBoundaryFound
    else .ok (Boundaries.SortBoundaryByValue boundariesToReturn ascending)

/-- Method `Boundaries.GetSortedBrokenBoundary`. -/
def Boundaries.GetSortedBrokenBoundary (b : Boundaries) (ascending : Bool) :
    Except DataError Boundaries :=
  if b.length = 0 then .error .NoBoundaryFound
  else
    let boundariesToReturn := b.filter (fun boundary => boundary.Broken)
    if boundariesToReturn.length = 0 then .error .NoBoundaryFound
    else .ok (Boundaries.SortBoundaryByValue boundariesToReturn ascending)

/-! ## Direction and entry qualification (`data.go`) -/

/-- Method `Row.TradeDirection`: the pair (direction, error) the Go function returns. -/
def Row.TradeDirection (r : Row) : String × Option DataError :=
  if r.SmallSMA = r.LargeSMA then ("", some .SMAValuesIntersect)
  else if r.SmallSMA < r.LargeSMA then (SHORT, none)
  else (LONG, none)

/-- Method `Row.IsValidEntry`.  The element `[0]` of a list the query returned is
read with `head?`; `none` is the index panic. -/
def Row.IsValidEntry (r : Row) (tradeDirection : String) : Option Bool :=
  if tradeDirection = SHORT then
    match Boundaries.GetSortedBrokenBoundary r.HighBoundaries true with
    | .error _ => some false
    | .ok filteredBoundaries =>
      match filteredBoundaries.head? with
      | none => none
      | some mostRecentHighBoundary =>
        if r.High > mostRecentHighBoundary.Value ∧ r.Close < mostRecentHighBoundary.Value then
          some true
        else some false
  else if tradeDirection = LONG then
    match Boundaries.GetSortedBrokenBoundary r.LowBoundaries false with
    | .error _ => some false
    | .ok filteredBoundaries =>
      match filteredBoundaries.head? with
      | none => none
      | some mostRecentLowBoundary =>
        if r.Low < mostRecentLowBoundary.Value ∧ r.Close > mostRecentLowBoundary.Value then
          some true
        else some false
  else some false

/-! ## Trades (`trade.go`) -/

/-- Function `newTrade`: the closing fields keep their zero values. -/
def newTrade (instrument : String) (takenAt : Time) (direction : String)
    (entryPrice stopPrice targetPrice : ℚ) : Trade :=
  { Instrument := instrument
    TakenAt := takenAt
    Direction := direction
    EntryPrice := entryPrice
    StopPrice := stopPrice
    InitialStopPrice := stopPrice
    TargetPrice := targetPrice
    ClosedAtPrice := 0
    ClosedAtTime := 0 }

/-- Function `calculateRR`. -/
def calculateRR (oneRisk targetSize : ℚ) : ℚ :=
  if oneRisk ≠ 0 then targetSize / oneRisk else 0

/-- Control flow out of one pass through the body of the loop of
`ValidateTradeWithWindow`: the loop goes on with the trade, or the function returns. -/
inductive Flow where
  | next (t : Trade)
  | ret (t : Trade)
deriving DecidableEq, Repr

/-- The trade carried by a `Flow`. -/
def Flow.trade : Flow → Trade
  | .next t => t
  | .ret t => t

/-- The body of `case instrumentConfig.TrailingStop:` (trade.go lines 340-363): the
trade after the dynamic trailing-stop adjustment on one row. -/
def trailingStopAdjust (tickSize : ℚ) (t : Trade) (row : Row) : Trade :=
  if t.Direction = LONG then
    if row.High > t.EntryPrice then
      let potentialNewStop :=
        RoundToDecimalLength (t.StopPrice + (row.High - t.EntryPrice)) tickSize
      if potentialNewStop > t.StopPrice then { t with StopPrice := potentialNewStop }
      else t
    else t
  else if t.Direction = SHORT then
    if row.Low < t.EntryPrice then
      let potentialNewStop :=
        RoundToDecimalLength (t.StopPrice - (t.EntryPrice - row.Low)) tickSize
      if potentialNewStop < t.StopPrice then { t with StopPrice := potentialNewStop }
      else t
    else t
  else t

/-- The body of the break-even `case` (trade.go lines 367-384): the trade after the
move-to-break-even check on one row. -/
def breakEvenAdjust (instrumentConfig : InstrumentConfiguration) (t : Trade) (row : Row) :
    Trade :=
  let profitTarget := t.EntryPrice * (1 + instrumentConfig.MoveToBreakEvenAt / 100)
  let profitTargetReached : Bool :=
    if t.Direction = LONG then decide (row.High ≥ profitTarget)
    else if t.Direction = SHORT then decide (row.Low ≤ profitTarget)
    else false
  if profitTargetReached then { t with StopPrice := t.EntryPrice }
  else t

/-- The `switch` of `ValidateTradeWithWindow` (trade.go lines 286-385), for one row. -/
def validateSwitch (instrumentConfig : InstrumentConfiguration) (tickSize : ℚ)
    (t : Trade) (row : Row) : Flow :=
  if t.Direction = LONG ∧ row.Low ≤ t.StopPrice then
    .ret { t with ClosedAtPrice := t.StopPrice, ClosedAtTime := row.Time }
  else if t.Direction = SHORT ∧ row.High ≥ t.StopPrice then
    .ret { t with ClosedAtPrice := t.StopPrice, ClosedAtTime := row.Time }
  else if t.Direction = LONG ∧ row.High ≥ t.TargetPrice then
    .ret { t with ClosedAtPrice := t.TargetPrice, ClosedAtTime := row.Time }
  else if t.Direction = SHORT ∧ row.Low ≤ t.TargetPrice then
    .ret { t with ClosedAtPrice := t.TargetPrice, ClosedAtTime := row.Time }
  else if instrumentConfig.TrailingStop then
    .next (trailingStopAdjust tickSize t row)
  else if instrumentConfig.MoveToBreakEvenAt > 0 ∧ t.StopPrice ≠ t.EntryPrice then
    .next (breakEvenAdjust instrumentConfig t row)
  else .next t

/-- One pass through the body of the loop of `ValidateTradeWithWindow`: rows at or
before `TakenAt` are skipped, the others go through the `switch`. -/
def validateRow (instrumentConfig : InstrumentConfiguration) (tickSize : ℚ)
    (t : Trade) (row : Row) : Flow :=
  if row.Time < t.TakenAt ∨ row.Time = t.TakenAt then .next t
  else validateSwitch instrumentConfig tickSize t row

/-- The `for` loop of `ValidateTradeWithWindow` over the rows that are left. -/
def validateLoop (instrumentConfig : InstrumentConfiguration) (tickSize : ℚ) :
    Trade → List Row → Flow
  | t, [] => .next t
  | t, row :: rest =>
    match validateRow instrumentConfig tickSize t row with
    | .ret t1 => .ret t1
    | .next t1 => validateLoop instrumentConfig tickSize t1 rest

/-- Method `Trade.ValidateTradeWithWindow`: the trade after the call; `none` is the
index panic of `tradeWindow[len(tradeWindow)-1]` on an empty window. -/
def ValidateTradeWithWindow (t : Trade) (tradeWindow : Data)
    (instrumentConfig : InstrumentConfiguration) (tickSize : ℚ) : Option Trade :=
  match validateLoop instrumentConfig tickSize t tradeWindow with
  | .ret t1 => some t1
  | .next t1 =>
    if t1.ClosedAtPrice = 0 then
      match tradeWindow.getLast? with
      | none => none
      | some lastRow =>
        some { t1 with ClosedAtPrice := lastRow.Close, ClosedAtTime := lastRow.Time }
    else some t1

/-- Values fixed by the `switch` on the direction in `GenerateTradesInWindow`. -/
structure EntrySetup where
  stopPrice : ℚ
  target : Boundary
  oneRisk : ℚ
  targetSize : ℚ
  actualRR : ℚ
deriving DecidableEq, Repr

/-- Ways out of the `switch` on the direction in `GenerateTradesInWindow`:
`continue`, `return nil`, an index panic, or the values for the RR check. -/
inductive SetupOutcome where
  | skip
  | abort
  | crash
  | ready (s : EntrySetup)
deriving DecidableEq, Repr

/-- The `switch tradeDirection` of `GenerateTradesInWindow` (trade.go lines 156-217). -/
def entrySetup (tradeRow : Row) (tradeDirection : String)
    (instrumentConfig : InstrumentConfiguration) (tickSize : ℚ) : SetupOutcome :=
  if tradeDirection = SHORT then
    let stopPrice := RoundToDecimalLength
      (tradeRow.High + tickSize * (instrumentConfig.StopSizeAddition : ℚ)) tickSize
    match Boundaries.GetSortedUnbrokenBoundary tradeRow.LowBoundaries false with
    | .error err => if err = .NoBoundaryFound then .skip else .abort
    | .ok sortedBoundaries =>
      match sortedBoundaries.head? with
      | none => .crash
      | some target =>
        let oneRisk := stopPrice - tradeRow.Close
        let targetSize := tradeRow.Close - target.Value
        .ready { stopPrice := stopPrice, target := target, oneRisk := oneRisk,
                 targetSize := targetSize, actualRR := calculateRR oneRisk targetSize }
  else if tradeDirection = LONG then
    let stopPrice := RoundToDecimalLength
      (tradeRow.Low - tickSize * (instrumentConfig.StopSizeAddition : ℚ)) tickSize
    match Boundaries.GetSortedUnbrokenBoundary tradeRow.HighBoundaries true with
    | .error err => if err = .NoBoundaryFound then .skip else .abort
    | .ok sortedBoundaries =>
      match sortedBoundaries.head? with
      | none => .crash
      | some target =>
        let oneRisk := tradeRow.Close - stopPrice
        let targetSize := target.Value - tradeRow.Close
        .ready { stopPrice := stopPrice, target := target, oneRisk := oneRisk,
                 targetSize := targetSize, actualRR := calculateRR oneRisk targetSize }
  else .skip

/-- The `for` loop of `GenerateTradesInWindow` over the rows that are left, with the
loop variables `inTrade` and `trades`; `none` is a panic. -/
def generateLoop (tradeWindow : Data) (instrumentConfig : InstrumentConfiguration)
    (instrument : String) (tickSize : ℚ) : List Row → Bool → Trades → Option Trades
  | [], _, trades => some trades
  | tradeRow :: rest, inTrade, trades =>
    if inTrade then
      match trades.getLast? with
      | none => none
      | some lastTrade =>
        if tradeRow.Time = lastTrade.ClosedAtTime ∨ tradeRow.Time > lastTrade.ClosedAtTime then
          generateLoop tradeWindow instrumentConfig instrument tickSize rest false trades
        else
          generateLoop tradeWindow instrumentConfig instrument tickSize rest true trades
    else
      let dirErr := tradeRow.TradeDirection
      if dirErr.2 = some .SMAValuesIntersect then
        generateLoop tradeWindow instrumentConfig instrument tickSize rest false trades
      else
        match tradeRow.IsValidEntry dirErr.1 with
        | none => none
        | some false =>
          generateLoop tradeWindow instrumentConfig instrument tickSize rest false trades
        | some true =>
          match entrySetup tradeRow dirErr.1 instrumentConfig tickSize with
          | .skip =>
            generateLoop tradeWindow instrumentConfig instrument tickSize rest false trades
          | .abort => some []
          | .crash => none
          | .ready s =>
            if s.actualRR < instrumentConfig.MinimumRR then
              generateLoop tradeWindow instrumentConfig instrument tickSize rest false trades
            else
              let trade := newTrade instrument tradeRow.Time dirErr.1 tradeRow.Close
                s.stopPrice s.target.Value
              match ValidateTradeWithWindow trade tradeWindow instrumentConfig tickSize with
              | none => none
              | some closed =>
                generateLoop tradeWindow instrumentConfig instrument tickSize rest true
                  (trades ++ [closed])

/-- Function `GenerateTradesInWindow`. -/
def GenerateTradesInWindow (tradeWindow : Data) (instrumentConfig : InstrumentConfiguration)
    (instrument : String) (tickSize : ℚ) : Option Trades :=
  generateLoop tradeWindow instrumentConfig instrument tickSize tradeWindow false []

/-! ## Predicates and sample data used in the statements -/

/-- The qualification test of a SHORT entry, as the specification words it: some high
boundary is broken and, for `v` the smallest value among the broken high boundaries,
the candle's high is above `v` and its close below. -/
def shortEntryQualifies (r : Row) : Prop :=
  ∃ v : ℚ, (∃ b ∈ r.HighBoundaries, b.Broken = true ∧ b.Value = v) ∧
    (∀ c ∈ r.HighBoundaries, c.Broken = true → v ≤ c.Value) ∧ r.High > v ∧ r.Close < v

/-- The qualification test of a LONG entry, as the specification words it: some low
boundary is broken and, for `v` the largest value among the broken low boundaries,
the candle's low is below `v` and its close above. -/
def longEntryQualifies (r : Row) : Prop :=
  ∃ v : ℚ, (∃ b ∈ r.LowBoundaries, b.Broken = true ∧ b.Value = v) ∧
    (∀ c ∈ r.LowBoundaries, c.Broken = true → c.Value ≤ v) ∧ r.Low < v ∧ r.Close > v

instance (r : Row) : Decidable (shortEntryQualifies r) := by
  unfold shortEntryQualifies
  exact decidable_of_iff
    (∃ b ∈ r.HighBoundaries, b.Broken = true ∧
      (∀ c ∈ r.HighBoundaries, c.Broken = true → b.Value ≤ c.Value) ∧
      r.High > b.Value ∧ r.Close < b.Value)
    ⟨fun ⟨b, hb, hbb, hmin, hh, hc⟩ => ⟨b.Value, ⟨b, hb, hbb, rfl⟩, hmin, hh, hc⟩,
     fun ⟨_, ⟨b, hb, hbb, hbv⟩, hmin, hh, hc⟩ =>
       ⟨b, hb, hbb, hbv ▸ hmin, hbv ▸ hh, hbv ▸ hc⟩⟩

instance (r : Row) : Decidable (longEntryQualifies r) := by
  unfold longEntryQualifies
  exact decidable_of_iff
    (∃ b ∈ r.LowBoundaries, b.Broken = true ∧
      (∀ c ∈ r.LowBoundaries, c.Broken = true → c.Value ≤ b.Value) ∧
      r.Low < b.Value ∧ r.Close > b.Value)
    ⟨fun ⟨b, hb, hbb, hmax, hl, hc⟩ => ⟨b.Value, ⟨b, hb, hbb, rfl⟩, hmax, hl, hc⟩,
     fun ⟨_, ⟨b, hb, hbb, hbv⟩, hmax, hl, hc⟩ =>
       ⟨b, hb, hbb, hbv ▸ hmax, hbv ▸ hl, hbv ▸ hc⟩⟩

/-- Fields of a trade that `ValidateTradeWithWindow` never assigns. -/
def Trade.sameEntry (a b : Trade) : Prop :=
  a.Instrument = b.Instrument ∧ a.TakenAt = b.TakenAt ∧ a.Direction = b.Direction ∧
  a.EntryPrice = b.EntryPrice ∧ a.InitialStopPrice = b.InitialStopPrice ∧
  a.TargetPrice = b.TargetPrice

/-- Stop price in force once the loop of `ValidateTradeWithWindow` has passed over
`rows`: the stop as adjusted so far. -/
def stopAfter (instrumentConfig : InstrumentConfiguration) (tickSize : ℚ) (t : Trade)
    (rows : List Row) : ℚ :=
  (validateLoop instrumentConfig tickSize t rows).trade.StopPrice

/-- The candle meets the stop or the target condition of a trade of direction `dir`
whose stop is `S` and whose target is `T`. -/
def hitsStopOrTarget (dir : String) (S T : ℚ) (row : Row) : Prop :=
  (dir = LONG ∧ (row.Low ≤ S ∨ row.High ≥ T)) ∨ (dir = SHORT ∧ (row.High ≥ S ∨ row.Low ≤ T))

instance (dir : String) (S T : ℚ) (row : Row) : Decidable (hitsStopOrTarget dir S T row) := by
  unfold hitsStopOrTarget
  infer_instance

instance (a b : Trade) : Decidable (Trade.sameEntry a b) := by
  unfold Trade.sameEntry
  infer_instance

/-- Configuration with every field at its Go zero value
(`&utils.InstrumentConfiguration{}`). -/
def zeroConfiguration : InstrumentConfiguration :=
  { MinimumRR := 0, StopSizeAddition := 0, TrailingStopAmount := 0,
    LargeSMALookbackAmount := 0, SmallSMALookbackAmount := 0,
    UnbrokenBoundaryLeftBars := 0, UnbrokenBoundaryRightBars := 0,
    UnbrokenBoundaryMemoryLimit := 0, StochasticUpperBand := 0, StochasticLowerBand := 0,
    StochasticKPeriods := 0, StochasticDPeriods := 0, MoveToBreakEvenAt := 0,
    TrailingStop := false }

/-- A candle with the given time, high, low and close, every other field zero. -/
def candle (time : Time) (high low close : ℚ) : Row :=
  { Time := time, Open := 0, High := high, Low := low, Close := close, Volume := 0,
    LargeSMA := 0, SmallSMA := 0, HighBoundaries := [], LowBoundaries := [] }

/-- Trade of the test "Test LONG position hits STOP" of `trade_test.go`. -/
def testLongTrade : Trade :=
  { Instrument := "", TakenAt := 2, Direction := "LONG", EntryPrice := 100, StopPrice := 95,
    InitialStopPrice := 0, TargetPrice := 110, ClosedAtPrice := 0, ClosedAtTime := 0 }

/-- The trade `closed` is what `GenerateTradesInWindow` appends when it takes an entry
on `row`: the row has a direction, is a valid entry, the `switch` on the direction
yields the values `s`, the RR check passes, and `closed` is the new trade after
`ValidateTradeWithWindow`. -/
def createdAt (tradeWindow : Data) (instrumentConfig : InstrumentConfiguration)
    (instrument : String) (tickSize : ℚ) (row : Row) (s : EntrySetup) (closed : Trade) : Prop :=
  row.TradeDirection.2 ≠ some DataError.SMAValuesIntersect ∧
  row.IsValidEntry row.TradeDirection.1 = some true ∧
  entrySetup row row.TradeDirection.1 instrumentConfig tickSize = SetupOutcome.ready s ∧
  ¬ s.actualRR < instrumentConfig.MinimumRR ∧
  ValidateTradeWithWindow
    (newTrade instrument row.Time row.TradeDirection.1 row.Close s.stopPrice s.target.Value)
    tradeWindow instrumentConfig tickSize = some closed

/-- The later trade is taken strictly after the earlier trade was closed. -/
def takenAfterClose (earlier later : Trade) : Prop :=
  earlier.ClosedAtTime < later.TakenAt

instance (a b : Trade) : Decidable (takenAfterClose a b) := by
  unfold takenAfterClose
  infer_instance

/-- Candle times strictly increase along the window. -/
def strictlyIncreasingTimes (window : Data) : Prop :=
  window.Pairwise (fun a b => a.Time < b.Time)

instance (window : Data) : Decidable (strictlyIncreasingTimes window) := by
  unfold strictlyIncreasingTimes
  infer_instance

/-- Configuration of the sample window: minimum RR 1, two ticks added to the stop,
no trailing stop, no break-even. -/
def sampleConfiguration : InstrumentConfiguration :=
  { zeroConfiguration with MinimumRR := 1, StopSizeAddition := 2 }

/-- Entry candle of a SHORT trade: the small SMA is below the large one, the high
(102) wicks above the broken high boundary 100 and the close (98) is below it; the
unbroken low boundaries are 80 and 90. -/
def sampleShortEntry : Row :=
  { Time := 1, Open := 101, High := 102, Low := 97, Close := 98, Volume := 0,
    LargeSMA := 100, SmallSMA := 99,
    HighBoundaries := [{ Time := -5, Value := 100, Broken := true }],
    LowBoundaries := [{ Time := -4, Value := 80, Broken := false },
                      { Time := -3, Value := 90, Broken := false }] }

/-- Entry candle of a LONG trade: the small SMA is above the large one, the low (84)
wicks below the broken low boundary 85 and the close (88) is above it; the unbroken
high boundaries are 100 and 95. -/
def sampleLongEntry : Row :=
  { Time := 4, Open := 85, High := 89, Low := 84, Close := 88, Volume := 0,
    LargeSMA := 90, SmallSMA := 91,
    HighBoundaries := [{ Time := -2, Value := 100, Broken := false },
                       { Time := -1, Value := 95, Broken := false }],
    LowBoundaries := [{ Time := 0, Value := 85, Broken := true }] }

/-- A window of five candles: a SHORT entry, a quiet candle, a candle whose low
reaches 89, a LONG entry, and a candle whose high reaches 96. -/
def sampleWindow : Data :=
  [sampleShortEntry, candle 2 99 95 96, candle 3 94 89 91, sampleLongEntry, candle 5 96 87 94]

/-- The target of the trade is the smallest value among the unbroken low boundaries
of the candle (first in ascending order). -/
def targetIsSmallestUnbrokenLow (c : Row) (trade : Trade) : Prop :=
  (∃ b ∈ c.LowBoundaries, b.Broken = false ∧ b.Value = trade.TargetPrice) ∧
  ∀ b ∈ c.LowBoundaries, b.Broken = false → trade.TargetPrice ≤ b.Value

/-- The target of the trade is the largest value among the unbroken low boundaries
of the candle (first in descending order). -/
def targetIsLargestUnbrokenLow (c : Row) (trade : Trade) : Prop :=
  (∃ b ∈ c.LowBoundaries, b.Broken = false ∧ b.Value = trade.TargetPrice) ∧
  ∀ b ∈ c.LowBoundaries, b.Broken = false → b.Value ≤ trade.TargetPrice

/-- The target of the trade is the smallest value among the unbroken high boundaries
of the candle (first in ascending order). -/
def targetIsSmallestUnbrokenHigh (c : Row) (trade : Trade) : Prop :=
  (∃ b ∈ c.HighBoundaries, b.Broken = false ∧ b.Value = trade.TargetPrice) ∧
  ∀ b ∈ c.HighBoundaries, b.Broken = false → trade.TargetPrice ≤ b.Value

instance (c : Row) (trade : Trade) : Decidable (targetIsSmallestUnbrokenLow c trade) := by
  unfold targetIsSmallestUnbrokenLow
  infer_instance

instance (c : Row) (trade : Trade) : Decidable (targetIsLargestUnbrokenLow c trade) := by
  unfold targetIsLargestUnbrokenLow
  infer_instance

instance (c : Row) (trade : Trade) : Decidable (targetIsSmallestUnbrokenHigh c trade) := by
  unfold targetIsSmallestUnbrokenHigh
  infer_instance

/-- The SHORT trade `GenerateTradesInWindow` returns on the sample window. -/
def sampleShortTrade : Trade :=
  { Instrument := "ES", TakenAt := 1, Direction := "SHORT", EntryPrice := 98,
    StopPrice := 104, InitialStopPrice := 104, TargetPrice := 90,
    ClosedAtPrice := 90, ClosedAtTime := 3 }

/-- The LONG trade `GenerateTradesInWindow` returns on the sample window. -/
def sampleLongTrade : Trade :=
  { Instrument := "ES", TakenAt := 4, Direction := "LONG", EntryPrice := 88,
    StopPrice := 82, InitialStopPrice := 82, TargetPrice := 95,
    ClosedAtPrice := 95, ClosedAtTime := 5 }

/-! ## Indexing, pivots and the boundary tracker (`data.go`) -/

/-- Index expression `s[i]` with a Go `int` index; `none` is the index panic. -/
def indexAt {α : Type} (s : List α) (i : Int) : Option α :=
  if i < 0 then none else s[i.toNat]?

/-- Slice expression `s[low:]` with a Go `int` bound; `none` is the bounds panic. -/
def sliceFrom {α : Type} (s : List α) (low : Int) : Option (List α) :=
  if low < 0 ∨ (s.length : Int) < low then none else some (s.drop low.toNat)

/-- Constant `math.MaxInt64`: the largest value of a Go `int` (64 bits). -/
def MaxInt64 : Int := 9223372036854775807

/-- Constant `math.MinInt64`: the smallest value of a Go `int` (64 bits). -/
def MinInt64 : Int := -9223372036854775808

/-- Sum `a + b` of two Go `int` values: 64 bits in two's complement, so a sum past
`MaxInt64` or below `MinInt64` wraps around. -/
def intAdd (a b : Int) : Int :=
  (a + b + 9223372036854775808) % 18446744073709551616 - 9223372036854775808

/-- The loops `for j := 1; j <= bars; j++ { if bad((*d)[i ± j]) { return false } }` of
`isPivotHigh` and `isPivotLow`, with `n` passes left and `j` the loop variable: `some
false` is the early return, `some true` the end of the loop, `none` an index panic.
The index `i ± j` and the counter `j` stay below the length of the series on every
pass that reads a row (a Go slice has at most `MaxInt64` elements), so they are not
wrapped. -/
def pivotLoop (d : List Row) (i : Int) (sign : Int) (bad : Row → Bool) : Nat → Int → Option Bool
  | 0, _ => some true
  | n + 1, j =>
    match indexAt d (i + sign * j) with
    | none => none
    | some r => if bad r then some false else pivotLoop d i sign bad n (j + 1)

/-- Method `Data.isPivotHigh`.  The sum `i+rightBars` of the guard is a sum of Go
`int` values and wraps on overflow. -/
def isPivotHigh (d : Data) (i leftBars rightBars : Int) : Option Bool :=
  if i < leftBars ∨ intAdd i rightBars ≥ (d.length : Int) then some false
  else
    match indexAt d i with
    | none => none
    | some cur =>
      match pivotLoop d i (-1) (fun r => decide (r.High ≥ cur.High)) leftBars.toNat 1 with
      | none => none
      | some false => some false
      | some true =>
        pivotLoop d i 1 (fun r => decide (r.High ≥ cur.High)) rightBars.toNat 1

/-- Method `Data.isPivotLow`.  The sum `i+rightBars` of the guard is a sum of Go
`int` values and wraps on overflow. -/
def isPivotLow (d : Data) (i leftBars rightBars : Int) : Option Bool :=
  if i < leftBars ∨ intAdd i rightBars ≥ (d.length : Int) then some false
  else
    match indexAt d i with
    | none => none
    | some cur =>
      match pivotLoop d i (-1) (fun r => decide (r.Low ≤ cur.Low)) leftBars.toNat 1 with
      | none => none
      | some false => some false
      | some true =>
        pivotLoop d i 1 (fun r => decide (r.Low ≤ cur.Low)) rightBars.toNat 1

/-- Method `Boundaries.filterOldBoundaries`: the list after the call. -/
def Boundaries.filterOldBoundaries (b : Boundaries) (maxBoundaries : Int) : Option Boundaries :=
  let count : Int := b.length
  if count ≤ maxBoundaries then some b
  else
    sliceFrom (sortSlice (fun x y => decide (x.Time < y.Time)) b) (count - maxBoundaries)

/-- Method `Boundaries.updateBoundaries`: the list after the call. -/
def Boundaries.updateBoundaries (b : Boundaries) (newValue : ℚ) (time : Time) : Boundaries :=
  { Time := time, Value := newValue, Broken := false } :: b

/-- The body of the loop of `filterBrokenBoundaries` for one boundary: the entries it
appends to `newBoundaries`. -/
def brokenStep (currentValue : ℚ) (isHigh : Bool) (boundary : Boundary) : Boundaries :=
  let isBoundaryBroken : Bool :=
    (isHigh && decide (currentValue > boundary.Value)) ||
    (!isHigh && decide (currentValue < boundary.Value))
  (if isBoundaryBroken && !boundary.Broken then
      [{ Boundary.DeepCopy boundary with Broken := true }] else []) ++
  (if !boundary.Broken && !isBoundaryBroken then [boundary] else [])

/-- The loop of `filterBrokenBoundaries`: the list `newBoundaries` it builds. -/
def brokenLoop (currentValue : ℚ) (isHigh : Bool) : Boundaries → Boundaries
  | [] => []
  | boundary :: rest => brokenStep currentValue isHigh boundary ++ brokenLoop currentValue isHigh rest

/-- Method `Boundaries.filterBrokenBoundaries`: the list after the call. -/
def Boundaries.filterBrokenBoundaries (b : Boundaries) (currentValue : ℚ) (isHigh : Bool)
    (maxBoundaries : Int) : Option Boundaries :=
  Boundaries.filterOldBoundaries (brokenLoop currentValue isHigh b) maxBoundaries

/-- The body of the loop of `CalculateUnbrokenHighsLows` for the row at index `i`:
the row after the pass.  `previousRow` is `(*d)[i-1]` as the pass before left it;
`d` is read only for the highs and lows, which the loop never writes. -/
def calculateRow (d : Data) (leftBars rightBars maxBoundaries : Int) (i : Nat) (row : Row)
    (previousRow : Option Row) : Option Row :=
  match isPivotHigh d i leftBars rightBars, isPivotLow d i leftBars rightBars with
  | some highPivot, some lowPivot =>
    let copied : Row :=
      match previousRow with
      | some p =>
        if i > 0 then { row with HighBoundaries := p.HighBoundaries,
                                 LowBoundaries := p.LowBoundaries }
        else row
      | none => row
    let highs :=
      if highPivot then Boundaries.updateBoundaries copied.HighBoundaries row.High row.Time
      else copied.HighBoundaries
    let lows :=
      if lowPivot then Boundaries.updateBoundaries copied.LowBoundaries row.Low row.Time
      else copied.LowBoundaries
    match Boundaries.filterBrokenBoundaries highs row.High true maxBoundaries,
          Boundaries.filterBrokenBoundaries lows row.Low false maxBoundaries with
    | some highs1, some lows1 =>
      some { copied with HighBoundaries := highs1, LowBoundaries := lows1 }
    | _, _ => none
  | _, _ => none

/-- The `for i, row := range *d` loop of `CalculateUnbrokenHighsLows` from index `i`
on, over the rows that are left. -/
def calculateLoop (d : Data) (leftBars rightBars maxBoundaries : Int) :
    Nat → Option Row → List Row → Option (List Row)
  | _, _, [] => some []
  | i, previousRow, row :: rest =>
    match calculateRow d leftBars rightBars maxBoundaries i row previousRow with
    | none => none
    | some row1 =>
      match calculateLoop d leftBars rightBars maxBoundaries (i + 1) (some row1) rest with
      | none => none
      | some rest1 => some (row1 :: rest1)

/-- Method `Data.CalculateUnbrokenHighsLows`: the series after the call; `none` is a
panic. -/
def CalculateUnbrokenHighsLows (d : Data) (leftBars rightBars maxBoundaries : Int) :
    Option Data :=
  calculateLoop d leftBars rightBars maxBoundaries 0 none d


/-- The high of the candle at index `i` is strictly above the high of each of the
`leftBars` candles before it and of each of the `rightBars` candles after it. -/
def strictlyHighest (d : Data) (i leftBars rightBars : Int) : Prop :=
  ∃ cur, indexAt d i = some cur ∧
    (∀ j : Int, 1 ≤ j → j ≤ leftBars → ∃ r, indexAt d (i - j) = some r ∧ r.High < cur.High) ∧
    (∀ j : Int, 1 ≤ j → j ≤ rightBars → ∃ r, indexAt d (i + j) = some r ∧ r.High < cur.High)

/-- The common shape of `isPivotHigh` and `isPivotLow`, with the comparison left
open: `bad cur r` says that row `r` disqualifies the candle `cur`. -/
def pivotCheck (d : Data) (bad : Row → Row → Bool) (i leftBars rightBars : Int) : Option Bool :=
  if i < leftBars ∨ intAdd i rightBars ≥ (d.length : Int) then some false
  else
    match indexAt d i with
    | none => none
    | some cur =>
      match pivotLoop d i (-1) (bad cur) leftBars.toNat 1 with
      | none => none
      | some false => some false
      | some true => pivotLoop d i 1 (bad cur) rightBars.toNat 1

/-- The entry `filterBrokenBoundaries` keeps for an unbroken boundary: the boundary
itself, marked broken when the current value is past its Value (strictly above it on
the high side, strictly below it on the low side). -/
def markBroken (currentValue : ℚ) (isHigh : Bool) (boundary : Boundary) : Boundary :=
  { boundary with
    Broken := if isHigh then decide (boundary.Value < currentValue)
              else decide (currentValue < boundary.Value) }

/-- The unbroken boundaries of the list, in order, each marked by `markBroken`. -/
def markedUnbroken (b : Boundaries) (currentValue : ℚ) (isHigh : Bool) : Boundaries :=
  (b.filter (fun x => !x.Broken)).map (markBroken currentValue isHigh)

/-- The list a row starts its pass of `CalculateUnbrokenHighsLows` with, on the side
`side` (HighBoundaries or LowBoundaries): the clone of the list of the row before
when `i > 0`, the row's own list for the first row. -/
def carriedList (side : Row → Boundaries) (i : Nat) (row : Row) (previousRow : Option Row) :
    Boundaries :=
  match previousRow with
  | some p => if i > 0 then side p else side row
  | none => side row

/-- One pass of `CalculateUnbrokenHighsLows` on one side: from the list `base` the
candle of time `time` makes the list `next`, by adding its pivot (if it is one) and
filtering by the break rule of its value `cur` under the cap. -/
def sideStep (base : Boundaries) (time : Time) (pivot : Bool) (cur : ℚ) (isHigh : Bool)
    (maxBoundaries : Int) (next : Boundaries) : Prop :=
  Boundaries.filterBrokenBoundaries
    (if pivot then Boundaries.updateBoundaries base cur time else base)
    cur isHigh maxBoundaries = some next

/-- The sum `i + rightBars` of the guard of `isPivotHigh` and `isPivotLow` does not
overflow the Go `int`. -/
def sumInRange (i rightBars : Int) : Prop :=
  MinInt64 ≤ i + rightBars ∧ i + rightBars ≤ MaxInt64

instance (i rightBars : Int) : Decidable (sumInRange i rightBars) := by
  unfold sumInRange
  infer_instance

/-- The guard sum of `isPivotHigh` and `isPivotLow` does not overflow at any index of
a series of `n` candles: `rightBars` is a Go `int` and the last index plus
`rightBars` is at most `MaxInt64`. -/
def sumsInRange (n : Nat) (rightBars : Int) : Prop :=
  MinInt64 ≤ rightBars ∧ (n : Int) + rightBars ≤ MaxInt64 + 1

instance (n : Nat) (rightBars : Int) : Decidable (sumsInRange n rightBars) := by
  unfold sumsInRange
  infer_instance

/-- The first candle of the series carries no boundary lists yet: the series has not
been through `CalculateUnbrokenHighsLows`. -/
def firstCandleUnannotated (d : Data) : Prop :=
  ∀ r, d.head? = some r → r.HighBoundaries = [] ∧ r.LowBoundaries = []

instance (d : Data) : Decidable (firstCandleUnannotated d) := by
  unfold firstCandleUnannotated
  cases h : d.head? with
  | none => exact isTrue (by intro r hr; exact absurd hr (by simp))
  | some r0 =>
    exact decidable_of_iff (r0.HighBoundaries = [] ∧ r0.LowBoundaries = [])
      ⟨fun hh r hr => by injection hr with hr; rw [← hr]; exact hh,
       fun hh => hh r0 rfl⟩

/-- A series of five candles with highs 1, 3, 2, 5, 4 (lows 1): with one bar on each
side the candles of index 1 and 3 are pivot highs, and the candle of index 3 breaks
the boundary of the candle of index 1. -/
def pivotSeries : Data :=
  [candle 0 1 1 0, candle 1 3 1 0, candle 2 2 1 0, candle 3 5 1 0, candle 4 4 1 0]

/-- A series of two candles whose first candle already carries a high boundary (Time
7, Value 5) when `CalculateUnbrokenHighsLows` is called. -/
def annotatedSeries : Data :=
  [{ candle 0 10 1 0 with HighBoundaries := [⟨7, 5, false⟩] }, candle 1 9 1 0]

/-- The series `CalculateUnbrokenHighsLows` makes of `pivotSeries` with one bar on
each side and the cap 10. -/
def pivotSeriesTracked : Data :=
  [candle 0 1 1 0,
   { candle 1 3 1 0 with HighBoundaries := [⟨1, 3, false⟩] },
   { candle 2 2 1 0 with HighBoundaries := [⟨1, 3, false⟩] },
   { candle 3 5 1 0 with HighBoundaries := [⟨3, 5, false⟩, ⟨1, 3, true⟩] },
   { candle 4 4 1 0 with HighBoundaries := [⟨3, 5, false⟩] }]

/-! ## Moving averages (`data.go`) -/

/-- The loop `for j := ...; j <= i; j++ { sum += (*d)[j].Close }` of `CalculateSMA`,
with `n` passes left, `j` the loop variable and `sum` the running sum; `none` is an
index panic. -/
def sumCloseLoop (d : Data) : Nat → Int → ℚ → Option ℚ
  | 0, _, sum => some sum
  | n + 1, j, sum =>
    match indexAt d j with
    | none => none
    | some r => sumCloseLoop d n (j + 1) (sum + r.Close)

/-- The average `CalculateSMA` gives the row of index `i` for one lookback amount
(data.go lines 426-432, and 435-441 for the small one). -/
def smaAt (d : Data) (i : Nat) (lookbackAmount : Int) (tickSize : ℚ) : Option ℚ :=
  let lookback : Int := min ((i : Int) + 1) lookbackAmount
  match sumCloseLoop d lookback.toNat ((i : Int) - lookback + 1) 0 with
  | none => none
  | some sum => some (RoundToDecimalLength (sum / (lookback : ℚ)) tickSize)

/-- The `for i, row := range *d` loop of `CalculateSMA` from index `i` on, over the
rows that are left; `d` is read only for the closes, which the loop never writes. -/
def calculateSMALoop (d : Data) (config : InstrumentConfiguration) (tickSize : ℚ) :
    Nat → List Row → Option (List Row)
  | _, [] => some []
  | i, row :: rest =>
    match smaAt d i config.LargeSMALookbackAmount tickSize,
          smaAt d i config.SmallSMALookbackAmount tickSize with
    | some largeSMA, some smallSMA =>
      match calculateSMALoop d config tickSize (i + 1) rest with
      | none => none
      | some rest1 => some ({ row with LargeSMA := largeSMA, SmallSMA := smallSMA } :: rest1)
    | _, _ => none

/-- Method `Data.CalculateSMA`: the error it returns (`none` for nil) and the series
after the call; the outer `none` is a panic. -/
def CalculateSMA (d : Data) (config : InstrumentConfiguration) (tickSize : ℚ) :
    Option (Option DataError × Data) :=
  if config.LargeSMALookbackAmount ≤ 0 ∨ config.SmallSMALookbackAmount ≤ 0 then
    some (some .SMALookbackInvalid, d)
  else if d.length = 0 then some (some .DataEmptyError, d)
  else
    match calculateSMALoop d config tickSize 0 d with
    | none => none
    | some d1 => some (none, d1)

/-- Mean of Close over the candles of index `lo` to `hi` of the series. -/
def meanClose (d : Data) (lo hi : Nat) : ℚ :=
  (((d.drop lo).take (hi + 1 - lo)).map (fun r => r.Close)).sum / ((hi + 1 - lo : Nat) : ℚ)

/-- The average as the specification words it: the mean of Close over the indices
max(0, i - lookback + 1) .. i, rounded to the tick size. -/
def roundedMeanClose (d : Data) (i : Nat) (lookbackAmount : Int) (tickSize : ℚ) : ℚ :=
  RoundToDecimalLength (meanClose d ((i : Int) - lookbackAmount + 1).toNat i) tickSize

/-- Series of the test "Valid small and large SMA calculation" of `data_test.go`:
closes 100, 200, 300. -/
def smaSeries : Data :=
  [candle 1 0 0 100, candle 2 0 0 200, candle 3 0 0 300]

/-- Configuration of that test: large lookback 3, small lookback 2. -/
def smaConfiguration : InstrumentConfiguration :=
  { zeroConfiguration with LargeSMALookbackAmount := 3, SmallSMALookbackAmount := 2 }

-- Equality of `Except` values is decidable.
deriving instance DecidableEq for Except

/-! ## Clock and calendar (`package time`, location UTC) -/

/-- Duration `time.Minute`, in nanoseconds. -/
def durMinute : Int := 60 * 1000000000

/-- Duration `time.Hour`, in nanoseconds. -/
def durHour : Int := 60 * durMinute

/-- Duration `24 * time.Hour`, in nanoseconds: one calendar day of UTC. -/
def durDay : Int := 24 * durHour

/-- Number of the calendar day (UTC) an instant falls on; day 0 is 0001-01-01, the
day of the zero `time.Time`. -/
def dayNumber (t : Time) : Int := t / durDay

/-- Value `time.Sunday`. -/
def Sunday : Int := 0

/-- Value `time.Saturday`. -/
def Saturday : Int := 6

/-- Method `Time.Weekday`, Sunday being 0 and Saturday 6; 0001-01-01 is a Monday. -/
def Weekday (t : Time) : Int := (dayNumber t + 1) % 7

/-- Method `Time.Hour`: the hour within the day, 0 to 23. -/
def Hour (t : Time) : Int := (t % durDay) / durHour

/-- Method `Time.Minute`: the minute within the hour, 0 to 59. -/
def Minute (t : Time) : Int := (t % durHour) / durMinute

/-- Days from 0001-01-01 to the first of January of `year` (proleptic Gregorian
calendar). -/
def daysBeforeYear (year : Int) : Int :=
  365 * (year - 1) + (year - 1) / 4 - (year - 1) / 100 + (year - 1) / 400

/-- Leap years of the Gregorian calendar. -/
def isLeap (year : Int) : Bool :=
  decide (year % 4 = 0 ∧ (year % 100 ≠ 0 ∨ year % 400 = 0))

/-- Days from the first of January to the first of `month` in `year`. -/
def daysBeforeMonth (year month : Int) : Int :=
  [0, 31, 59, 90, 120, 151, 181, 212, 243, 273, 304, 334].getD (month - 1).toNat 0 +
    (if month > 2 ∧ isLeap year = true then 1 else 0)

/-- Function `time.Date(year, month, day, hour, min, sec, nsec, time.UTC)` for a
month from 1 to 12 (the normalisation of months out of range is not modelled). -/
def Date (year month day hour min sec nsec : Int) : Time :=
  (daysBeforeYear year + daysBeforeMonth year month + (day - 1)) * durDay +
    hour * durHour + min * durMinute + sec * 1000000000 + nsec

/-- The call `time.Date(refDate.Year(), refDate.Month(), refDate.Day(), hour, min, 0,
0, refDate.Location())` of `SubsetDataForMultipleDays`: the instant `hour:min` on the
calendar day of `refDate`. -/
def dateOnDayOf (refDate : Time) (hour min : Int) : Time :=
  dayNumber refDate * durDay + hour * durHour + min * durMinute

/-- Value of a decimal digit. -/
def digitValue (c : Char) : Int := (c.toNat : Int) - 48

/-- Function `getnum` of package time: one or two leading digits (exactly two when
`fixed`), with the rest of the text. -/
def getnum (s : List Char) (fixed : Bool) : Option (Int × List Char) :=
  match s with
  | [] => none
  | c0 :: rest0 =>
    if c0.isDigit = false then none
    else
      match rest0 with
      | [] => if fixed then none else some (digitValue c0, [])
      | c1 :: rest1 =>
        if c1.isDigit = false then
          if fixed then none else some (digitValue c0, c1 :: rest1)
        else some (digitValue c0 * 10 + digitValue c1, rest1)

/-- The call `time.Parse("15:04", value)`: an hour of one or two digits below 24, a
colon, a minute of two digits below 60 and nothing more; the result is that clock
time on the first of January of year 0, in UTC.  `none` is the parse error. -/
def timeParse (value : String) : Option Time :=
  match getnum value.toList false with
  | none => none
  | some (hour, rest) =>
    if hour < 0 ∨ 24 ≤ hour then none
    else
      match rest with
      | ':' :: rest1 =>
        match getnum rest1 true with
        | none => none
        | some (min, rest2) =>
          if min < 0 ∨ 60 ≤ min then none
          else if rest2 ≠ [] then none
          else some (Date 0 1 1 hour min 0 0)
      | _ => none

/-! ## Trading windows (`data.go`) -/

/-- Loop variables of `SubsetDataForMultipleDays`.  The slice `subset` is `nil` or
holds at least one row (it is only ever assigned `nil` or the result of an `append`),
so `nil` is the empty list. -/
structure SubsetState where
  result : List Data
  subset : Data
  isNextDay : Bool
deriving DecidableEq, Repr

/-- Local `refDate` (data.go lines 547-553). -/
def refDate (spansMidnight isNextDay : Bool) (row : Row) : Time :=
  if isNextDay = true ∧ spansMidnight = true then row.Time + (-24) * durHour else row.Time

/-- Local `fullStartTime` (data.go lines 556-565). -/
def fullStartTime (tStart refDate : Time) : Time :=
  dateOnDayOf refDate (Hour tStart) (Minute tStart)

/-- Local `fullEndTime` (data.go lines 566-580), with the 24 hours added when the start
is after the end. -/
def fullEndTime (tStart tEnd refDate : Time) : Time :=
  if fullStartTime tStart refDate > dateOnDayOf refDate (Hour tEnd) (Minute tEnd) then
    dateOnDayOf refDate (Hour tEnd) (Minute tEnd) + 24 * durHour
  else dateOnDayOf refDate (Hour tEnd) (Minute tEnd)

/-- Local `isLastIntervalOfDay` (data.go line 583). -/
def isLastIntervalOfDay (row : Row) : Bool :=
  decide (Hour row.Time = 23 ∧ Minute row.Time ≥ 55)

/-- The conditional appends to `subset` (data.go lines 587-608): the slice after them. -/
def appendToSubset (spansMidnight : Bool) (start finish : Time) (isNextDay : Bool)
    (subset : Data) (row : Row) : Data :=
  if spansMidnight = true then
    if isNextDay = false ∧ (row.Time > start ∨ row.Time = start) then subset ++ [row]
    else if isNextDay = true ∧ (row.Time < finish ∨ row.Time = finish) then subset ++ [row]
    else subset
  else if (row.Time > start ∨ row.Time = start) ∧ (row.Time < finish ∨ row.Time = finish) then
    subset ++ [row]
  else subset

/-- The check at the end of the loop body (data.go lines 611-631) on a non-empty
subset whose first and last rows are `first` and `last`. -/
def checkSubset (start finish : Time) (result : List Data) (subset : Data)
    (isNextDay : Bool) (first last : Row) : SubsetState :=
  if first.Time ≠ start ∨ last.Time ≠ finish then
    { result := result, subset := [], isNextDay := isNextDay }
  else { result := result ++ [subset], subset := [], isNextDay := false }

/-- The end of the loop body (data.go lines 611-631): the state after the test
`row.Time.Equal(fullEndTime) && subset != nil` and what it guards. -/
def closeSubset (start finish : Time) (result : List Data) (subset : Data)
    (isNextDay : Bool) (row : Row) : SubsetState :=
  if row.Time = finish ∧ subset ≠ [] then
    match subset.head?, subset.getLast? with
    | some first, some last => checkSubset start finish result subset isNextDay first last
    | _, _ => { result := result, subset := subset, isNextDay := isNextDay }
  else { result := result, subset := subset, isNextDay := isNextDay }

/-- One pass through the body of the loop of `SubsetDataForMultipleDays`. -/
def subsetStep (tStart tEnd : Time) (spansMidnight : Bool) (st : SubsetState) (row : Row) :
    SubsetState :=
  if Weekday row.Time = Saturday ∨ Weekday row.Time = Sunday then st
  else if spansMidnight = true ∧ isLastIntervalOfDay row = true ∧ st.isNextDay = false then
    { result := st.result
      subset := appendToSubset spansMidnight
        (fullStartTime tStart (refDate spansMidnight st.isNextDay row))
        (fullEndTime tStart tEnd (refDate spansMidnight st.isNextDay row))
        st.isNextDay st.subset row
      isNextDay := true }
  else
    closeSubset
      (fullStartTime tStart (refDate spansMidnight st.isNextDay row))
      (fullEndTime tStart tEnd (refDate spansMidnight st.isNextDay row))
      st.result
      (appendToSubset spansMidnight
        (fullStartTime tStart (refDate spansMidnight st.isNextDay row))
        (fullEndTime tStart tEnd (refDate spansMidnight st.isNextDay row))
        st.isNextDay st.subset row)
      st.isNextDay row

/-- The `for` loop of `SubsetDataForMultipleDays` over the rows that are left: the loop
variables after one pass are the state the next pass starts from. -/
def subsetLoop (tStart tEnd : Time) (spansMidnight : Bool) : SubsetState → List Row → SubsetState
  | st, [] => st
  | st, row :: rest =>
    match subsetStep tStart tEnd spansMidnight st row with
    | { result := result, subset := subset, isNextDay := isNextDay } =>
      subsetLoop tStart tEnd spansMidnight
        { result := result, subset := subset, isNextDay := isNextDay } rest

/-- Method `Data.SubsetDataForMultipleDays`: the windows, or the text `time.Parse`
rejected. -/
def SubsetDataForMultipleDays (d : Data) (startTime endTime : String) :
    Except String (List Data) :=
  match timeParse startTime with
  | none => .error startTime
  | some tStart =>
    match timeParse endTime with
    | none => .error endTime
    | some tEnd =>
      .ok (subsetLoop tStart tEnd (decide (tStart > tEnd))
        { result := [], subset := [], isNextDay := false } d).result

/-- Row of the mock series of `data_test.go`: open 1.0, high 1.1, low 0.9, close 1.05,
volume 100. -/
def mockRow (t : Time) : Row :=
  { Time := t, Open := 1, High := 11 / 10, Low := 9 / 10, Close := 105 / 100, Volume := 100,
    LargeSMA := 0, SmallSMA := 0, HighBoundaries := [], LowBoundaries := [] }

/-- The loop `for t := startTime; t.Before(endTime) || t.Equal(endTime);
t = t.Add(5 * time.Minute)` of the mock series of `data_test.go`, with `n` passes
left. -/
def mockLoop (endTime : Time) : Nat → Time → Data
  | 0, _ => []
  | n + 1, t =>
    if t < endTime ∨ t = endTime then mockRow t :: mockLoop endTime n (t + 5 * durMinute)
    else []

/-- A 5-minute mock series from `startTime` to `endTime`, as the functions
`mockOneDayRDRInputData`, `mockOneDayADRInputData`, ... of `data_test.go` build it. -/
def mockSeries (startTime endTime : Time) : Data :=
  mockLoop endTime ((endTime - startTime) / (5 * durMinute) + 1).toNat startTime

/-- Offset of a clock time from midnight: its hour and minute as a duration. -/
def clockOffset (clock : Time) : Int :=
  Hour clock * durHour + Minute clock * durMinute

/-- Start boundary of the session of calendar day `day`: the start clock time on that
day. -/
def startBoundary (tStart : Time) (day : Int) : Time :=
  day * durDay + clockOffset tStart

/-- End boundary of the session of calendar day `day`: the end clock time on that day,
or on the day after when the start is after the end (a session that spans midnight). -/
def endBoundary (tStart tEnd : Time) (day : Int) : Time :=
  day * durDay + clockOffset tEnd + (if tStart > tEnd then durDay else 0)

/-- The window is not empty, starts on the start boundary of a session and ends on
the end boundary of the same session. -/
def exactBoundary (tStart tEnd : Time) (w : Data) : Prop :=
  ∃ first last, w.head? = some first ∧ w.getLast? = some last ∧
    ∃ day : Int, first.Time = startBoundary tStart day ∧
      last.Time = endBoundary tStart tEnd day

/-- A clock time as `time.Parse("15:04", ·)` returns it: `hour:min` on the first of
January of year 0. -/
def parsedClock (t : Time) : Prop :=
  ∃ hour min : Int, 0 ≤ hour ∧ hour < 24 ∧ 0 ≤ min ∧ min < 60 ∧
    t = (-366) * durDay + hour * durHour + min * durMinute

/-- The candle's time lies in the closed interval from the start boundary to the end
boundary of the session of calendar day `day`. -/
def inSession (tStart tEnd : Time) (day : Int) (r : Row) : Bool :=
  decide (startBoundary tStart day ≤ r.Time ∧ r.Time ≤ endBoundary tStart tEnd day)

/-- The candle is on a weekday and its time lies between the boundaries of the
session of its own calendar day. -/
def ownSession (tStart tEnd : Time) (r : Row) : Bool :=
  decide (¬ (Weekday r.Time = Saturday ∨ Weekday r.Time = Sunday) ∧
    startBoundary tStart (dayNumber r.Time) ≤ r.Time ∧
    r.Time ≤ endBoundary tStart tEnd (dayNumber r.Time))

/-- State of the loop of `SubsetDataForMultipleDays` for a same-day span once it has
passed over the rows `pre`: the subset holds the rows of a suffix of `pre` that lie in
their own session, and every window emitted holds exactly the rows of `pre` in the
session of one day, whose end boundary a row of `pre` has reached. -/
def sameDayInvariant (tStart tEnd : Time) (pre : List Row) (st : SubsetState) : Prop :=
  (∃ pre1 pre2, pre = pre1 ++ pre2 ∧ st.subset = pre2.filter (ownSession tStart tEnd)) ∧
  ∀ w ∈ st.result, ∃ day : Int, w = pre.filter (inSession tStart tEnd day) ∧ w ≠ [] ∧
    ∃ l ∈ pre, l.Time = endBoundary tStart tEnd day

/-- Configuration with the trailing stop enabled and a break-even threshold of 50 per
cent. -/
def trailingConfiguration : InstrumentConfiguration :=
  { zeroConfiguration with TrailingStop := true, MoveToBreakEvenAt := 50 }

/-- Configuration of the test "Test LONG position move to BE at 50%" of `trade_test.go`:
`&utils.InstrumentConfiguration{MoveToBreakEvenAt: 50}`. -/
def breakEvenConfiguration : InstrumentConfiguration :=
  { zeroConfiguration with MoveToBreakEvenAt := 50 }

/-- Trade of the test "Test LONG position move to BE at 50%" of `trade_test.go`. -/
def breakEvenTrade : Trade :=
  { Instrument := "", TakenAt := 1, Direction := "LONG", EntryPrice := 100, StopPrice := 50,
    InitialStopPrice := 0, TargetPrice := 300, ClosedAtPrice := 0, ClosedAtTime := 0 }

/-- Window of the test "Test LONG position move to BE at 50%" of `trade_test.go`. -/
def breakEvenWindow : Data :=
  [{ candle 1 111 90 100 with Open := 105 }, { candle 2 215 110 150 with Open := 120 },
   { candle 3 250 130 150 with Open := 180 }]

/-- Configuration of the tests "Test SHORT position trailing STOP" and "Test LONG
position trailing STOP" of `trade_test.go`:
`&utils.InstrumentConfiguration{TrailingStopAmount: 50}`. -/
def tickTrailConfiguration : InstrumentConfiguration :=
  { zeroConfiguration with TrailingStopAmount := 50 }

/-- Trade of the test "Test SHORT position trailing STOP" of `trade_test.go`. -/
def tickTrailTrade : Trade :=
  { Instrument := "", TakenAt := 1, Direction := "SHORT", EntryPrice := 100, StopPrice := 300,
    InitialStopPrice := 0, TargetPrice := 50, ClosedAtPrice := 0, ClosedAtTime := 0 }

/-- Window of the test "Test SHORT position trailing STOP" of `trade_test.go`. -/
def tickTrailWindow : Data :=
  [{ candle 1 111 90 100 with Open := 105 }, { candle 2 105 80 90 with Open := 100 },
   { candle 3 90 60 75 with Open := 90 }]

/-- A SHORT trade entered at 200 with its stop at 300 and its target at 100. -/
def shortBreakEvenTrade : Trade :=
  { Instrument := "", TakenAt := 1, Direction := "SHORT", EntryPrice := 200, StopPrice := 300,
    InitialStopPrice := 300, TargetPrice := 100, ClosedAtPrice := 0, ClosedAtTime := 0 }

/-- A window for `shortBreakEvenTrade`: the entry candle, a candle that trades between
250 and 280, entirely above the entry price, and a candle between 240 and 270. -/
def shortBreakEvenWindow : Data :=
  [candle 1 210 190 200, candle 2 280 250 260, candle 3 270 240 250]

/-- The candle is not on a Saturday or a Sunday. -/
def onWeekday (r : Row) : Prop :=
  ¬ (Weekday r.Time = Saturday ∨ Weekday r.Time = Sunday)

instance (r : Row) : Decidable (onWeekday r) := by
  unfold onWeekday
  infer_instance

/-- Candles at 10:00 and 10:05 on Friday 2020-06-05, Saturday 2020-06-06, Sunday
2020-06-07 and Monday 2020-06-08. -/
def weekendSeries : Data :=
  [mockRow (Date 2020 6 5 10 0 0 0), mockRow (Date 2020 6 5 10 5 0 0),
   mockRow (Date 2020 6 6 10 0 0 0), mockRow (Date 2020 6 6 10 5 0 0),
   mockRow (Date 2020 6 7 10 0 0 0), mockRow (Date 2020 6 7 10 5 0 0),
   mockRow (Date 2020 6 8 10 0 0 0), mockRow (Date 2020 6 8 10 5 0 0)]

/-- A series of six candles, every one with the small SMA below the large one: the
candle of index 1 is a pivot high (12), the candle of index 2 a pivot low (5), and
the candle of index 4 wicks through 12 up to 13 and closes at 11. -/
def profitSeries : Data :=
  [{ candle 0 10 8 9 with SmallSMA := 1, LargeSMA := 2 },
   { candle 1 12 9 10 with SmallSMA := 1, LargeSMA := 2 },
   { candle 2 11 5 6 with SmallSMA := 1, LargeSMA := 2 },
   { candle 3 (23 / 2) 7 8 with SmallSMA := 1, LargeSMA := 2 },
   { candle 4 13 6 11 with SmallSMA := 1, LargeSMA := 2 },
   { candle 5 12 4 5 with SmallSMA := 1, LargeSMA := 2 }]

/-- The series `CalculateUnbrokenHighsLows` makes of `profitSeries` with one bar on
each side and the cap 10. -/
def profitSeriesTracked : Data :=
  [{ candle 0 10 8 9 with SmallSMA := 1, LargeSMA := 2 },
   { candle 1 12 9 10 with SmallSMA := 1, LargeSMA := 2,
                           HighBoundaries := [⟨1, 12, false⟩] },
   { candle 2 11 5 6 with SmallSMA := 1, LargeSMA := 2,
                          HighBoundaries := [⟨1, 12, false⟩],
                          LowBoundaries := [⟨2, 5, false⟩] },
   { candle 3 (23 / 2) 7 8 with SmallSMA := 1, LargeSMA := 2,
                                HighBoundaries := [⟨1, 12, false⟩],
                                LowBoundaries := [⟨2, 5, false⟩] },
   { candle 4 13 6 11 with SmallSMA := 1, LargeSMA := 2,
                           HighBoundaries := [⟨4, 13, false⟩, ⟨1, 12, true⟩],
                           LowBoundaries := [⟨2, 5, false⟩] },
   { candle 5 12 4 5 with SmallSMA := 1, LargeSMA := 2,
                          HighBoundaries := [⟨4, 13, false⟩],
                          LowBoundaries := [⟨2, 5, true⟩] }]

/-- The SHORT trade `GenerateTradesInWindow` returns on `profitSeriesTracked`. -/
def profitSeriesTrade : Trade :=
  { Instrument := "ES", TakenAt := 4, Direction := "SHORT", EntryPrice := 11,
    StopPrice := 15, InitialStopPrice := 15, TargetPrice := 5,
    ClosedAtPrice := 5, ClosedAtTime := 5 }

/-! ## The trade log (`tradeLog.go`) -/

/-- Struct `Row` of `tradeLog.go`: one row of the trade log.  `Profit` is a `float32`
in the source and a rational here. -/
structure tradeLog.Row where
  Instrument : String
  TakenAt : Time
  Direction : String
  EntryPrice : ℚ
  StopPrice : ℚ
  InitialStopPrice : ℚ
  TargetPrice : ℚ
  ClosedAtPrice : ℚ
  ClosedAtTime : Time
  TakenAtDate : String
  TakenAtTime : String
  Win : Bool
  Profit : ℚ
deriving DecidableEq, Repr

/-- Slice type `Log` of `tradeLog.go`. -/
abbrev tradeLog.Log := List tradeLog.Row

/-- Function `AddRow` of `tradeLog.go`.  The method `Format` of `time.Time` is the
argument `format` (time first, layout second); the `switch` compares the direction
with the strings "LONG" and "SHORT", which are the values of `LONG` and `SHORT`, and
its `default` branch only logs, so `Win` keeps the zero value `false`. -/
def tradeLog.AddRow (format : Time → String → String) (l : tradeLog.Log) (trade : Trade) :
    tradeLog.Log :=
  let row : tradeLog.Row :=
    { Instrument := trade.Instrument
      TakenAt := trade.TakenAt
      Direction := trade.Direction
      EntryPrice := trade.EntryPrice
      StopPrice := trade.StopPrice
      InitialStopPrice := trade.InitialStopPrice
      TargetPrice := trade.TargetPrice
      ClosedAtPrice := trade.ClosedAtPrice
      ClosedAtTime := trade.ClosedAtTime
      TakenAtDate := ""
      TakenAtTime := ""
      Win := false
      Profit := 0 }
  let row := { row with TakenAtDate := format trade.TakenAt "2006-01-02" }
  let row := { row with TakenAtTime := format trade.TakenAt "15:04:05" }
  let row :=
    if row.Direction = LONG then
      { row with Win := decide (row.ClosedAtPrice > row.EntryPrice) }
    else if row.Direction = SHORT then
      { row with Win := decide (row.ClosedAtPrice < row.EntryPrice) }
    else row
  let row :=
    if row.EntryPrice = trade.InitialStopPrice then
      { row with Profit := 0 }
    else
      { row with Profit := (trade.ClosedAtPrice - trade.EntryPrice) /
                             (trade.EntryPrice - trade.InitialStopPrice) }
  l ++ [row]

/-- Trade of the test `TestAddRow` of `tradeLog_test.go`, taken at the time `now` and
closed 24 hours later. -/
def mockTrade (now : Time) : Trade :=
  { Instrument := "AAPL", TakenAt := now, Direction := "LONG", EntryPrice := 100,
    StopPrice := 95, InitialStopPrice := 95, TargetPrice := 110, ClosedAtPrice := 105,
    ClosedAtTime := now + 24 * durHour }

/-! # Theorems -/

/-! ## Lemmas on the boundary queries -/

theorem Boundary_DeepCopy_eq (b : Boundary) : Boundary.DeepCopy b = b := rfl

theorem Boundaries_DeepCopy_eq (b : Boundaries) : Boundaries.DeepCopy b = b := by
  induction b with
  | nil => rfl
  | cons x xs ih =>
    have h : Boundaries.DeepCopy (x :: xs) = Boundary.DeepCopy x :: Boundaries.DeepCopy xs := rfl
    rw [h, ih, Boundary_DeepCopy_eq]

/-- The first element of a sorted non-empty list is one of its elements and no
element is `less` than it. -/
theorem sortSlice_head {α : Type} (less : α → α → Bool)
    (hasym : ∀ a b, less a b = true → less b a = false)
    (hneg : ∀ a b c, less a b = false → less b c = false → less a c = false)
    (hirr : ∀ a, less a a = false) :
    ∀ l : List α, l ≠ [] →
      ∃ h, (sortSlice less l).head? = some h ∧ h ∈ l ∧ ∀ b ∈ l, less b h = false := by
  intro l
  induction l with
  | nil => intro h; exact absurd rfl h
  | cons x xs ih =>
    intro _
    by_cases hxs : xs = []
    · subst hxs
      refine ⟨x, by simp [sortSlice, sortInsert], by simp, ?_⟩
      intro b hb
      simp at hb
      subst hb
      exact hirr b
    · obtain ⟨h, hhead, hmem, hmin⟩ := ih hxs
      obtain ⟨tl, htl⟩ : ∃ tl, sortSlice less xs = h :: tl := by
        cases hs : sortSlice less xs with
        | nil => rw [hs] at hhead; simp at hhead
        | cons a tl =>
          rw [hs] at hhead
          simp at hhead
          exact ⟨tl, by rw [hhead]⟩
      by_cases hlt : less h x = true
      · refine ⟨h, by simp [sortSlice, htl, sortInsert, hlt], List.mem_cons_of_mem _ hmem, ?_⟩
        intro b hb
        rcases List.mem_cons.mp hb with hbx | hbxs
        · subst hbx; exact hasym h b hlt
        · exact hmin b hbxs
      · have hlt2 : less h x = false := by simpa using hlt
        refine ⟨x, by simp [sortSlice, htl, sortInsert, hlt2], by simp, ?_⟩
        intro b hb
        rcases List.mem_cons.mp hb with hbx | hbxs
        · subst hbx; exact hirr b
        · exact hneg b h x (hmin b hbxs) hlt2

theorem SortBoundaryByValue_head_asc (l : Boundaries) (hl : l ≠ []) :
    ∃ h, (Boundaries.SortBoundaryByValue l true).head? = some h ∧ h ∈ l ∧
      ∀ b ∈ l, h.Value ≤ b.Value := by
  obtain ⟨h, h1, h2, h3⟩ := sortSlice_head (fun x y : Boundary => decide (x.Value < y.Value))
    (by
      intro a b hab
      simp only [decide_eq_true_eq, decide_eq_false_iff_not, not_lt] at *
      exact le_of_lt hab)
    (by
      intro a b c hab hbc
      simp only [decide_eq_false_iff_not, not_lt] at *
      exact le_trans hbc hab)
    (by intro a; simp) l hl
  refine ⟨h, ?_, h2, ?_⟩
  · simp only [Boundaries.SortBoundaryByValue, Boundaries_DeepCopy_eq, if_true]
    exact h1
  · intro b hb
    have := h3 b hb
    simpa using this

theorem SortBoundaryByValue_head_desc (l : Boundaries) (hl : l ≠ []) :
    ∃ h, (Boundaries.SortBoundaryByValue l false).head? = some h ∧ h ∈ l ∧
      ∀ b ∈ l, b.Value ≤ h.Value := by
  obtain ⟨h, h1, h2, h3⟩ := sortSlice_head (fun x y : Boundary => decide (x.Value > y.Value))
    (by
      intro a b hab
      simp only [gt_iff_lt, decide_eq_true_eq, decide_eq_false_iff_not, not_lt] at *
      exact le_of_lt hab)
    (by
      intro a b c hab hbc
      simp only [gt_iff_lt, decide_eq_false_iff_not, not_lt] at *
      exact le_trans hab hbc)
    (by intro a; simp) l hl
  refine ⟨h, ?_, h2, ?_⟩
  · simp only [Boundaries.SortBoundaryByValue, Boundaries_DeepCopy_eq]
    exact h1
  · intro b hb
    have := h3 b hb
    simpa using this

theorem GetSortedBrokenBoundary_nil (b : Boundaries) (asc : Bool)
    (h : b.filter (fun x => x.Broken) = []) :
    Boundaries.GetSortedBrokenBoundary b asc = .error .NoBoundaryFound := by
  unfold Boundaries.GetSortedBrokenBoundary
  split
  · rfl
  · simp [h]

theorem GetSortedBrokenBoundary_cons (b : Boundaries) (asc : Bool)
    (h : b.filter (fun x => x.Broken) ≠ []) :
    Boundaries.GetSortedBrokenBoundary b asc =
      .ok (Boundaries.SortBoundaryByValue (b.filter (fun x => x.Broken)) asc) := by
  unfold Boundaries.GetSortedBrokenBoundary
  have hb : b.length ≠ 0 := by
    intro h0
    have : b = [] := List.length_eq_zero.mp h0
    subst this
    simp at h
  have hf : (b.filter (fun x => x.Broken)).length ≠ 0 := by
    intro h0
    exact h (List.length_eq_zero.mp h0)
  simp only [hb, hf, if_false]

theorem GetSortedUnbrokenBoundary_nil (b : Boundaries) (asc : Bool)
    (h : b.filter (fun x => !x.Broken) = []) :
    Boundaries.GetSortedUnbrokenBoundary b asc = .error .NoBoundaryFound := by
  unfold Boundaries.GetSortedUnbrokenBoundary
  split
  · rfl
  · simp [h]

theorem GetSortedUnbrokenBoundary_cons (b : Boundaries) (asc : Bool)
    (h : b.filter (fun x => !x.Broken) ≠ []) :
    Boundaries.GetSortedUnbrokenBoundary b asc =
      .ok (Boundaries.SortBoundaryByValue (b.filter (fun x => !x.Broken)) asc) := by
  unfold Boundaries.GetSortedUnbrokenBoundary
  have hb : b.length ≠ 0 := by
    intro h0
    have : b = [] := List.length_eq_zero.mp h0
    subst this
    simp at h
  have hf : (b.filter (fun x => !x.Broken)).length ≠ 0 := by
    intro h0
    exact h (List.length_eq_zero.mp h0)
  simp only [hb, hf, if_false]


/-! ## Direction and entry qualification -/

/-- C5: `Row.TradeDirection` returns SHORT without error when SmallSMA < LargeSMA,
LONG without error when SmallSMA > LargeSMA, and the empty direction with the error
`SMAValuesIntersect` when the two averages are equal. -/
theorem TradeDirection_contract (r : Row) :
    (r.SmallSMA < r.LargeSMA → r.TradeDirection = (SHORT, none)) ∧
    (r.SmallSMA > r.LargeSMA → r.TradeDirection = (LONG, none)) ∧
    (r.SmallSMA = r.LargeSMA → r.TradeDirection = ("", some DataError.SMAValuesIntersect)) := by
  refine ⟨?_, ?_, ?_⟩
  · intro h
    simp [Row.TradeDirection, h, ne_of_lt h]
  · intro h
    have h1 : ¬ r.SmallSMA = r.LargeSMA := ne_of_gt h
    have h2 : ¬ r.SmallSMA < r.LargeSMA := not_lt_of_gt h
    simp [Row.TradeDirection, h1, h2]
  · intro h
    simp [Row.TradeDirection, h]

theorem SHORT_ne_LONG : SHORT ≠ LONG := by decide

theorem IsValidEntry_short_noBroken (r : Row)
    (h : r.HighBoundaries.filter (fun x => x.Broken) = []) :
    r.IsValidEntry SHORT = some false := by
  simp [Row.IsValidEntry, GetSortedBrokenBoundary_nil _ _ h]

theorem IsValidEntry_short_head (r : Row)
    (h : r.HighBoundaries.filter (fun x => x.Broken) ≠ []) :
    ∃ m, m ∈ r.HighBoundaries ∧ m.Broken = true ∧
      (∀ c ∈ r.HighBoundaries, c.Broken = true → m.Value ≤ c.Value) ∧
      r.IsValidEntry SHORT = some (decide (r.High > m.Value ∧ r.Close < m.Value)) := by
  obtain ⟨m, hhead, hmem, hmin⟩ := SortBoundaryByValue_head_asc _ h
  have hm := List.mem_filter.mp hmem
  refine ⟨m, hm.1, hm.2, ?_, ?_⟩
  · intro c hc hcb
    exact hmin c (List.mem_filter.mpr ⟨hc, hcb⟩)
  · simp only [Row.IsValidEntry, GetSortedBrokenBoundary_cons _ _ h, hhead, if_true]
    by_cases hq : r.High > m.Value ∧ r.Close < m.Value
    · simp [hq]
    · simp [hq]

theorem IsValidEntry_long_noBroken (r : Row)
    (h : r.LowBoundaries.filter (fun x => x.Broken) = []) :
    r.IsValidEntry LONG = some false := by
  simp [Row.IsValidEntry, GetSortedBrokenBoundary_nil _ _ h, SHORT_ne_LONG.symm]

theorem IsValidEntry_long_head (r : Row)
    (h : r.LowBoundaries.filter (fun x => x.Broken) ≠ []) :
    ∃ m, m ∈ r.LowBoundaries ∧ m.Broken = true ∧
      (∀ c ∈ r.LowBoundaries, c.Broken = true → c.Value ≤ m.Value) ∧
      r.IsValidEntry LONG = some (decide (r.Low < m.Value ∧ r.Close > m.Value)) := by
  obtain ⟨m, hhead, hmem, hmin⟩ := SortBoundaryByValue_head_desc _ h
  have hm := List.mem_filter.mp hmem
  refine ⟨m, hm.1, hm.2, ?_, ?_⟩
  · intro c hc hcb
    exact hmin c (List.mem_filter.mpr ⟨hc, hcb⟩)
  · simp only [Row.IsValidEntry, GetSortedBrokenBoundary_cons _ _ h, hhead,
      SHORT_ne_LONG.symm, if_true, if_false]
    by_cases hq : r.Low < m.Value ∧ r.Close > m.Value
    · simp [hq]
    · simp [hq]

/-- C6: `Row.IsValidEntry(SHORT)` is true exactly when a broken high boundary exists
and, for `v` the smallest value among the broken high boundaries, High > v and
Close < v; otherwise it is false, in particular when no high boundary is broken. -/
theorem IsValidEntry_short_iff (r : Row) :
    (r.IsValidEntry SHORT = some true ↔ shortEntryQualifies r) ∧
    (r.IsValidEntry SHORT = some false ↔ ¬ shortEntryQualifies r) ∧
    ((∀ b ∈ r.HighBoundaries, b.Broken = false) → r.IsValidEntry SHORT = some false) := by
  by_cases h : r.HighBoundaries.filter (fun x => x.Broken) = []
  · have hv := IsValidEntry_short_noBroken r h
    have hno : ¬ shortEntryQualifies r := by
      rintro ⟨v, ⟨b, hb, hbb, _⟩, _⟩
      have : b ∈ r.HighBoundaries.filter (fun x => x.Broken) := List.mem_filter.mpr ⟨hb, hbb⟩
      rw [h] at this
      exact absurd this (List.not_mem_nil _)
    refine ⟨?_, ?_, fun _ => hv⟩
    · rw [hv]; simp [hno]
    · rw [hv]; simp [hno]
  · obtain ⟨m, hm, hmb, hmin, hv⟩ := IsValidEntry_short_head r h
    have hiff : shortEntryQualifies r ↔ (r.High > m.Value ∧ r.Close < m.Value) := by
      constructor
      · rintro ⟨v, ⟨b, hb, hbb, hbv⟩, hvmin, hhi, hcl⟩
        have h1 : v ≤ m.Value := hvmin m hm hmb
        have h2 : m.Value ≤ v := hbv ▸ hmin b hb hbb
        have : m.Value = v := le_antisymm h2 h1
        rw [this]; exact ⟨hhi, hcl⟩
      · rintro ⟨hhi, hcl⟩
        exact ⟨m.Value, ⟨m, hm, hmb, rfl⟩, hmin, hhi, hcl⟩
    refine ⟨?_, ?_, ?_⟩
    · rw [hv, hiff]; simp
    · rw [hv, hiff]; simp
    · intro hall
      have := hall m hm
      rw [hmb] at this
      exact absurd this (by simp)

/-- C7: `Row.IsValidEntry(LONG)` is true exactly when a broken low boundary exists
and, for `v` the largest value among the broken low boundaries, Low < v and
Close > v; and `IsValidEntry` is false for every direction other than LONG and SHORT. -/
theorem IsValidEntry_long_iff (r : Row) :
    (r.IsValidEntry LONG = some true ↔ longEntryQualifies r) ∧
    (r.IsValidEntry LONG = some false ↔ ¬ longEntryQualifies r) ∧
    (∀ d : String, d ≠ LONG → d ≠ SHORT → r.IsValidEntry d = some false) := by
  have hother : ∀ d : String, d ≠ LONG → d ≠ SHORT → r.IsValidEntry d = some false := by
    intro d h1 h2
    simp [Row.IsValidEntry, h1, h2]
  by_cases h : r.LowBoundaries.filter (fun x => x.Broken) = []
  · have hv := IsValidEntry_long_noBroken r h
    have hno : ¬ longEntryQualifies r := by
      rintro ⟨v, ⟨b, hb, hbb, _⟩, _⟩
      have : b ∈ r.LowBoundaries.filter (fun x => x.Broken) := List.mem_filter.mpr ⟨hb, hbb⟩
      rw [h] at this
      exact absurd this (List.not_mem_nil _)
    refine ⟨?_, ?_, hother⟩
    · rw [hv]; simp [hno]
    · rw [hv]; simp [hno]
  · obtain ⟨m, hm, hmb, hmax, hv⟩ := IsValidEntry_long_head r h
    have hiff : longEntryQualifies r ↔ (r.Low < m.Value ∧ r.Close > m.Value) := by
      constructor
      · rintro ⟨v, ⟨b, hb, hbb, hbv⟩, hvmax, hlo, hcl⟩
        have h1 : m.Value ≤ v := hvmax m hm hmb
        have h2 : v ≤ m.Value := hbv ▸ hmax b hb hbb
        have : m.Value = v := le_antisymm h1 h2
        rw [this]; exact ⟨hlo, hcl⟩
      · rintro ⟨hlo, hcl⟩
        exact ⟨m.Value, ⟨m, hm, hmb, rfl⟩, hmax, hlo, hcl⟩
    refine ⟨?_, ?_, hother⟩
    · rw [hv, hiff]; simp
    · rw [hv, hiff]; simp

/-! ## The loop of `ValidateTradeWithWindow` -/

theorem sameEntry_refl (a : Trade) : Trade.sameEntry a a :=
  ⟨rfl, rfl, rfl, rfl, rfl, rfl⟩

theorem sameEntry_trans {a b c : Trade} (h1 : Trade.sameEntry a b)
    (h2 : Trade.sameEntry b c) : Trade.sameEntry a c := by
  obtain ⟨a1, a2, a3, a4, a5, a6⟩ := h1
  obtain ⟨b1, b2, b3, b4, b5, b6⟩ := h2
  exact ⟨a1.trans b1, a2.trans b2, a3.trans b3, a4.trans b4, a5.trans b5, a6.trans b6⟩

theorem trailingStopAdjust_frame (tick : ℚ) (t : Trade) (row : Row) :
    Trade.sameEntry t (trailingStopAdjust tick t row) ∧
    (trailingStopAdjust tick t row).ClosedAtPrice = t.ClosedAtPrice ∧
    (trailingStopAdjust tick t row).ClosedAtTime = t.ClosedAtTime := by
  unfold trailingStopAdjust
  simp only
  split_ifs <;> exact ⟨⟨rfl, rfl, rfl, rfl, rfl, rfl⟩, rfl, rfl⟩

theorem breakEvenAdjust_frame (cfg : InstrumentConfiguration) (t : Trade) (row : Row) :
    Trade.sameEntry t (breakEvenAdjust cfg t row) ∧
    (breakEvenAdjust cfg t row).ClosedAtPrice = t.ClosedAtPrice ∧
    (breakEvenAdjust cfg t row).ClosedAtTime = t.ClosedAtTime := by
  unfold breakEvenAdjust
  simp only
  split_ifs <;> exact ⟨⟨rfl, rfl, rfl, rfl, rfl, rfl⟩, rfl, rfl⟩

/-- The `switch` assigns only StopPrice, ClosedAtPrice and ClosedAtTime. -/
theorem validateSwitch_sameEntry (cfg : InstrumentConfiguration) (tick : ℚ) (t : Trade)
    (row : Row) : Trade.sameEntry t (validateSwitch cfg tick t row).trade := by
  unfold validateSwitch
  split_ifs
  · exact ⟨rfl, rfl, rfl, rfl, rfl, rfl⟩
  · exact ⟨rfl, rfl, rfl, rfl, rfl, rfl⟩
  · exact ⟨rfl, rfl, rfl, rfl, rfl, rfl⟩
  · exact ⟨rfl, rfl, rfl, rfl, rfl, rfl⟩
  · exact (trailingStopAdjust_frame tick t row).1
  · exact (breakEvenAdjust_frame cfg t row).1
  · exact ⟨rfl, rfl, rfl, rfl, rfl, rfl⟩

theorem validateSwitch_next_closed (cfg : InstrumentConfiguration) (tick : ℚ) (t t1 : Trade)
    (row : Row) (h : validateSwitch cfg tick t row = .next t1) :
    t1.ClosedAtPrice = t.ClosedAtPrice ∧ t1.ClosedAtTime = t.ClosedAtTime := by
  unfold validateSwitch at h
  split_ifs at h
  · injection h with h; subst h; exact (trailingStopAdjust_frame tick t row).2
  · injection h with h; subst h; exact (breakEvenAdjust_frame cfg t row).2
  · injection h with h; subst h; exact ⟨rfl, rfl⟩

/-- A row that meets the stop or target condition makes the `switch` return, at the
stop when the stop condition holds and at the target otherwise. -/
theorem validateSwitch_hit (cfg : InstrumentConfiguration) (tick : ℚ) (t : Trade) (row : Row)
    (h : hitsStopOrTarget t.Direction t.StopPrice t.TargetPrice row) :
    ∃ t1, validateSwitch cfg tick t row = .ret t1 ∧ t1.ClosedAtTime = row.Time ∧
      t1.StopPrice = t.StopPrice ∧
      (((t.Direction = LONG ∧ row.Low ≤ t.StopPrice) ∨
          (t.Direction = SHORT ∧ row.High ≥ t.StopPrice)) → t1.ClosedAtPrice = t.StopPrice) ∧
      (¬ ((t.Direction = LONG ∧ row.Low ≤ t.StopPrice) ∨
          (t.Direction = SHORT ∧ row.High ≥ t.StopPrice)) → t1.ClosedAtPrice = t.TargetPrice) := by
  unfold validateSwitch
  by_cases h1 : t.Direction = LONG ∧ row.Low ≤ t.StopPrice
  · rw [if_pos h1]
    exact ⟨_, rfl, rfl, rfl, fun _ => rfl, fun hn => absurd (Or.inl h1) hn⟩
  · rw [if_neg h1]
    by_cases h2 : t.Direction = SHORT ∧ row.High ≥ t.StopPrice
    · rw [if_pos h2]
      exact ⟨_, rfl, rfl, rfl, fun _ => rfl, fun hn => absurd (Or.inr h2) hn⟩
    · rw [if_neg h2]
      have hno : ¬ ((t.Direction = LONG ∧ row.Low ≤ t.StopPrice) ∨
          (t.Direction = SHORT ∧ row.High ≥ t.StopPrice)) := by
        rintro (h | h)
        · exact h1 h
        · exact h2 h
      by_cases h3 : t.Direction = LONG ∧ row.High ≥ t.TargetPrice
      · rw [if_pos h3]
        exact ⟨_, rfl, rfl, rfl, fun hy => absurd hy hno, fun _ => rfl⟩
      · rw [if_neg h3]
        by_cases h4 : t.Direction = SHORT ∧ row.Low ≤ t.TargetPrice
        · rw [if_pos h4]
          exact ⟨_, rfl, rfl, rfl, fun hy => absurd hy hno, fun _ => rfl⟩
        · exfalso
          rcases h with ⟨hd, hl | hh⟩ | ⟨hd, hh | hl⟩
          · exact h1 ⟨hd, hl⟩
          · exact h3 ⟨hd, hh⟩
          · exact h2 ⟨hd, hh⟩
          · exact h4 ⟨hd, hl⟩

/-- A row that meets neither condition lets the loop go on. -/
theorem validateSwitch_noHit (cfg : InstrumentConfiguration) (tick : ℚ) (t : Trade) (row : Row)
    (h : ¬ hitsStopOrTarget t.Direction t.StopPrice t.TargetPrice row) :
    ∃ t1, validateSwitch cfg tick t row = .next t1 := by
  have h1 : ¬ (t.Direction = LONG ∧ row.Low ≤ t.StopPrice) :=
    fun hh => h (Or.inl ⟨hh.1, Or.inl hh.2⟩)
  have h2 : ¬ (t.Direction = SHORT ∧ row.High ≥ t.StopPrice) :=
    fun hh => h (Or.inr ⟨hh.1, Or.inl hh.2⟩)
  have h3 : ¬ (t.Direction = LONG ∧ row.High ≥ t.TargetPrice) :=
    fun hh => h (Or.inl ⟨hh.1, Or.inr hh.2⟩)
  have h4 : ¬ (t.Direction = SHORT ∧ row.Low ≤ t.TargetPrice) :=
    fun hh => h (Or.inr ⟨hh.1, Or.inr hh.2⟩)
  unfold validateSwitch
  rw [if_neg h1, if_neg h2, if_neg h3, if_neg h4]
  split_ifs <;> exact ⟨_, rfl⟩

theorem validateRow_sameEntry (cfg : InstrumentConfiguration) (tick : ℚ) (t : Trade)
    (row : Row) : Trade.sameEntry t (validateRow cfg tick t row).trade := by
  unfold validateRow
  split_ifs
  · exact sameEntry_refl t
  · exact validateSwitch_sameEntry cfg tick t row

theorem validateRow_next_closed (cfg : InstrumentConfiguration) (tick : ℚ) (t t1 : Trade)
    (row : Row) (h : validateRow cfg tick t row = .next t1) :
    t1.ClosedAtPrice = t.ClosedAtPrice ∧ t1.ClosedAtTime = t.ClosedAtTime := by
  unfold validateRow at h
  split_ifs at h
  · injection h with h; subst h; exact ⟨rfl, rfl⟩
  · exact validateSwitch_next_closed cfg tick t t1 row h

/-- A row at or before TakenAt leaves the trade as it is and the loop goes on. -/
theorem validateRow_skip (cfg : InstrumentConfiguration) (tick : ℚ) (t : Trade) (row : Row)
    (h : row.Time ≤ t.TakenAt) : validateRow cfg tick t row = .next t := by
  unfold validateRow
  rw [if_pos (lt_or_eq_of_le h)]

theorem validateRow_after (cfg : InstrumentConfiguration) (tick : ℚ) (t : Trade) (row : Row)
    (h : row.Time > t.TakenAt) :
    validateRow cfg tick t row = validateSwitch cfg tick t row := by
  unfold validateRow
  have : ¬ (row.Time < t.TakenAt ∨ row.Time = t.TakenAt) := by
    rintro (h1 | h1)
    · exact lt_asymm h h1
    · rw [h1] at h; exact lt_irrefl _ h
  rw [if_neg this]

theorem validateLoop_cons_next (cfg : InstrumentConfiguration) (tick : ℚ) (t t1 : Trade)
    (row : Row) (rest : List Row) (h : validateRow cfg tick t row = .next t1) :
    validateLoop cfg tick t (row :: rest) = validateLoop cfg tick t1 rest := by
  simp only [validateLoop, h]

theorem validateLoop_cons_ret (cfg : InstrumentConfiguration) (tick : ℚ) (t t1 : Trade)
    (row : Row) (rest : List Row) (h : validateRow cfg tick t row = .ret t1) :
    validateLoop cfg tick t (row :: rest) = .ret t1 := by
  simp only [validateLoop, h]

/-- The loop over a concatenation: it returns in the first part, or goes through the
second part with the trade the first part left. -/
theorem validateLoop_append (cfg : InstrumentConfiguration) (tick : ℚ) :
    ∀ (a : List Row) (t : Trade) (b : List Row),
      validateLoop cfg tick t (a ++ b) =
        match validateLoop cfg tick t a with
        | .ret t1 => .ret t1
        | .next t1 => validateLoop cfg tick t1 b := by
  intro a
  induction a with
  | nil => intro t b; simp [validateLoop]
  | cons r rest ih =>
    intro t b
    cases hr : validateRow cfg tick t r with
    | next t1 =>
      rw [List.cons_append, validateLoop_cons_next _ _ _ _ _ _ hr,
        validateLoop_cons_next _ _ _ _ _ _ hr]
      exact ih t1 b
    | ret t1 =>
      rw [List.cons_append, validateLoop_cons_ret _ _ _ _ _ _ hr,
        validateLoop_cons_ret _ _ _ _ _ _ hr]

theorem validateLoop_sameEntry (cfg : InstrumentConfiguration) (tick : ℚ) :
    ∀ (rows : List Row) (t : Trade),
      Trade.sameEntry t (validateLoop cfg tick t rows).trade := by
  intro rows
  induction rows with
  | nil => intro t; exact sameEntry_refl t
  | cons r rest ih =>
    intro t
    have hr := validateRow_sameEntry cfg tick t r
    cases hrow : validateRow cfg tick t r with
    | next t1 =>
      rw [validateLoop_cons_next _ _ _ _ _ _ hrow]
      rw [hrow] at hr
      exact sameEntry_trans hr (ih t1)
    | ret t1 =>
      rw [validateLoop_cons_ret _ _ _ _ _ _ hrow]
      rw [hrow] at hr
      exact hr

theorem validateLoop_next_closed (cfg : InstrumentConfiguration) (tick : ℚ) :
    ∀ (rows : List Row) (t t1 : Trade), validateLoop cfg tick t rows = .next t1 →
      t1.ClosedAtPrice = t.ClosedAtPrice ∧ t1.ClosedAtTime = t.ClosedAtTime := by
  intro rows
  induction rows with
  | nil =>
    intro t t1 h
    simp only [validateLoop] at h
    injection h with h; subst h; exact ⟨rfl, rfl⟩
  | cons r rest ih =>
    intro t t1 h
    cases hrow : validateRow cfg tick t r with
    | next t2 =>
      rw [validateLoop_cons_next _ _ _ _ _ _ hrow] at h
      have h1 := validateRow_next_closed cfg tick t t2 r hrow
      have h2 := ih t2 t1 h
      exact ⟨h2.1.trans h1.1, h2.2.trans h1.2⟩
    | ret t2 =>
      rw [validateLoop_cons_ret _ _ _ _ _ _ hrow] at h
      exact absurd h (by simp)

/-- When the loop returns, it does so on a row strictly after TakenAt, and the trade
is closed at the time of that row. -/
theorem validateLoop_ret_after (cfg : InstrumentConfiguration) (tick : ℚ) :
    ∀ (rows : List Row) (t t1 : Trade), validateLoop cfg tick t rows = .ret t1 →
      ∃ r ∈ rows, r.Time > t.TakenAt ∧ t1.ClosedAtTime = r.Time := by
  intro rows
  induction rows with
  | nil =>
    intro t t1 h
    simp only [validateLoop] at h
    exact absurd h (by simp)
  | cons r rest ih =>
    intro t t1 h
    cases hrow : validateRow cfg tick t r with
    | next t2 =>
      rw [validateLoop_cons_next _ _ _ _ _ _ hrow] at h
      obtain ⟨r2, hr2, hafter, htime⟩ := ih t2 t1 h
      have hs := validateRow_sameEntry cfg tick t r
      rw [hrow] at hs
      have hta : t.TakenAt = t2.TakenAt := hs.2.1
      exact ⟨r2, List.mem_cons_of_mem _ hr2, by rw [hta]; exact hafter, htime⟩
    | ret t2 =>
      rw [validateLoop_cons_ret _ _ _ _ _ _ hrow] at h
      injection h with h
      subst h
      by_cases ht : r.Time > t.TakenAt
      · refine ⟨r, List.mem_cons_self _ _, ht, ?_⟩
        rw [validateRow_after cfg tick t r ht] at hrow
        by_cases hhit : hitsStopOrTarget t.Direction t.StopPrice t.TargetPrice r
        · obtain ⟨t3, h3, htime, _⟩ := validateSwitch_hit cfg tick t r hhit
          rw [h3] at hrow
          injection hrow with hrow
          rw [← hrow]; exact htime
        · obtain ⟨t3, h3⟩ := validateSwitch_noHit cfg tick t r hhit
          rw [h3] at hrow
          exact absurd hrow (by simp)
      · rw [validateRow_skip cfg tick t r (not_lt.mp ht)] at hrow
        exact absurd hrow (by simp)

/-- If no row after TakenAt meets the stop or target condition against the stop as
adjusted so far, the loop runs to the end of the rows without returning. -/
theorem validateLoop_noHit (cfg : InstrumentConfiguration) (tick : ℚ) :
    ∀ (rows : List Row) (t : Trade),
      (∀ p r q, rows = p ++ r :: q → r.Time > t.TakenAt →
        ¬ hitsStopOrTarget t.Direction (stopAfter cfg tick t p) t.TargetPrice r) →
      ∃ t1, validateLoop cfg tick t rows = .next t1 := by
  intro rows
  induction rows with
  | nil => intro t _; exact ⟨t, rfl⟩
  | cons r rest ih =>
    intro t h
    have hrow : ∃ t1, validateRow cfg tick t r = .next t1 := by
      by_cases ht : r.Time > t.TakenAt
      · rw [validateRow_after cfg tick t r ht]
        have h0 := h [] r rest rfl ht
        exact validateSwitch_noHit cfg tick t r h0
      · exact ⟨t, validateRow_skip cfg tick t r (not_lt.mp ht)⟩
    obtain ⟨t1, ht1⟩ := hrow
    rw [validateLoop_cons_next _ _ _ _ _ _ ht1]
    have hs := validateRow_sameEntry cfg tick t r
    rw [ht1] at hs
    obtain ⟨_, hta, hdir, _, _, htp⟩ := hs
    apply ih t1
    intro p r2 q hsplit hafter
    have h2 := h (r :: p) r2 q (by rw [hsplit]; rfl) (by rw [hta]; exact hafter)
    have hst : stopAfter cfg tick t (r :: p) = stopAfter cfg tick t1 p := by
      unfold stopAfter
      rw [validateLoop_cons_next _ _ _ _ _ _ ht1]
    rw [hst, hdir, htp] at h2
    exact h2

/-! ## `ValidateTradeWithWindow` -/

/-- C1: stop precedence.  For a LONG trade, let `c` be the first candle strictly after
TakenAt that meets the stop or the target condition (no candle of `pre` after TakenAt
does, against the stop as adjusted so far).  If `c` meets both, the trade closes at
the stop `S` in force on `c`, not at the target, and at the time of `c`. -/
theorem stop_precedence_long (cfg : InstrumentConfiguration) (tick : ℚ) (t : Trade)
    (pre : List Row) (c : Row) (post : List Row)
    (hdir : t.Direction = LONG)
    (hfirst : ∀ p r q, pre = p ++ r :: q → r.Time > t.TakenAt →
      ¬ (r.Low ≤ stopAfter cfg tick t p ∨ r.High ≥ t.TargetPrice))
    (hafter : c.Time > t.TakenAt)
    (hstop : c.Low ≤ stopAfter cfg tick t pre)
    (htarget : c.High ≥ t.TargetPrice) :
    ∃ t1, ValidateTradeWithWindow t (pre ++ c :: post) cfg tick = some t1 ∧
      t1.ClosedAtPrice = stopAfter cfg tick t pre ∧ t1.ClosedAtTime = c.Time := by
  have _ := htarget
  have hno : ∀ p r q, pre = p ++ r :: q → r.Time > t.TakenAt →
      ¬ hitsStopOrTarget t.Direction (stopAfter cfg tick t p) t.TargetPrice r := by
    intro p r q hsplit hr hhit
    rcases hhit with ⟨_, h⟩ | ⟨hs, _⟩
    · exact hfirst p r q hsplit hr h
    · rw [hdir] at hs; exact SHORT_ne_LONG hs.symm
  obtain ⟨t0, ht0⟩ := validateLoop_noHit cfg tick pre t hno
  have hS : stopAfter cfg tick t pre = t0.StopPrice := by
    unfold stopAfter; rw [ht0]; rfl
  have hsame := validateLoop_sameEntry cfg tick pre t
  rw [ht0] at hsame
  obtain ⟨_, hta, hd, _, _, _⟩ := hsame
  have hd0 : t0.Direction = LONG := by
    have : t.Direction = t0.Direction := hd
    rw [← this]; exact hdir
  have hafter0 : c.Time > t0.TakenAt := by
    have : t.TakenAt = t0.TakenAt := hta
    rw [← this]; exact hafter
  rw [hS] at hstop
  obtain ⟨t1, hret, htime, _, hprice, _⟩ := validateSwitch_hit cfg tick t0 c
    (Or.inl ⟨hd0, Or.inl hstop⟩)
  have hrow : validateRow cfg tick t0 c = .ret t1 := by
    rw [validateRow_after cfg tick t0 c hafter0]; exact hret
  have hloop : validateLoop cfg tick t (pre ++ c :: post) = .ret t1 := by
    rw [validateLoop_append, ht0]
    exact validateLoop_cons_ret _ _ _ _ _ _ hrow
  refine ⟨t1, ?_, ?_, htime⟩
  · unfold ValidateTradeWithWindow
    rw [hloop]
  · rw [hS]
    exact hprice (Or.inl ⟨hd0, hstop⟩)

/-- Witness of C1: LONG trade taken at time 2 with stop 95 and target 110; the candle
at time 3 has low 91 and high 150, so it meets both conditions, and the trade closes
at 95. -/
theorem stop_precedence_long_witness :
    ∃ t1, ValidateTradeWithWindow testLongTrade
        ([candle 1 100 96 0, candle 2 101 94 0] ++ candle 3 150 91 0 :: [candle 4 100 100 100])
        zeroConfiguration (1 / 2) = some t1 ∧
      t1.ClosedAtPrice =
        stopAfter zeroConfiguration (1 / 2) testLongTrade [candle 1 100 96 0, candle 2 101 94 0] ∧
      t1.ClosedAtTime = (candle 3 150 91 0).Time :=
  stop_precedence_long zeroConfiguration (1 / 2) testLongTrade
    [candle 1 100 96 0, candle 2 101 94 0] (candle 3 150 91 0) [candle 4 100 100 100]
    (by decide)
    (by
      intro p r q hsplit hr
      have hmem : r ∈ [candle 1 100 96 0, candle 2 101 94 0] := by
        rw [hsplit]; simp
      have hle : r.Time ≤ 2 := by
        rcases List.mem_cons.mp hmem with h | h
        · rw [h]; decide
        · rcases List.mem_cons.mp h with h | h
          · rw [h]; decide
          · exact absurd h (List.not_mem_nil _)
      have h2 : testLongTrade.TakenAt = 2 := rfl
      rw [h2] at hr
      exact absurd hr (not_lt.mpr hle))
    (by decide) (by decide) (by decide)

/-- C3: time-based exit.  For a non-empty window and a trade whose ClosedAtPrice is
still 0, if no candle strictly after TakenAt meets the stop or target condition of the
trade's direction (against the stop as adjusted so far), the trade closes at the
Close and the Time of the last candle of the window. -/
theorem time_based_exit (cfg : InstrumentConfiguration) (tick : ℚ) (t : Trade)
    (window : Data) (hne : window ≠ []) (hfresh : t.ClosedAtPrice = 0)
    (hno : ∀ p r q, window = p ++ r :: q → r.Time > t.TakenAt →
      ¬ hitsStopOrTarget t.Direction (stopAfter cfg tick t p) t.TargetPrice r) :
    ∃ t1 lastRow, window.getLast? = some lastRow ∧
      ValidateTradeWithWindow t window cfg tick = some t1 ∧
      t1.ClosedAtPrice = lastRow.Close ∧ t1.ClosedAtTime = lastRow.Time := by
  obtain ⟨t0, ht0⟩ := validateLoop_noHit cfg tick window t hno
  have hclosed := (validateLoop_next_closed cfg tick window t t0 ht0).1
  rw [hfresh] at hclosed
  have hlast : window.getLast? = some (window.getLast hne) := List.getLast?_eq_getLast _ hne
  refine ⟨{ t0 with ClosedAtPrice := (window.getLast hne).Close,
                    ClosedAtTime := (window.getLast hne).Time }, window.getLast hne,
    hlast, ?_, rfl, rfl⟩
  unfold ValidateTradeWithWindow
  rw [ht0]
  simp only [hclosed, if_true, hlast]

/-- Witness of C3: the test "Test position closes at the end" of `trade_test.go`. -/
theorem time_based_exit_witness :
    ∃ t1 lastRow,
      [candle 1 111 109 110, candle 2 112 104 110, candle 3 112 107 111].getLast? = some lastRow ∧
      ValidateTradeWithWindow (newTrade "" 2 LONG 110 105 115)
        [candle 1 111 109 110, candle 2 112 104 110, candle 3 112 107 111]
        zeroConfiguration (1 / 2) = some t1 ∧
      t1.ClosedAtPrice = lastRow.Close ∧ t1.ClosedAtTime = lastRow.Time :=
  time_based_exit zeroConfiguration (1 / 2) (newTrade "" 2 LONG 110 105 115)
    [candle 1 111 109 110, candle 2 112 104 110, candle 3 112 107 111]
    (by simp) rfl
    (by
      intro p r q hsplit hr
      have hp : p = [candle 1 111 109 110, candle 2 112 104 110] ∧ r = candle 3 112 107 111 := by
        rcases p with _ | ⟨a, _ | ⟨b, _ | ⟨c, p⟩⟩⟩
        · simp at hsplit
          rw [← hsplit.1] at hr
          exact absurd hr (by decide)
        · simp at hsplit
          rw [← hsplit.2.1] at hr
          exact absurd hr (by decide)
        · simp at hsplit
          obtain ⟨h1, h2, h3, _⟩ := hsplit
          exact ⟨by rw [h1, h2], h3.symm⟩
        · simp at hsplit
      rw [hp.1, hp.2]
      decide)

/-- C2: only candles strictly after TakenAt are evaluated.  A candle at or before
TakenAt, wherever it stands in the window and whatever its low and high, leaves the
open trade exactly as it found it (not closed, StopPrice unchanged) and the scan
goes on; a close on a stop or a target happens at a time strictly after that of the
candle; the outcome of the scan is the one of the window without the candle, and so
is the result of `ValidateTradeWithWindow` when the candle is not the last one (the
last candle also supplies the price and time of the time-based exit). -/
theorem rows_not_after_entry_ignored (cfg : InstrumentConfiguration) (tick : ℚ) (t : Trade)
    (pre : List Row) (row : Row) (post : List Row) (h : row.Time ≤ t.TakenAt) :
    (∀ t0, validateLoop cfg tick t pre = .next t0 →
      validateLoop cfg tick t (pre ++ [row]) = .next t0) ∧
    (∀ t1, validateLoop cfg tick t (pre ++ row :: post) = .ret t1 →
      row.Time < t1.ClosedAtTime) ∧
    validateLoop cfg tick t (pre ++ row :: post) = validateLoop cfg tick t (pre ++ post) ∧
    (post ≠ [] → ValidateTradeWithWindow t (pre ++ row :: post) cfg tick =
      ValidateTradeWithWindow t (pre ++ post) cfg tick) := by
  have hskip : ∀ t0, validateLoop cfg tick t pre = .next t0 →
      validateRow cfg tick t0 row = .next t0 := by
    intro t0 ht0
    have hsame := validateLoop_sameEntry cfg tick pre t
    rw [ht0] at hsame
    have hta : t.TakenAt = t0.TakenAt := hsame.2.1
    exact validateRow_skip cfg tick t0 row (by rw [← hta]; exact h)
  have hloop : validateLoop cfg tick t (pre ++ row :: post) =
      validateLoop cfg tick t (pre ++ post) := by
    rw [validateLoop_append, validateLoop_append cfg tick pre t post]
    cases hpre : validateLoop cfg tick t pre with
    | ret t0 => rfl
    | next t0 => exact validateLoop_cons_next _ _ _ _ _ _ (hskip t0 hpre)
  refine ⟨?_, ?_, hloop, ?_⟩
  · intro t0 ht0
    rw [validateLoop_append, ht0]
    simp only [validateLoop, hskip t0 ht0]
  · intro t1 hret
    obtain ⟨r, _, hafter, htime⟩ := validateLoop_ret_after cfg tick _ t t1 hret
    rw [htime]
    exact lt_of_le_of_lt h hafter
  · intro hpost
    have hlast : (pre ++ row :: post).getLast? = (pre ++ post).getLast? := by
      rw [List.getLast?_append_of_ne_nil pre (by simp : row :: post ≠ []),
        List.getLast?_append_of_ne_nil pre hpost]
      cases post with
      | nil => exact absurd rfl hpost
      | cons a l => simp [List.getLast?_cons_cons]
    unfold ValidateTradeWithWindow
    rw [hloop, hlast]

/-- Witness of C2: the test "Test LONG position hits STOP" of `trade_test.go`.  The
LONG trade is taken at time 2 with stop 95; the candle at time 2 has low 94 and is
passed over, and the trade closes on the next candle (low 91) at 95. -/
theorem rows_not_after_entry_ignored_witness :
    ((∀ t0, validateLoop zeroConfiguration (1 / 2) testLongTrade [candle 1 0 96 0] = .next t0 →
        validateLoop zeroConfiguration (1 / 2) testLongTrade
          ([candle 1 0 96 0] ++ [candle 2 0 94 0]) = .next t0) ∧
      (∀ t1, validateLoop zeroConfiguration (1 / 2) testLongTrade
          ([candle 1 0 96 0] ++ candle 2 0 94 0 :: [candle 3 0 91 0]) = .ret t1 →
        (candle 2 0 94 0).Time < t1.ClosedAtTime) ∧
      validateLoop zeroConfiguration (1 / 2) testLongTrade
          ([candle 1 0 96 0] ++ candle 2 0 94 0 :: [candle 3 0 91 0]) =
        validateLoop zeroConfiguration (1 / 2) testLongTrade
          ([candle 1 0 96 0] ++ [candle 3 0 91 0]) ∧
      ([candle 3 0 91 0] ≠ [] →
        ValidateTradeWithWindow testLongTrade
            ([candle 1 0 96 0] ++ candle 2 0 94 0 :: [candle 3 0 91 0])
            zeroConfiguration (1 / 2) =
          ValidateTradeWithWindow testLongTrade ([candle 1 0 96 0] ++ [candle 3 0 91 0])
            zeroConfiguration (1 / 2))) ∧
    ValidateTradeWithWindow testLongTrade [candle 1 0 96 0, candle 2 0 94 0, candle 3 0 91 0]
        zeroConfiguration (1 / 2) =
      some { testLongTrade with ClosedAtPrice := 95, ClosedAtTime := 3 } :=
  ⟨rows_not_after_entry_ignored zeroConfiguration (1 / 2) testLongTrade
      [candle 1 0 96 0] (candle 2 0 94 0) [candle 3 0 91 0] (by decide),
    by decide⟩

/-! ## The loop of `GenerateTradesInWindow` -/

/-- On a non-empty window `ValidateTradeWithWindow` returns a trade, and that trade
has the entry fields of the trade it was called on. -/
theorem ValidateTradeWithWindow_total (cfg : InstrumentConfiguration) (tick : ℚ) (t : Trade)
    (window : Data) (hne : window ≠ []) :
    ∃ t1, ValidateTradeWithWindow t window cfg tick = some t1 ∧ Trade.sameEntry t t1 := by
  have hsame := validateLoop_sameEntry cfg tick window t
  have hlast : window.getLast? = some (window.getLast hne) := List.getLast?_eq_getLast _ hne
  unfold ValidateTradeWithWindow
  cases hloop : validateLoop cfg tick t window with
  | ret t1 =>
    rw [hloop] at hsame
    exact ⟨t1, rfl, hsame⟩
  | next t1 =>
    rw [hloop] at hsame
    simp only [hlast]
    split_ifs
    · exact ⟨_, rfl, hsame⟩
    · exact ⟨t1, rfl, hsame⟩

/-- The query `IsValidEntry` always returns: the list it indexes is never empty. -/
theorem IsValidEntry_total (r : Row) (d : String) : ∃ b, r.IsValidEntry d = some b := by
  by_cases hs : d = SHORT
  · subst hs
    by_cases h : r.HighBoundaries.filter (fun x => x.Broken) = []
    · exact ⟨false, IsValidEntry_short_noBroken r h⟩
    · obtain ⟨m, _, _, _, hv⟩ := IsValidEntry_short_head r h
      exact ⟨_, hv⟩
  · by_cases hl : d = LONG
    · subst hl
      by_cases h : r.LowBoundaries.filter (fun x => x.Broken) = []
      · exact ⟨false, IsValidEntry_long_noBroken r h⟩
      · obtain ⟨m, _, _, _, hv⟩ := IsValidEntry_long_head r h
        exact ⟨_, hv⟩
    · exact ⟨false, by simp [Row.IsValidEntry, hs, hl]⟩

/-- The `switch` on the direction for SHORT: no unbroken low boundary skips the row,
otherwise the target is an unbroken low boundary of the largest value. -/
theorem entrySetup_short (row : Row) (cfg : InstrumentConfiguration) (tick : ℚ) :
    (row.LowBoundaries.filter (fun x => !x.Broken) = [] ∧
      entrySetup row SHORT cfg tick = .skip) ∨
    ∃ m, m ∈ row.LowBoundaries ∧ m.Broken = false ∧
      (∀ b ∈ row.LowBoundaries, b.Broken = false → b.Value ≤ m.Value) ∧
      entrySetup row SHORT cfg tick = .ready
        { stopPrice := RoundToDecimalLength (row.High + tick * (cfg.StopSizeAddition : ℚ)) tick
          target := m
          oneRisk := RoundToDecimalLength (row.High + tick * (cfg.StopSizeAddition : ℚ)) tick
            - row.Close
          targetSize := row.Close - m.Value
          actualRR := calculateRR
            (RoundToDecimalLength (row.High + tick * (cfg.StopSizeAddition : ℚ)) tick - row.Close)
            (row.Close - m.Value) } := by
  by_cases h : row.LowBoundaries.filter (fun x => !x.Broken) = []
  · left
    refine ⟨h, ?_⟩
    simp [entrySetup, GetSortedUnbrokenBoundary_nil _ _ h]
  · right
    obtain ⟨m, hhead, hmem, hmax⟩ := SortBoundaryByValue_head_desc _ h
    have hm := List.mem_filter.mp hmem
    refine ⟨m, hm.1, by simpa using hm.2, ?_, ?_⟩
    · intro b hb hbb
      exact hmax b (List.mem_filter.mpr ⟨hb, by simp [hbb]⟩)
    · simp only [entrySetup, GetSortedUnbrokenBoundary_cons _ _ h, hhead, if_true]

/-- The `switch` on the direction for LONG: no unbroken high boundary skips the row,
otherwise the target is an unbroken high boundary of the smallest value. -/
theorem entrySetup_long (row : Row) (cfg : InstrumentConfiguration) (tick : ℚ) :
    (row.HighBoundaries.filter (fun x => !x.Broken) = [] ∧
      entrySetup row LONG cfg tick = .skip) ∨
    ∃ m, m ∈ row.HighBoundaries ∧ m.Broken = false ∧
      (∀ b ∈ row.HighBoundaries, b.Broken = false → m.Value ≤ b.Value) ∧
      entrySetup row LONG cfg tick = .ready
        { stopPrice := RoundToDecimalLength (row.Low - tick * (cfg.StopSizeAddition : ℚ)) tick
          target := m
          oneRisk := row.Close
            - RoundToDecimalLength (row.Low - tick * (cfg.StopSizeAddition : ℚ)) tick
          targetSize := m.Value - row.Close
          actualRR := calculateRR
            (row.Close - RoundToDecimalLength (row.Low - tick * (cfg.StopSizeAddition : ℚ)) tick)
            (m.Value - row.Close) } := by
  by_cases h : row.HighBoundaries.filter (fun x => !x.Broken) = []
  · left
    refine ⟨h, ?_⟩
    simp [entrySetup, GetSortedUnbrokenBoundary_nil _ _ h, SHORT_ne_LONG.symm]
  · right
    obtain ⟨m, hhead, hmem, hmin⟩ := SortBoundaryByValue_head_asc _ h
    have hm := List.mem_filter.mp hmem
    refine ⟨m, hm.1, by simpa using hm.2, ?_, ?_⟩
    · intro b hb hbb
      exact hmin b (List.mem_filter.mpr ⟨hb, by simp [hbb]⟩)
    · simp only [entrySetup, GetSortedUnbrokenBoundary_cons _ _ h, hhead,
        SHORT_ne_LONG.symm, if_true, if_false]

/-- The `switch` on the direction skips the row or yields values: it never takes the
`return nil` branch and never indexes an empty list. -/
theorem entrySetup_cases (row : Row) (d : String) (cfg : InstrumentConfiguration) (tick : ℚ) :
    entrySetup row d cfg tick = .skip ∨ ∃ s, entrySetup row d cfg tick = .ready s := by
  by_cases hs : d = SHORT
  · subst hs
    rcases entrySetup_short row cfg tick with ⟨_, h⟩ | ⟨m, _, _, _, h⟩
    · exact Or.inl h
    · exact Or.inr ⟨_, h⟩
  · by_cases hl : d = LONG
    · subst hl
      rcases entrySetup_long row cfg tick with ⟨_, h⟩ | ⟨m, _, _, _, h⟩
      · exact Or.inl h
      · exact Or.inr ⟨_, h⟩
    · left
      simp [entrySetup, hs, hl]

/-- One pass of the loop while a trade is open: the row is never considered for an
entry; the flag drops when the row is at or after the close of the last trade. -/
theorem generateLoop_cons_inTrade (window : Data) (cfg : InstrumentConfiguration)
    (instrument : String) (tick : ℚ) (row : Row) (rest : List Row) (trades : Trades)
    (lastTrade : Trade) (hlast : trades.getLast? = some lastTrade) :
    generateLoop window cfg instrument tick (row :: rest) true trades =
      generateLoop window cfg instrument tick rest
        (decide (row.Time < lastTrade.ClosedAtTime)) trades := by
  by_cases h : row.Time < lastTrade.ClosedAtTime
  · have hn : ¬ (row.Time = lastTrade.ClosedAtTime ∨ row.Time > lastTrade.ClosedAtTime) := by
      rintro (h1 | h1)
      · rw [h1] at h; exact lt_irrefl _ h
      · exact lt_asymm h h1
    simp only [generateLoop, hlast, if_true, if_neg hn, h, decide_True]
  · have hy : row.Time = lastTrade.ClosedAtTime ∨ row.Time > lastTrade.ClosedAtTime :=
      (eq_or_lt_of_le (not_lt.mp h)).imp Eq.symm id
    simp only [generateLoop, hlast, if_true, if_pos hy, h, decide_False]

/-- One pass of the loop while no trade is open: the row is passed over, or a trade
created on it is appended and the flag is raised. -/
theorem generateLoop_cons_free (window : Data) (cfg : InstrumentConfiguration)
    (instrument : String) (tick : ℚ) (row : Row) (rest : List Row) (trades : Trades)
    (hne : window ≠ []) :
    generateLoop window cfg instrument tick (row :: rest) false trades =
        generateLoop window cfg instrument tick rest false trades ∨
    ∃ s closed, createdAt window cfg instrument tick row s closed ∧
      generateLoop window cfg instrument tick (row :: rest) false trades =
        generateLoop window cfg instrument tick rest true (trades ++ [closed]) := by
  by_cases hdir : row.TradeDirection.2 = some DataError.SMAValuesIntersect
  · left
    simp [generateLoop, hdir]
  · obtain ⟨b, hb⟩ := IsValidEntry_total row row.TradeDirection.1
    cases b with
    | false =>
      left
      simp [generateLoop, hdir, hb]
    | true =>
      rcases entrySetup_cases row row.TradeDirection.1 cfg tick with hskip | ⟨s, hs⟩
      · left
        simp [generateLoop, hdir, hb, hskip]
      · by_cases hrr : s.actualRR < cfg.MinimumRR
        · left
          simp [generateLoop, hdir, hb, hs, hrr]
        · right
          obtain ⟨closed, hclosed, _⟩ := ValidateTradeWithWindow_total cfg tick
            (newTrade instrument row.Time row.TradeDirection.1 row.Close s.stopPrice
              s.target.Value) window hne
          refine ⟨s, closed, ⟨hdir, hb, hs, hrr, hclosed⟩, ?_⟩
          simp [generateLoop, hdir, hb, hs, hrr, hclosed]

theorem createdAt_sameEntry (window : Data) (cfg : InstrumentConfiguration)
    (instrument : String) (tick : ℚ) (row : Row) (s : EntrySetup) (closed : Trade)
    (hne : window ≠ []) (h : createdAt window cfg instrument tick row s closed) :
    Trade.sameEntry
      (newTrade instrument row.Time row.TradeDirection.1 row.Close s.stopPrice s.target.Value)
      closed := by
  obtain ⟨_, _, _, _, hv⟩ := h
  obtain ⟨t1, ht1, hsame⟩ := ValidateTradeWithWindow_total cfg tick
    (newTrade instrument row.Time row.TradeDirection.1 row.Close s.stopPrice s.target.Value)
    window hne
  rw [hv] at ht1
  injection ht1 with ht1
  rw [ht1]
  exact hsame

/-- The loop of `GenerateTradesInWindow` returns the trades it started with followed
by trades each created on one of the rows that were left. -/
theorem generateLoop_trace (window : Data) (cfg : InstrumentConfiguration)
    (instrument : String) (tick : ℚ) (hne : window ≠ []) :
    ∀ (rows : List Row) (inTrade : Bool) (trades : Trades),
      (inTrade = true → trades ≠ []) →
      ∃ new, generateLoop window cfg instrument tick rows inTrade trades = some (trades ++ new) ∧
        ∀ tr ∈ new, ∃ row ∈ rows, ∃ s, createdAt window cfg instrument tick row s tr := by
  intro rows
  induction rows with
  | nil =>
    intro inTrade trades _
    exact ⟨[], by simp [generateLoop], by simp⟩
  | cons row rest ih =>
    intro inTrade trades hin
    cases inTrade with
    | true =>
      have hne2 := hin rfl
      have hlast : trades.getLast? = some (trades.getLast hne2) :=
        List.getLast?_eq_getLast _ hne2
      rw [generateLoop_cons_inTrade window cfg instrument tick row rest trades _ hlast]
      obtain ⟨new, h1, h2⟩ := ih (decide (row.Time < (trades.getLast hne2).ClosedAtTime))
        trades (fun _ => hne2)
      refine ⟨new, h1, ?_⟩
      intro tr htr
      obtain ⟨r, hr, hs⟩ := h2 tr htr
      exact ⟨r, List.mem_cons_of_mem _ hr, hs⟩
    | false =>
      rcases generateLoop_cons_free window cfg instrument tick row rest trades hne with
        hskip | ⟨s, closed, hcreated, htake⟩
      · rw [hskip]
        obtain ⟨new, h1, h2⟩ := ih false trades (by simp)
        refine ⟨new, h1, ?_⟩
        intro tr htr
        obtain ⟨r, hr, hs⟩ := h2 tr htr
        exact ⟨r, List.mem_cons_of_mem _ hr, hs⟩
      · rw [htake]
        obtain ⟨new, h1, h2⟩ := ih true (trades ++ [closed]) (fun _ => by simp)
        refine ⟨closed :: new, by rw [h1]; simp, ?_⟩
        intro tr htr
        rcases List.mem_cons.mp htr with heq | hmem
        · subst heq
          exact ⟨row, List.mem_cons_self _ _, s, hcreated⟩
        · obtain ⟨r, hr, hs⟩ := h2 tr hmem
          exact ⟨r, List.mem_cons_of_mem _ hr, hs⟩

/-- Along rows of strictly increasing times the loop of `GenerateTradesInWindow` keeps
every trade taken strictly after the close of the trade before it. -/
theorem generateLoop_ordered (window : Data) (cfg : InstrumentConfiguration)
    (instrument : String) (tick : ℚ) (hne : window ≠ []) :
    ∀ (rows : List Row) (inTrade : Bool) (trades : Trades),
      strictlyIncreasingTimes rows →
      trades.Chain' takenAfterClose →
      (inTrade = true → trades ≠ []) →
      (inTrade = false → ∀ lastTrade, trades.getLast? = some lastTrade →
        ∀ r ∈ rows, lastTrade.ClosedAtTime < r.Time) →
      ∃ out, generateLoop window cfg instrument tick rows inTrade trades = some out ∧
        out.Chain' takenAfterClose := by
  intro rows
  induction rows with
  | nil =>
    intro inTrade trades _ hchain _ _
    exact ⟨trades, by simp [generateLoop], hchain⟩
  | cons row rest ih =>
    intro inTrade trades hsorted hchain hin hfree
    have hsorted2 : strictlyIncreasingTimes rest := (List.pairwise_cons.mp hsorted).2
    have hrow : ∀ r ∈ rest, row.Time < r.Time := (List.pairwise_cons.mp hsorted).1
    cases inTrade with
    | true =>
      have hne2 := hin rfl
      have hlast : trades.getLast? = some (trades.getLast hne2) :=
        List.getLast?_eq_getLast _ hne2
      rw [generateLoop_cons_inTrade window cfg instrument tick row rest trades _ hlast]
      apply ih _ trades hsorted2 hchain (fun _ => hne2)
      intro hflag lastTrade hl r hr
      rw [hlast] at hl
      injection hl with hl
      subst hl
      have hge : (trades.getLast hne2).ClosedAtTime ≤ row.Time := by
        have := of_decide_eq_false hflag
        exact not_lt.mp this
      exact lt_of_le_of_lt hge (hrow r hr)
    | false =>
      have hfree2 : ∀ lastTrade, trades.getLast? = some lastTrade →
          ∀ r ∈ rest, lastTrade.ClosedAtTime < r.Time := by
        intro lastTrade hl r hr
        exact hfree rfl lastTrade hl r (List.mem_cons_of_mem _ hr)
      rcases generateLoop_cons_free window cfg instrument tick row rest trades hne with
        hskip | ⟨s, closed, hcreated, htake⟩
      · rw [hskip]
        exact ih false trades hsorted2 hchain (by simp) (fun _ => hfree2)
      · rw [htake]
        have hsame := createdAt_sameEntry window cfg instrument tick row s closed hne hcreated
        have hta : closed.TakenAt = row.Time := hsame.2.1.symm
        apply ih true (trades ++ [closed]) hsorted2 ?_ (fun _ => by simp) (by simp)
        apply List.Chain'.append hchain (List.chain'_singleton closed)
        intro x hx y hy
        simp only [List.head?_cons, Option.mem_def, Option.some.injEq] at hy
        subst hy
        have := hfree rfl x hx row (List.mem_cons_self _ _)
        unfold takenAfterClose
        rw [hta]
        exact this

/-- C4: no trade is opened while another is open.  For every window with strictly
increasing candle times `GenerateTradesInWindow` returns a list in which each trade
is taken strictly after the ClosedAtTime of the trade before it. -/
theorem no_overlapping_trades (window : Data) (cfg : InstrumentConfiguration)
    (instrument : String) (tick : ℚ) (hsorted : strictlyIncreasingTimes window) :
    ∃ trades, GenerateTradesInWindow window cfg instrument tick = some trades ∧
      trades.Chain' takenAfterClose := by
  unfold GenerateTradesInWindow
  by_cases hne : window = []
  · subst hne
    exact ⟨[], by simp [generateLoop], List.chain'_nil⟩
  · exact generateLoop_ordered window cfg instrument tick hne window false [] hsorted
      List.chain'_nil (by simp) (by simp)

/-- Witness of C4: the sample window has strictly increasing times; its SHORT trade
is closed at time 3 and its LONG trade is taken at time 4. -/
theorem no_overlapping_trades_witness :
    strictlyIncreasingTimes sampleWindow ∧
    ∃ trades, GenerateTradesInWindow sampleWindow sampleConfiguration "ES" 1 = some trades ∧
      trades.Chain' takenAfterClose :=
  ⟨by decide, no_overlapping_trades sampleWindow sampleConfiguration "ES" 1 (by decide)⟩

/-! ## Trades returned by `GenerateTradesInWindow` -/

/-- What a trade created on `row` carries: the entry fields come from the row and
from the values of the `switch`, and the direction is SHORT or LONG with the values
of that branch. -/
theorem createdAt_fields (window : Data) (cfg : InstrumentConfiguration)
    (instrument : String) (tick : ℚ) (row : Row) (s : EntrySetup) (closed : Trade)
    (hne : window ≠ []) (h : createdAt window cfg instrument tick row s closed) :
    closed.TakenAt = row.Time ∧ closed.EntryPrice = row.Close ∧
    closed.InitialStopPrice = s.stopPrice ∧ closed.TargetPrice = s.target.Value ∧
    ((closed.Direction = SHORT ∧ entrySetup row SHORT cfg tick = .ready s) ∨
      (closed.Direction = LONG ∧ entrySetup row LONG cfg tick = .ready s)) := by
  obtain ⟨_, hta, hd, hep, hisp, htp⟩ :=
    createdAt_sameEntry window cfg instrument tick row s closed hne h
  obtain ⟨_, hvalid, hsetup, _, _⟩ := h
  have hdir : closed.Direction = row.TradeDirection.1 := hd.symm
  refine ⟨hta.symm, hep.symm, hisp.symm, htp.symm, ?_⟩
  by_cases hs : row.TradeDirection.1 = SHORT
  · left
    rw [hs] at hsetup
    exact ⟨hdir.trans hs, hsetup⟩
  · by_cases hl : row.TradeDirection.1 = LONG
    · right
      rw [hl] at hsetup
      exact ⟨hdir.trans hl, hsetup⟩
    · exfalso
      have : row.IsValidEntry row.TradeDirection.1 = some false := by
        simp [Row.IsValidEntry, hs, hl]
      rw [this] at hvalid
      exact absurd hvalid (by simp)

/-- A trade created on `row` has the direction `TradeDirection` gave for the row, and
the row is a valid entry for that direction. -/
theorem createdAt_direction (window : Data) (cfg : InstrumentConfiguration)
    (instrument : String) (tick : ℚ) (row : Row) (s : EntrySetup) (closed : Trade)
    (hne : window ≠ []) (h : createdAt window cfg instrument tick row s closed) :
    row.TradeDirection = (closed.Direction, none) ∧
    row.IsValidEntry closed.Direction = some true := by
  obtain ⟨_, _, hd, _, _, _⟩ :=
    createdAt_sameEntry window cfg instrument tick row s closed hne h
  obtain ⟨herr, hvalid, _, _, _⟩ := h
  have hdir : row.TradeDirection.1 = closed.Direction := hd
  rw [hdir] at hvalid
  refine ⟨?_, hvalid⟩
  rw [← hdir]
  unfold Row.TradeDirection at herr ⊢
  split_ifs at herr ⊢
  · exact absurd rfl herr
  · rfl
  · rfl

/-- `GenerateTradesInWindow` returns a list, and each of its trades was created on a
candle of the window. -/
theorem GenerateTradesInWindow_trace (window : Data) (cfg : InstrumentConfiguration)
    (instrument : String) (tick : ℚ) :
    ∃ trades, GenerateTradesInWindow window cfg instrument tick = some trades ∧
      ∀ tr ∈ trades, window ≠ [] ∧
        ∃ row ∈ window, ∃ s, createdAt window cfg instrument tick row s tr := by
  unfold GenerateTradesInWindow
  by_cases hne : window = []
  · subst hne
    exact ⟨[], by simp [generateLoop], by simp⟩
  · obtain ⟨new, h1, h2⟩ := generateLoop_trace window cfg instrument tick hne window false []
      (by simp)
    refine ⟨new, by simpa using h1, ?_⟩
    intro tr htr
    exact ⟨hne, h2 tr htr⟩

/-- C8: every trade returned by `GenerateTradesInWindow` was created on an entry
candle `c` of the window (`c` has the direction of the trade and is a valid entry for
it), with EntryPrice = c.Close, TakenAt = c.Time and InitialStopPrice the rounding of
c.High + StopSizeAddition * tickSize for a SHORT trade, of
c.Low - StopSizeAddition * tickSize for a LONG trade. -/
theorem trade_created_on_entry_candle (window : Data) (cfg : InstrumentConfiguration)
    (instrument : String) (tick : ℚ) :
    ∃ trades, GenerateTradesInWindow window cfg instrument tick = some trades ∧
      ∀ trade ∈ trades, ∃ c ∈ window,
        c.TradeDirection = (trade.Direction, none) ∧
        c.IsValidEntry trade.Direction = some true ∧
        trade.EntryPrice = c.Close ∧ trade.TakenAt = c.Time ∧
        ((trade.Direction = SHORT ∧ trade.InitialStopPrice =
            RoundToDecimalLength (c.High + (cfg.StopSizeAddition : ℚ) * tick) tick) ∨
          (trade.Direction = LONG ∧ trade.InitialStopPrice =
            RoundToDecimalLength (c.Low - (cfg.StopSizeAddition : ℚ) * tick) tick)) := by
  obtain ⟨trades, hres, htrace⟩ := GenerateTradesInWindow_trace window cfg instrument tick
  refine ⟨trades, hres, ?_⟩
  intro trade hmem
  obtain ⟨hne, c, hc, s, hcreated⟩ := htrace trade hmem
  obtain ⟨hta, hep, hisp, _, hbranch⟩ :=
    createdAt_fields window cfg instrument tick c s trade hne hcreated
  obtain ⟨hdir, hvalid⟩ :=
    createdAt_direction window cfg instrument tick c s trade hne hcreated
  refine ⟨c, hc, hdir, hvalid, hep, hta, ?_⟩
  rcases hbranch with ⟨hd, hsetup⟩ | ⟨hd, hsetup⟩
  · left
    refine ⟨hd, ?_⟩
    rcases entrySetup_short c cfg tick with ⟨_, hskip⟩ | ⟨m, _, _, _, hready⟩
    · rw [hskip] at hsetup; exact absurd hsetup (by simp)
    · rw [hready] at hsetup
      injection hsetup with hsetup
      rw [hisp, ← hsetup, mul_comm]
  · right
    refine ⟨hd, ?_⟩
    rcases entrySetup_long c cfg tick with ⟨_, hskip⟩ | ⟨m, _, _, _, hready⟩
    · rw [hskip] at hsetup; exact absurd hsetup (by simp)
    · rw [hready] at hsetup
      injection hsetup with hsetup
      rw [hisp, ← hsetup, mul_comm]

/-- C9, as the code has it: for every SHORT trade returned by
`GenerateTradesInWindow`, TargetPrice is the value of the first unbroken low
boundary of the entry candle in descending order of value (the largest value among
its unbroken low boundaries), and the reward handed to `calculateRR` is the close
minus that value. -/
theorem short_target_largest_unbroken_low (window : Data) (cfg : InstrumentConfiguration)
    (instrument : String) (tick : ℚ) :
    ∃ trades, GenerateTradesInWindow window cfg instrument tick = some trades ∧
      ∀ trade ∈ trades, trade.Direction = SHORT → ∃ c ∈ window,
        c.Time = trade.TakenAt ∧ c.Close = trade.EntryPrice ∧
        targetIsLargestUnbrokenLow c trade ∧
        ∃ s, entrySetup c SHORT cfg tick = .ready s ∧
          s.target.Value = trade.TargetPrice ∧
          s.targetSize = c.Close - trade.TargetPrice ∧
          s.actualRR = calculateRR s.oneRisk s.targetSize := by
  obtain ⟨trades, hres, htrace⟩ := GenerateTradesInWindow_trace window cfg instrument tick
  refine ⟨trades, hres, ?_⟩
  intro trade hmem hshort
  obtain ⟨hne, c, hc, s, hcreated⟩ := htrace trade hmem
  obtain ⟨hta, hep, _, htp, hbranch⟩ :=
    createdAt_fields window cfg instrument tick c s trade hne hcreated
  have hsetup : entrySetup c SHORT cfg tick = .ready s := by
    rcases hbranch with ⟨_, h⟩ | ⟨hd, _⟩
    · exact h
    · rw [hd] at hshort; exact absurd hshort.symm SHORT_ne_LONG
  rcases entrySetup_short c cfg tick with ⟨_, hskip⟩ | ⟨m, hm, hmb, hmax, hready⟩
  · rw [hskip] at hsetup; exact absurd hsetup (by simp)
  · rw [hready] at hsetup
    injection hsetup with hsetup
    have hval : m.Value = trade.TargetPrice := by rw [htp, ← hsetup]
    refine ⟨c, hc, hta.symm, hep.symm, ⟨⟨m, hm, hmb, hval⟩, ?_⟩, s, ?_, ?_, ?_, ?_⟩
    · intro b hb hbb
      rw [← hval]; exact hmax b hb hbb
    · rw [hready, hsetup]
    · exact htp.symm
    · rw [← hval, ← hsetup]
    · rw [← hsetup]

/-- Counterexample to C9 as stated: on the sample window the SHORT trade taken on the
candle of time 1 has target 90, while the unbroken low boundaries of that candle are
80 and 90: no candle of the window at the trade's TakenAt has the trade's target as
the smallest value among its unbroken low boundaries. -/
theorem short_target_not_smallest_unbroken_low :
    GenerateTradesInWindow sampleWindow sampleConfiguration "ES" 1 =
      some [sampleShortTrade, sampleLongTrade] ∧
    sampleShortTrade.Direction = SHORT ∧
    ¬ ∃ c ∈ sampleWindow, c.Time = sampleShortTrade.TakenAt ∧
        targetIsSmallestUnbrokenLow c sampleShortTrade := by
  decide!

/-- C10: for every LONG trade returned by `GenerateTradesInWindow`, TargetPrice is the
smallest value among the unbroken high boundaries of the entry candle, the risk
handed to `calculateRR` is close - stop and the reward is target - close; and a
qualifying LONG candle without an unbroken high boundary produces no trade: the scan
goes on with the next candle. -/
theorem long_target_smallest_unbroken_high (window : Data) (cfg : InstrumentConfiguration)
    (instrument : String) (tick : ℚ) :
    (∃ trades, GenerateTradesInWindow window cfg instrument tick = some trades ∧
      ∀ trade ∈ trades, trade.Direction = LONG → ∃ c ∈ window,
        c.Time = trade.TakenAt ∧ c.Close = trade.EntryPrice ∧
        targetIsSmallestUnbrokenHigh c trade ∧
        ∃ s, entrySetup c LONG cfg tick = .ready s ∧
          s.oneRisk = c.Close - trade.InitialStopPrice ∧
          s.targetSize = trade.TargetPrice - c.Close ∧
          s.actualRR = calculateRR s.oneRisk s.targetSize) ∧
    (∀ (row : Row) (rest : List Row) (trades : Trades),
      row.TradeDirection = (LONG, none) → row.IsValidEntry LONG = some true →
      (∀ b ∈ row.HighBoundaries, b.Broken = true) →
      generateLoop window cfg instrument tick (row :: rest) false trades =
        generateLoop window cfg instrument tick rest false trades) := by
  constructor
  · obtain ⟨trades, hres, htrace⟩ := GenerateTradesInWindow_trace window cfg instrument tick
    refine ⟨trades, hres, ?_⟩
    intro trade hmem hlong
    obtain ⟨hne, c, hc, s, hcreated⟩ := htrace trade hmem
    obtain ⟨hta, hep, hisp, htp, hbranch⟩ :=
      createdAt_fields window cfg instrument tick c s trade hne hcreated
    have hsetup : entrySetup c LONG cfg tick = .ready s := by
      rcases hbranch with ⟨hd, _⟩ | ⟨_, h⟩
      · rw [hd] at hlong; exact absurd hlong SHORT_ne_LONG
      · exact h
    rcases entrySetup_long c cfg tick with ⟨_, hskip⟩ | ⟨m, hm, hmb, hmin, hready⟩
    · rw [hskip] at hsetup; exact absurd hsetup (by simp)
    · rw [hready] at hsetup
      injection hsetup with hsetup
      have hval : m.Value = trade.TargetPrice := by rw [htp, ← hsetup]
      refine ⟨c, hc, hta.symm, hep.symm, ⟨⟨m, hm, hmb, hval⟩, ?_⟩, s, ?_, ?_, ?_, ?_⟩
      · intro b hb hbb
        rw [← hval]; exact hmin b hb hbb
      · rw [hready, hsetup]
      · rw [hisp, ← hsetup]
      · rw [← hval, ← hsetup]
      · rw [← hsetup]
  · intro row rest trades hdir hvalid hnone
    have hfilter : row.HighBoundaries.filter (fun x => !x.Broken) = [] := by
      rw [List.filter_eq_nil_iff]
      intro b hb
      simp [hnone b hb]
    have hskip : entrySetup row LONG cfg tick = .skip := by
      rcases entrySetup_long row cfg tick with ⟨_, h⟩ | ⟨m, hm, hmb, _, _⟩
      · exact h
      · rw [hnone m hm] at hmb; exact absurd hmb (by simp)
    simp [generateLoop, hdir, hvalid, hskip]

/-! ## Risk to reward -/

/-- C11: `calculateRR` returns 0 for every target size when the risk is 0 and
targetSize / oneRisk when the risk is not 0; the division sits in the branch where
the risk is not 0. -/
theorem calculateRR_contract (oneRisk targetSize : ℚ) :
    (oneRisk = 0 → calculateRR oneRisk targetSize = 0) ∧
    (oneRisk ≠ 0 → calculateRR oneRisk targetSize = targetSize / oneRisk) := by
  constructor
  · intro h
    simp [calculateRR, h]
  · intro h
    simp [calculateRR, h]

theorem indexAt_inRange {α : Type} (s : List α) (i : Int) (h0 : 0 ≤ i)
    (h1 : i < (s.length : Int)) : ∃ r, indexAt s i = some r := by
  have hlt : i.toNat < s.length := by omega
  refine ⟨s[i.toNat], ?_⟩
  unfold indexAt
  rw [if_neg (not_lt.mpr h0)]
  exact List.getElem?_eq_getElem hlt

/-- A sum that stays within the Go `int` is the sum of the integers. -/
theorem intAdd_eq (a b : Int) (h : sumInRange a b) : intAdd a b = a + b := by
  unfold sumInRange MinInt64 MaxInt64 at h
  unfold intAdd
  omega

/-- A pivot loop that ends on `true` has read every row of its range, and none of
them is `bad`. -/
theorem pivotLoop_true (d : List Row) (i sign : Int) (bad : Row → Bool) :
    ∀ (n : Nat) (j0 : Int), pivotLoop d i sign bad n j0 = some true →
      ∀ k : Nat, k < n → ∃ r, indexAt d (i + sign * (j0 + k)) = some r ∧ bad r = false := by
  intro n
  induction n with
  | zero => intro j0 _ k hk; exact absurd hk (Nat.not_lt_zero k)
  | succ n ih =>
    intro j0 h k hk
    unfold pivotLoop at h
    cases hr : indexAt d (i + sign * j0) with
    | none => rw [hr] at h; cases h
    | some r0 =>
      rw [hr] at h
      simp only at h
      cases hbad : bad r0 with
      | true => rw [hbad] at h; simp at h
      | false =>
        rw [hbad] at h
        simp only [Bool.false_eq_true, if_false] at h
        cases k with
        | zero => exact ⟨r0, by simpa using hr, hbad⟩
        | succ k =>
          obtain ⟨r, hr1, hrb⟩ := ih (j0 + 1) h k (Nat.lt_of_succ_lt_succ hk)
          refine ⟨r, ?_, hrb⟩
          have : j0 + ((k + 1 : Nat) : Int) = j0 + 1 + (k : Int) := by push_cast; ring
          rw [this]; exact hr1

/-- The pivot loop, when every index it reads is in the series: it ends, and it ends
on `true` exactly when no row it reads is `bad`. -/
theorem pivotLoop_spec (d : List Row) (i sign : Int) (bad : Row → Bool) :
    ∀ (n : Nat) (j0 : Int),
      (∀ k : Nat, k < n → ∃ r, indexAt d (i + sign * (j0 + k)) = some r) →
      ∃ b, pivotLoop d i sign bad n j0 = some b ∧
        (b = true ↔ ∀ k : Nat, k < n →
          ∃ r, indexAt d (i + sign * (j0 + k)) = some r ∧ bad r = false) := by
  intro n
  induction n with
  | zero =>
    intro j0 _
    exact ⟨true, rfl, by simp⟩
  | succ n ih =>
    intro j0 hin
    obtain ⟨r0, hr0⟩ := hin 0 (Nat.succ_pos n)
    have hr0' : indexAt d (i + sign * j0) = some r0 := by simpa using hr0
    have hin2 : ∀ k : Nat, k < n → ∃ r, indexAt d (i + sign * (j0 + 1 + k)) = some r := by
      intro k hk
      obtain ⟨r, hr⟩ := hin (k + 1) (Nat.succ_lt_succ hk)
      refine ⟨r, ?_⟩
      have : j0 + 1 + (k : Int) = j0 + ((k + 1 : Nat) : Int) := by push_cast; ring
      rw [this]; exact hr
    obtain ⟨b, hb, hiff⟩ := ih (j0 + 1) hin2
    cases hbad : bad r0 with
    | true =>
      refine ⟨false, by simp [pivotLoop, hr0', hbad], ?_⟩
      constructor
      · intro h; exact absurd h (by simp)
      · intro h
        obtain ⟨r, hr, hrb⟩ := h 0 (Nat.succ_pos n)
        have : indexAt d (i + sign * j0) = some r := by simpa using hr
        rw [hr0'] at this
        injection this with this
        rw [← this, hbad] at hrb
        exact absurd hrb (by simp)
    | false =>
      refine ⟨b, by simp [pivotLoop, hr0', hbad, hb], ?_⟩
      rw [hiff]
      constructor
      · intro h k hk
        cases k with
        | zero => exact ⟨r0, by simpa using hr0', hbad⟩
        | succ k =>
          obtain ⟨r, hr, hrb⟩ := h k (Nat.lt_of_succ_lt_succ hk)
          refine ⟨r, ?_, hrb⟩
          have : j0 + ((k + 1 : Nat) : Int) = j0 + 1 + (k : Int) := by push_cast; ring
          rw [this]; exact hr
      · intro h k hk
        obtain ⟨r, hr, hrb⟩ := h (k + 1) (Nat.succ_lt_succ hk)
        refine ⟨r, ?_, hrb⟩
        have : j0 + 1 + (k : Int) = j0 + ((k + 1 : Nat) : Int) := by push_cast; ring
        rw [this]; exact hr
theorem isPivotHigh_eq_pivotCheck (d : Data) (i leftBars rightBars : Int) :
    isPivotHigh d i leftBars rightBars =
      pivotCheck d (fun cur r => decide (r.High ≥ cur.High)) i leftBars rightBars := rfl

theorem isPivotLow_eq_pivotCheck (d : Data) (i leftBars rightBars : Int) :
    isPivotLow d i leftBars rightBars =
      pivotCheck d (fun cur r => decide (r.Low ≤ cur.Low)) i leftBars rightBars := rfl

/-- A pivot test that answers `true` has found the candle and every neighbour of its
range, none of which disqualifies it; this needs no bound on the bar counts. -/
theorem pivotCheck_true (d : Data) (bad : Row → Row → Bool) (i leftBars rightBars : Int)
    (h : pivotCheck d bad i leftBars rightBars = some true) :
    leftBars ≤ i ∧ ∃ cur, indexAt d i = some cur ∧
      (∀ j : Int, 1 ≤ j → j ≤ leftBars →
        ∃ r, indexAt d (i - j) = some r ∧ bad cur r = false) ∧
      (∀ j : Int, 1 ≤ j → j ≤ rightBars →
        ∃ r, indexAt d (i + j) = some r ∧ bad cur r = false) := by
  unfold pivotCheck at h
  by_cases hguard : i < leftBars ∨ intAdd i rightBars ≥ (d.length : Int)
  · rw [if_pos hguard] at h; simp at h
  · rw [if_neg hguard] at h
    have hL : leftBars ≤ i := by
      by_contra hc; exact hguard (Or.inl (not_le.mp hc))
    cases hcur : indexAt d i with
    | none => rw [hcur] at h; cases h
    | some cur =>
      rw [hcur] at h
      simp only at h
      cases hl : pivotLoop d i (-1) (bad cur) leftBars.toNat 1 with
      | none => rw [hl] at h; cases h
      | some bl =>
        cases bl with
        | false => rw [hl] at h; simp at h
        | true =>
          rw [hl] at h
          simp only at h
          refine ⟨hL, cur, rfl, ?_, ?_⟩
          · intro j hj1 hj2
            obtain ⟨r, hr, hrb⟩ := pivotLoop_true d i (-1) (bad cur) leftBars.toNat 1 hl
              (j - 1).toNat (by omega)
            refine ⟨r, ?_, hrb⟩
            have : i + (-1) * (1 + (((j - 1).toNat : Nat) : Int)) = i - j := by omega
            rw [← this]; exact hr
          · intro j hj1 hj2
            obtain ⟨r, hr, hrb⟩ := pivotLoop_true d i 1 (bad cur) rightBars.toNat 1 h
              (j - 1).toNat (by omega)
            refine ⟨r, ?_, hrb⟩
            have : i + 1 * (1 + (((j - 1).toNat : Nat) : Int)) = i + j := by omega
            rw [← this]; exact hr

/-- The pivot test returns, and returns `true` exactly when the candle has enough
neighbours and none of them disqualifies it, as soon as the sum of the guard does
not overflow and the bar counts are not negative or the index is one of the series. -/
theorem pivotCheck_spec (d : Data) (bad : Row → Row → Bool) (i leftBars rightBars : Int)
    (hsum : sumInRange i rightBars)
    (h : (0 ≤ leftBars ∧ 0 ≤ rightBars) ∨ (0 ≤ i ∧ i < (d.length : Int))) :
    ∃ b, pivotCheck d bad i leftBars rightBars = some b ∧
      (b = true ↔ leftBars ≤ i ∧ i + rightBars < (d.length : Int) ∧
        ∃ cur, indexAt d i = some cur ∧
          (∀ j : Int, 1 ≤ j → j ≤ leftBars →
            ∃ r, indexAt d (i - j) = some r ∧ bad cur r = false) ∧
          (∀ j : Int, 1 ≤ j → j ≤ rightBars →
            ∃ r, indexAt d (i + j) = some r ∧ bad cur r = false)) := by
  have hw : intAdd i rightBars = i + rightBars := intAdd_eq i rightBars hsum
  by_cases hguard : i < leftBars ∨ i + rightBars ≥ (d.length : Int)
  · refine ⟨false, by simp [pivotCheck, hw, hguard], ?_⟩
    constructor
    · intro hb; exact absurd hb (by simp)
    · rintro ⟨h1, h2, _⟩
      rcases hguard with hg | hg
      · exact absurd h1 (not_le.mpr hg)
      · exact absurd h2 (not_lt.mpr hg)
  · have hL : leftBars ≤ i := by
      by_contra hc; exact hguard (Or.inl (not_le.mp hc))
    have hR : i + rightBars < (d.length : Int) := by
      by_contra hc; exact hguard (Or.inr (not_lt.mp hc))
    have hi : 0 ≤ i ∧ i < (d.length : Int) := by
      rcases h with ⟨h1, h2⟩ | h
      · constructor <;> omega
      · exact h
    obtain ⟨cur, hcur⟩ := indexAt_inRange d i hi.1 hi.2
    have hleftIn : ∀ k : Nat, k < leftBars.toNat →
        ∃ r, indexAt d (i + (-1) * (1 + (k : Int))) = some r := by
      intro k hk
      apply indexAt_inRange <;> omega
    have hrightIn : ∀ k : Nat, k < rightBars.toNat →
        ∃ r, indexAt d (i + 1 * (1 + (k : Int))) = some r := by
      intro k hk
      apply indexAt_inRange <;> omega
    obtain ⟨bl, hbl, hliff⟩ := pivotLoop_spec d i (-1) (bad cur) leftBars.toNat 1 hleftIn
    obtain ⟨br, hbr, hriff⟩ := pivotLoop_spec d i 1 (bad cur) rightBars.toNat 1 hrightIn
    have hleft : bl = true ↔ ∀ j : Int, 1 ≤ j → j ≤ leftBars →
        ∃ r, indexAt d (i - j) = some r ∧ bad cur r = false := by
      rw [hliff]
      constructor
      · intro hk j hj1 hj2
        obtain ⟨r, hr, hrb⟩ := hk (j - 1).toNat (by omega)
        refine ⟨r, ?_, hrb⟩
        have : i + (-1) * (1 + (((j - 1).toNat : Nat) : Int)) = i - j := by omega
        rw [← this]; exact hr
      · intro hj k hk
        obtain ⟨r, hr, hrb⟩ := hj (1 + (k : Int)) (by omega) (by omega)
        refine ⟨r, ?_, hrb⟩
        have : i + (-1) * (1 + (k : Int)) = i - (1 + (k : Int)) := by omega
        rw [this]; exact hr
    have hright : br = true ↔ ∀ j : Int, 1 ≤ j → j ≤ rightBars →
        ∃ r, indexAt d (i + j) = some r ∧ bad cur r = false := by
      rw [hriff]
      constructor
      · intro hk j hj1 hj2
        obtain ⟨r, hr, hrb⟩ := hk (j - 1).toNat (by omega)
        refine ⟨r, ?_, hrb⟩
        have : i + 1 * (1 + (((j - 1).toNat : Nat) : Int)) = i + j := by omega
        rw [← this]; exact hr
      · intro hj k hk
        obtain ⟨r, hr, hrb⟩ := hj (1 + (k : Int)) (by omega) (by omega)
        refine ⟨r, ?_, hrb⟩
        have : i + 1 * (1 + (k : Int)) = i + (1 + (k : Int)) := by omega
        rw [this]; exact hr
    cases bl with
    | false =>
      refine ⟨false, by simp [pivotCheck, hw, hguard, hcur, hbl], ?_⟩
      constructor
      · intro hb; exact absurd hb (by simp)
      · rintro ⟨_, _, cur2, hcur2, hl, _⟩
        rw [hcur] at hcur2
        injection hcur2 with hcur2
        subst hcur2
        have := hleft.mpr hl
        exact absurd this (by simp)
    | true =>
      refine ⟨br, by simp [pivotCheck, hw, hguard, hcur, hbl, hbr], ?_⟩
      rw [hright]
      constructor
      · intro hr
        exact ⟨hL, hR, cur, hcur, hleft.mp rfl, hr⟩
      · rintro ⟨_, _, cur2, hcur2, _, hr⟩
        rw [hcur] at hcur2
        injection hcur2 with hcur2
        subst hcur2
        exact hr
/-- C13, as the code has it: provided the sum i + rightBars does not overflow the Go
`int`, and leftBars and rightBars are not negative (or the index is one of the
series), `isPivotHigh(i, leftBars, rightBars)` returns; it is true if and only if
i >= leftBars, i + rightBars < len(data) and the high of candle i is strictly above
the high of each of the leftBars candles before it and of each of the rightBars
candles after it; otherwise it is false.  So an equal high on either side gives
false, and an index without enough candles on either side, or past the end of the
series, gives false without an out-of-range access. -/
theorem isPivotHigh_iff (d : Data) (i leftBars rightBars : Int)
    (hsum : sumInRange i rightBars)
    (h : (0 ≤ leftBars ∧ 0 ≤ rightBars) ∨ (0 ≤ i ∧ i < (d.length : Int))) :
    (∃ b, isPivotHigh d i leftBars rightBars = some b) ∧
    (isPivotHigh d i leftBars rightBars = some true ↔
      leftBars ≤ i ∧ i + rightBars < (d.length : Int) ∧ strictlyHighest d i leftBars rightBars) ∧
    (isPivotHigh d i leftBars rightBars = some false ↔
      ¬ (leftBars ≤ i ∧ i + rightBars < (d.length : Int) ∧
          strictlyHighest d i leftBars rightBars)) ∧
    (i < leftBars ∨ i + rightBars ≥ (d.length : Int) →
      isPivotHigh d i leftBars rightBars = some false) ∧
    (∀ (cur r : Row) (j : Int), indexAt d i = some cur → 1 ≤ j →
      ((j ≤ leftBars ∧ indexAt d (i - j) = some r) ∨
        (j ≤ rightBars ∧ indexAt d (i + j) = some r)) →
      r.High = cur.High → isPivotHigh d i leftBars rightBars = some false) := by
  obtain ⟨b, hb, hiff⟩ := pivotCheck_spec d (fun cur r => decide (r.High ≥ cur.High))
    i leftBars rightBars hsum h
  rw [← isPivotHigh_eq_pivotCheck] at hb
  have hspec : b = true ↔ leftBars ≤ i ∧ i + rightBars < (d.length : Int) ∧
      strictlyHighest d i leftBars rightBars := by
    rw [hiff]
    unfold strictlyHighest
    simp only [ge_iff_le, decide_eq_false_iff_not, not_le]
  have hfalse : ¬ (leftBars ≤ i ∧ i + rightBars < (d.length : Int) ∧
      strictlyHighest d i leftBars rightBars) →
      isPivotHigh d i leftBars rightBars = some false := by
    intro hn
    rw [hb]
    cases b with
    | false => rfl
    | true => exact absurd (hspec.mp rfl) hn
  refine ⟨⟨b, hb⟩, ?_, ?_, ?_, ?_⟩
  · rw [hb, ← hspec]; simp
  · rw [hb, ← hspec]; simp
  · intro hg
    apply hfalse
    rintro ⟨h1, h2, _⟩
    rcases hg with hg | hg
    · exact absurd h1 (not_le.mpr hg)
    · exact absurd h2 (not_lt.mpr hg)
  · intro cur r j hcur hj hside heq
    apply hfalse
    rintro ⟨_, _, cur2, hcur2, hl, hr⟩
    rw [hcur] at hcur2
    injection hcur2 with hcur2
    subst hcur2
    rcases hside with ⟨hjl, hidx⟩ | ⟨hjr, hidx⟩
    · obtain ⟨r2, hr2, hlt⟩ := hl j hj hjl
      rw [hidx] at hr2
      injection hr2 with hr2
      rw [← hr2, heq] at hlt
      exact lt_irrefl _ hlt
    · obtain ⟨r2, hr2, hlt⟩ := hr j hj hjr
      rw [hidx] at hr2
      injection hr2 with hr2
      rw [← hr2, heq] at hlt
      exact lt_irrefl _ hlt

/-- Witness of C13: the test "Valid pivot high" of `data_test.go`, highs 100, 200,
300, 200, 100, index 2 with two bars on each side. -/
theorem isPivotHigh_iff_witness :
    sumInRange 2 2 ∧
    isPivotHigh [candle 0 100 0 0, candle 1 200 0 0, candle 2 300 0 0, candle 3 200 0 0,
      candle 4 100 0 0] 2 2 2 = some true ∧
    (2 : Int) ≤ 2 ∧ (2 : Int) + 2 < 5 ∧
    strictlyHighest [candle 0 100 0 0, candle 1 200 0 0, candle 2 300 0 0, candle 3 200 0 0,
      candle 4 100 0 0] 2 2 2 := by
  have h := (isPivotHigh_iff [candle 0 100 0 0, candle 1 200 0 0, candle 2 300 0 0,
    candle 3 200 0 0, candle 4 100 0 0] 2 2 2 (by decide) (Or.inl ⟨by decide, by decide⟩)).2.1
  have hv : isPivotHigh [candle 0 100 0 0, candle 1 200 0 0, candle 2 300 0 0,
    candle 3 200 0 0, candle 4 100 0 0] 2 2 2 = some true := by decide!
  exact ⟨by decide, hv, h.mp hv⟩

/-- Counterexample to C13 as stated, two inputs without enough candles on the right
that end in an out-of-range access instead of the answer false.  On a series of one
candle, index 1 is past the end; with leftBars = 0 and rightBars = -1 the guard lets
it through and `(*d)[1]` is read.  On the series of highs 100, 300, 200, index 1
with leftBars = 0 and rightBars = `MaxInt64`: the sum 1 + rightBars wraps to
`MinInt64`, the guard lets it through and the right loop reads `(*d)[3]`. -/
theorem isPivotHigh_out_of_range_access :
    isPivotHigh [candle 0 300 0 0] 1 0 (-1) = none ∧
    ((1 : Int) ≥ 0 ∧ (1 : Int) + (-1) < (([candle 0 300 0 0] : Data).length : Int)) ∧
    isPivotHigh [candle 0 100 0 0, candle 1 300 0 0, candle 2 200 0 0] 1 0 MaxInt64 = none ∧
    intAdd 1 MaxInt64 = MinInt64 ∧
    ((1 : Int) + MaxInt64 ≥
      (([candle 0 100 0 0, candle 1 300 0 0, candle 2 200 0 0] : Data).length : Int)) := by
  decide!

/-! ## Sorting -/

theorem sortInsert_perm {α : Type} (less : α → α → Bool) (x : α) :
    ∀ l : List α, (sortInsert less x l).Perm (x :: l) := by
  intro l
  induction l with
  | nil => exact List.Perm.refl _
  | cons y ys ih =>
    unfold sortInsert
    split_ifs
    · exact ((List.Perm.cons y ih).trans (List.Perm.swap x y ys))
    · exact List.Perm.refl _

/-- The sorted list is a permutation of the list. -/
theorem sortSlice_perm {α : Type} (less : α → α → Bool) :
    ∀ l : List α, (sortSlice less l).Perm l := by
  intro l
  induction l with
  | nil => exact List.Perm.refl _
  | cons x xs ih =>
    exact (sortInsert_perm less x (sortSlice less xs)).trans (List.Perm.cons x ih)

theorem sortInsert_sorted {α : Type} (less : α → α → Bool)
    (hasym : ∀ a b, less a b = true → less b a = false)
    (hneg : ∀ a b c, less a b = false → less b c = false → less a c = false) (x : α) :
    ∀ l : List α, l.Pairwise (fun a b => less b a = false) →
      (sortInsert less x l).Pairwise (fun a b => less b a = false) := by
  intro l
  induction l with
  | nil => intro _; simp [sortInsert]
  | cons y ys ih =>
    intro hs
    have hy := List.pairwise_cons.mp hs
    unfold sortInsert
    split_ifs with hlt
    · refine List.pairwise_cons.mpr ⟨?_, ih hy.2⟩
      intro z hz
      rcases List.mem_cons.mp ((sortInsert_perm less x ys).subset hz) with hzx | hzy
      · rw [hzx]; exact hasym y x hlt
      · exact hy.1 z hzy
    · have hlt2 : less y x = false := by simpa using hlt
      refine List.pairwise_cons.mpr ⟨?_, hs⟩
      intro z hz
      rcases List.mem_cons.mp hz with hzy | hzys
      · rw [hzy]; exact hlt2
      · exact hneg z y x (hy.1 z hzys) hlt2

/-- In the sorted list no element is `less` than an element before it. -/
theorem sortSlice_sorted {α : Type} (less : α → α → Bool)
    (hasym : ∀ a b, less a b = true → less b a = false)
    (hneg : ∀ a b c, less a b = false → less b c = false → less a c = false) :
    ∀ l : List α, (sortSlice less l).Pairwise (fun a b => less b a = false) := by
  intro l
  induction l with
  | nil => exact List.Pairwise.nil
  | cons x xs ih => exact sortInsert_sorted less hasym hneg x _ ih

theorem sortByTime_sorted (l : Boundaries) :
    (sortSlice (fun x y : Boundary => decide (x.Time < y.Time)) l).Pairwise
      (fun a b => a.Time ≤ b.Time) := by
  have h := sortSlice_sorted (fun x y : Boundary => decide (x.Time < y.Time))
    (by
      intro a b hab
      simp only [decide_eq_true_eq, decide_eq_false_iff_not, not_lt] at *
      exact le_of_lt hab)
    (by
      intro a b c hab hbc
      simp only [decide_eq_false_iff_not, not_lt] at *
      exact le_trans hbc hab) l
  refine h.imp ?_
  intro a b hab
  simpa using hab

theorem SortBoundaryByValue_perm (l : Boundaries) (ascending : Bool) :
    (Boundaries.SortBoundaryByValue l ascending).Perm l := by
  unfold Boundaries.SortBoundaryByValue
  simp only [Boundaries_DeepCopy_eq]
  split_ifs
  · exact sortSlice_perm _ l
  · exact sortSlice_perm _ l

theorem SortBoundaryByValue_sorted_asc (l : Boundaries) :
    (Boundaries.SortBoundaryByValue l true).Pairwise (fun a b => a.Value ≤ b.Value) := by
  have h := sortSlice_sorted (fun x y : Boundary => decide (x.Value < y.Value))
    (by
      intro a b hab
      simp only [decide_eq_true_eq, decide_eq_false_iff_not, not_lt] at *
      exact le_of_lt hab)
    (by
      intro a b c hab hbc
      simp only [decide_eq_false_iff_not, not_lt] at *
      exact le_trans hbc hab) l
  simp only [Boundaries.SortBoundaryByValue, Boundaries_DeepCopy_eq, if_true]
  refine h.imp ?_
  intro a b hab
  simpa using hab

theorem SortBoundaryByValue_sorted_desc (l : Boundaries) :
    (Boundaries.SortBoundaryByValue l false).Pairwise (fun a b => b.Value ≤ a.Value) := by
  have h := sortSlice_sorted (fun x y : Boundary => decide (x.Value > y.Value))
    (by
      intro a b hab
      simp only [gt_iff_lt, decide_eq_true_eq, decide_eq_false_iff_not, not_lt] at *
      exact le_of_lt hab)
    (by
      intro a b c hab hbc
      simp only [gt_iff_lt, decide_eq_false_iff_not, not_lt] at *
      exact le_trans hab hbc) l
  simp only [Boundaries.SortBoundaryByValue, Boundaries_DeepCopy_eq]
  refine h.imp ?_
  intro a b hab
  simpa using hab

/-- C19: `GetSortedUnbrokenBoundary(ascending)` fails, with NoBoundaryFound, if and
only if the list holds no unbroken boundary (the empty list included); otherwise it
returns a list that is a permutation of exactly the unbroken entries, ordered by
Value non-decreasing when ascending is true and non-increasing when it is false.  The
function is a function of its argument: the source list is not changed. -/
theorem GetSortedUnbrokenBoundary_contract (b : Boundaries) (ascending : Bool) :
    (Boundaries.GetSortedUnbrokenBoundary b ascending = .error DataError.NoBoundaryFound ↔
      ∀ x ∈ b, x.Broken = true) ∧
    (∀ e, Boundaries.GetSortedUnbrokenBoundary b ascending = .error e →
      e = DataError.NoBoundaryFound) ∧
    ((∃ x ∈ b, x.Broken = false) →
      ∃ out, Boundaries.GetSortedUnbrokenBoundary b ascending = .ok out ∧
        out.Perm (b.filter (fun x => !x.Broken)) ∧
        (ascending = true → out.Pairwise (fun x y => x.Value ≤ y.Value)) ∧
        (ascending = false → out.Pairwise (fun x y => y.Value ≤ x.Value))) := by
  by_cases hnil : b.filter (fun x => !x.Broken) = []
  · have herr := GetSortedUnbrokenBoundary_nil b ascending hnil
    have hall : ∀ x ∈ b, x.Broken = true := by
      intro x hx
      have := List.filter_eq_nil_iff.mp hnil x hx
      simpa using this
    refine ⟨⟨fun _ => hall, fun _ => herr⟩, ?_, ?_⟩
    · intro e he
      rw [herr] at he
      injection he with he
      exact he.symm
    · rintro ⟨x, hx, hxb⟩
      rw [hall x hx] at hxb
      exact absurd hxb (by simp)
  · have hok := GetSortedUnbrokenBoundary_cons b ascending hnil
    obtain ⟨x, hx⟩ := List.exists_mem_of_ne_nil _ hnil
    have hxm := List.mem_filter.mp hx
    refine ⟨⟨?_, ?_⟩, ?_, ?_⟩
    · intro he
      rw [hok] at he
      exact absurd he (by simp)
    · intro hall
      have := hall x hxm.1
      rw [this] at hxm
      exact absurd hxm.2 (by simp)
    · intro e he
      rw [hok] at he
      exact absurd he (by simp)
    · intro _
      refine ⟨_, hok, SortBoundaryByValue_perm _ _, ?_, ?_⟩
      · intro ha
        subst ha
        exact SortBoundaryByValue_sorted_asc _
      · intro ha
        subst ha
        exact SortBoundaryByValue_sorted_desc _
/-! ## The retention cap -/

theorem sliceFrom_inRange {α : Type} (s : List α) (low : Int) (h0 : 0 ≤ low)
    (h1 : low ≤ (s.length : Int)) : sliceFrom s low = some (s.drop low.toNat) := by
  unfold sliceFrom
  have : ¬ (low < 0 ∨ (s.length : Int) < low) := by
    rintro (h | h)
    · exact absurd h (not_lt.mpr h0)
    · exact absurd h (not_lt.mpr h1)
  rw [if_neg this]

theorem filterOldBoundaries_within (b : Boundaries) (maxBoundaries : Int)
    (h : (b.length : Int) ≤ maxBoundaries) :
    Boundaries.filterOldBoundaries b maxBoundaries = some b := by
  unfold Boundaries.filterOldBoundaries
  simp only [h, if_true]

/-- When the list is longer than the cap, `filterOldBoundaries` keeps the end of the
list sorted by Time. -/
theorem filterOldBoundaries_trim (b : Boundaries) (maxBoundaries : Int)
    (hmax : 0 ≤ maxBoundaries) (h : maxBoundaries < (b.length : Int)) :
    Boundaries.filterOldBoundaries b maxBoundaries =
      some ((sortSlice (fun x y : Boundary => decide (x.Time < y.Time)) b).drop
        ((b.length : Int) - maxBoundaries).toNat) := by
  unfold Boundaries.filterOldBoundaries
  simp only [not_le.mpr h, if_false]
  apply sliceFrom_inRange
  · omega
  · have := (sortSlice_perm (fun x y : Boundary => decide (x.Time < y.Time)) b).length_eq
    rw [this]
    omega

/-- C18: `filterOldBoundaries(maxBoundaries)` with maxBoundaries >= 0 on a list with
pairwise distinct Times.  A list of at most maxBoundaries entries is left as it is,
order included.  A longer list becomes exactly maxBoundaries entries, in ascending
order of Time; they and the removed entries make up the input, and every removed
entry is earlier than every kept one: the kept entries are those with the latest
Times. -/
theorem filterOldBoundaries_contract (b : Boundaries) (maxBoundaries : Int)
    (hmax : 0 ≤ maxBoundaries) (hdistinct : (b.map (fun x => x.Time)).Nodup) :
    ((b.length : Int) ≤ maxBoundaries →
      Boundaries.filterOldBoundaries b maxBoundaries = some b) ∧
    (maxBoundaries < (b.length : Int) →
      ∃ out removed, Boundaries.filterOldBoundaries b maxBoundaries = some out ∧
        (out.length : Int) = maxBoundaries ∧
        out.Pairwise (fun x y => x.Time < y.Time) ∧
        (removed ++ out).Perm b ∧
        ∀ x ∈ removed, ∀ y ∈ out, x.Time < y.Time) := by
  refine ⟨filterOldBoundaries_within b maxBoundaries, ?_⟩
  intro h
  have hperm := sortSlice_perm (fun x y : Boundary => decide (x.Time < y.Time)) b
  have hlen := hperm.length_eq
  have hnodup : ((sortSlice (fun x y : Boundary => decide (x.Time < y.Time)) b).map
      (fun x => x.Time)).Nodup := (hperm.map _).nodup_iff.mpr hdistinct
  have hne : (sortSlice (fun x y : Boundary => decide (x.Time < y.Time)) b).Pairwise
      (fun x y => x.Time ≠ y.Time) := List.pairwise_map.mp hnodup
  have hstrict : (sortSlice (fun x y : Boundary => decide (x.Time < y.Time)) b).Pairwise
      (fun x y => x.Time < y.Time) := by
    refine ((sortByTime_sorted b).and hne).imp ?_
    intro x y hxy
    exact lt_of_le_of_ne hxy.1 hxy.2
  have hsplit := List.take_append_drop ((b.length : Int) - maxBoundaries).toNat
    (sortSlice (fun x y : Boundary => decide (x.Time < y.Time)) b)
  refine ⟨_, (sortSlice (fun x y : Boundary => decide (x.Time < y.Time)) b).take
    ((b.length : Int) - maxBoundaries).toNat, filterOldBoundaries_trim b maxBoundaries hmax h,
    ?_, ?_, ?_, ?_⟩
  · rw [List.length_drop, hlen]
    omega
  · exact hstrict.sublist (List.drop_sublist _ _)
  · rw [hsplit]; exact hperm
  · rw [← hsplit] at hstrict
    exact (List.pairwise_append.mp hstrict).2.2

/-- Witness of C18: the test "Filtering with more boundaries than max" of
`data_test.go`: of the entries of days 1, 3, 2, 4 the cap 2 keeps days 3 and 4. -/
theorem filterOldBoundaries_contract_witness :
    Boundaries.filterOldBoundaries
        [⟨1, 100, false⟩, ⟨3, 300, false⟩, ⟨2, 200, false⟩, ⟨4, 400, false⟩] 2 =
      some [⟨3, 300, false⟩, ⟨4, 400, false⟩] ∧
    ∃ out removed, Boundaries.filterOldBoundaries
        [⟨1, 100, false⟩, ⟨3, 300, false⟩, ⟨2, 200, false⟩, ⟨4, 400, false⟩] 2 = some out ∧
      (out.length : Int) = 2 ∧
      out.Pairwise (fun x y => x.Time < y.Time) ∧
      (removed ++ out).Perm
        [⟨1, 100, false⟩, ⟨3, 300, false⟩, ⟨2, 200, false⟩, ⟨4, 400, false⟩] ∧
      ∀ x ∈ removed, ∀ y ∈ out, x.Time < y.Time :=
  ⟨by decide,
   (filterOldBoundaries_contract
      [⟨1, 100, false⟩, ⟨3, 300, false⟩, ⟨2, 200, false⟩, ⟨4, 400, false⟩] 2
      (by decide) (by decide)).2 (by decide)⟩
/-! ## The break rule -/

theorem brokenStep_eq (currentValue : ℚ) (isHigh : Bool) (a : Boundary) :
    brokenStep currentValue isHigh a =
      if a.Broken then [] else [markBroken currentValue isHigh a] := by
  obtain ⟨t, v, br⟩ := a
  cases br with
  | true => simp [brokenStep]
  | false =>
    cases isHigh with
    | true =>
      by_cases h : v < currentValue
      · simp [brokenStep, markBroken, Boundary.DeepCopy, h]
      · simp [brokenStep, markBroken, h]
    | false =>
      by_cases h : currentValue < v
      · simp [brokenStep, markBroken, Boundary.DeepCopy, h]
      · simp [brokenStep, markBroken, h]

/-- The loop of `filterBrokenBoundaries` keeps the unbroken boundaries, in order, each
marked by the break rule; boundaries that were already broken are not copied. -/
theorem brokenLoop_eq (currentValue : ℚ) (isHigh : Bool) :
    ∀ b : Boundaries, brokenLoop currentValue isHigh b = markedUnbroken b currentValue isHigh := by
  intro b
  induction b with
  | nil => rfl
  | cons a rest ih =>
    unfold markedUnbroken at ih ⊢
    simp only [brokenLoop, brokenStep_eq, ih]
    cases hb : a.Broken with
    | true => simp [hb]
    | false => simp [hb]

theorem markedUnbroken_length (b : Boundaries) (currentValue : ℚ) (isHigh : Bool) :
    (markedUnbroken b currentValue isHigh).length = (b.filter (fun x => !x.Broken)).length := by
  unfold markedUnbroken
  rw [List.length_map]

/-- With a cap that is not negative `filterOldBoundaries` returns, and what it
returns is part of the list and within the cap. -/
theorem filterOldBoundaries_total (b : Boundaries) (maxBoundaries : Int)
    (hmax : 0 ≤ maxBoundaries) :
    ∃ out, Boundaries.filterOldBoundaries b maxBoundaries = some out ∧
      (out.length : Int) ≤ maxBoundaries ∧ (∀ c ∈ out, c ∈ b) ∧
      ((out.map (fun x => x.Time)).Nodup ∨ ¬ (b.map (fun x => x.Time)).Nodup) := by
  by_cases h : (b.length : Int) ≤ maxBoundaries
  · refine ⟨b, filterOldBoundaries_within b maxBoundaries h, h, fun c hc => hc, ?_⟩
    by_cases hn : (b.map (fun x => x.Time)).Nodup
    · exact Or.inl hn
    · exact Or.inr hn
  · have hlt := not_le.mp h
    have hperm := sortSlice_perm (fun x y : Boundary => decide (x.Time < y.Time)) b
    refine ⟨_, filterOldBoundaries_trim b maxBoundaries hmax hlt, ?_, ?_, ?_⟩
    · rw [List.length_drop, hperm.length_eq]
      omega
    · intro c hc
      exact hperm.subset (List.mem_of_mem_drop hc)
    · by_cases hn : (b.map (fun x => x.Time)).Nodup
      · left
        have h1 : ((sortSlice (fun x y : Boundary => decide (x.Time < y.Time)) b).map
            (fun x => x.Time)).Nodup := (hperm.map _).nodup_iff.mpr hn
        exact h1.sublist ((List.drop_sublist _ _).map _)
      · exact Or.inr hn

/-- With a cap that is not negative `filterBrokenBoundaries` returns, and what it
returns is within the cap and made of marked unbroken entries of the list. -/
theorem filterBrokenBoundaries_total (b : Boundaries) (currentValue : ℚ) (isHigh : Bool)
    (maxBoundaries : Int) (hmax : 0 ≤ maxBoundaries) :
    ∃ out, Boundaries.filterBrokenBoundaries b currentValue isHigh maxBoundaries = some out ∧
      (out.length : Int) ≤ maxBoundaries ∧
      ∀ c ∈ out, c ∈ markedUnbroken b currentValue isHigh := by
  unfold Boundaries.filterBrokenBoundaries
  rw [brokenLoop_eq]
  obtain ⟨out, h1, h2, h3, _⟩ := filterOldBoundaries_total
    (markedUnbroken b currentValue isHigh) maxBoundaries hmax
  exact ⟨out, h1, h2, h3⟩

/-- C14, as the code has it: the break rule of `filterBrokenBoundaries`.  The unbroken
input boundaries, in input order, each marked broken exactly when the current value is
strictly past its Value (above on the high side, below on the low side; an equal
value never breaks) and otherwise unchanged, are the output whenever they number at
most maxBoundaries; when they number more and maxBoundaries >= 0, the output is
exactly maxBoundaries of them (they and the entries left out make up the marked
entries), the ones `filterOldBoundaries` picks. -/
theorem filterBrokenBoundaries_break_rule (b : Boundaries) (currentValue : ℚ)
    (isHigh : Bool) (maxBoundaries : Int) :
    (((b.filter (fun x => !x.Broken)).length : Int) ≤ maxBoundaries →
      Boundaries.filterBrokenBoundaries b currentValue isHigh maxBoundaries =
        some (markedUnbroken b currentValue isHigh)) ∧
    (0 ≤ maxBoundaries → maxBoundaries < ((b.filter (fun x => !x.Broken)).length : Int) →
      ∃ out removed,
        Boundaries.filterBrokenBoundaries b currentValue isHigh maxBoundaries = some out ∧
        (out.length : Int) = maxBoundaries ∧
        (removed ++ out).Perm (markedUnbroken b currentValue isHigh) ∧
        Boundaries.filterOldBoundaries (markedUnbroken b currentValue isHigh) maxBoundaries =
          some out) ∧
    (∀ a : Boundary, a.Broken = false →
      (markBroken currentValue true a).Time = a.Time ∧
      (markBroken currentValue true a).Value = a.Value ∧
      (a.Value < currentValue → (markBroken currentValue true a).Broken = true) ∧
      (a.Value ≥ currentValue → markBroken currentValue true a = a) ∧
      (markBroken currentValue false a).Time = a.Time ∧
      (markBroken currentValue false a).Value = a.Value ∧
      (currentValue < a.Value → (markBroken currentValue false a).Broken = true) ∧
      (currentValue ≥ a.Value → markBroken currentValue false a = a)) := by
  refine ⟨?_, ?_, ?_⟩
  · intro h
    unfold Boundaries.filterBrokenBoundaries
    rw [brokenLoop_eq]
    apply filterOldBoundaries_within
    rw [markedUnbroken_length]
    exact h
  · intro hmax hover
    have hlt : maxBoundaries < ((markedUnbroken b currentValue isHigh).length : Int) := by
      rw [markedUnbroken_length]; exact hover
    have htrim := filterOldBoundaries_trim (markedUnbroken b currentValue isHigh)
      maxBoundaries hmax hlt
    have hperm := sortSlice_perm (fun x y : Boundary => decide (x.Time < y.Time))
      (markedUnbroken b currentValue isHigh)
    refine ⟨_, (sortSlice (fun x y : Boundary => decide (x.Time < y.Time))
      (markedUnbroken b currentValue isHigh)).take
        (((markedUnbroken b currentValue isHigh).length : Int) - maxBoundaries).toNat,
      ?_, ?_, ?_, htrim⟩
    · unfold Boundaries.filterBrokenBoundaries
      rw [brokenLoop_eq]
      exact htrim
    · rw [List.length_drop, hperm.length_eq]
      omega
    · rw [List.take_append_drop]
      exact hperm
  · intro a ha
    obtain ⟨t, v, br⟩ := a
    simp only at ha
    subst ha
    refine ⟨rfl, rfl, ?_, ?_, rfl, rfl, ?_, ?_⟩
    · intro h; simp [markBroken, h]
    · intro h; simp [markBroken, not_lt.mpr h]
    · intro h; simp [markBroken, h]
    · intro h; simp [markBroken, not_lt.mpr h]

/-- Counterexample to C14 as stated: with the cap 1, the unbroken high boundary of
Time 1 and Value 99 is below the current value 101 and yet is not in the output,
neither marked broken nor as it was: the cap keeps only the entry of Time 2. -/
theorem filterBrokenBoundaries_trims_broken :
    Boundaries.filterBrokenBoundaries [⟨1, 99, false⟩, ⟨2, 100, false⟩] 101 true 1 =
      some [⟨2, 100, true⟩] ∧
    (⟨1, 99, true⟩ : Boundary) ∉ ([⟨2, 100, true⟩] : Boundaries) ∧
    (⟨1, 99, false⟩ : Boundary) ∉ ([⟨2, 100, true⟩] : Boundaries) := by
  decide

/-! ## `CalculateUnbrokenHighsLows` -/

/-- What a pass of `CalculateUnbrokenHighsLows` leaves in a row: the candle fields are
those of the row, and each list is one `sideStep` from the list carried in. -/
theorem calculateRow_some (d : Data) (leftBars rightBars maxBoundaries : Int) (i : Nat)
    (row : Row) (previousRow : Option Row) (o : Row)
    (h : calculateRow d leftBars rightBars maxBoundaries i row previousRow = some o) :
    o.Time = row.Time ∧ o.High = row.High ∧ o.Low = row.Low ∧ o.Close = row.Close ∧
    ∃ highPivot lowPivot,
      isPivotHigh d i leftBars rightBars = some highPivot ∧
      isPivotLow d i leftBars rightBars = some lowPivot ∧
      sideStep (carriedList (fun r => r.HighBoundaries) i row previousRow) row.Time
        highPivot row.High true maxBoundaries o.HighBoundaries ∧
      sideStep (carriedList (fun r => r.LowBoundaries) i row previousRow) row.Time
        lowPivot row.Low false maxBoundaries o.LowBoundaries := by
  unfold calculateRow at h
  cases hp : isPivotHigh d i leftBars rightBars with
  | none => rw [hp] at h; simp at h
  | some highPivot =>
    cases lp : isPivotLow d i leftBars rightBars with
    | none => rw [hp, lp] at h; simp at h
    | some lowPivot =>
      rw [hp, lp] at h
      simp only at h
      cases previousRow with
      | none =>
        simp only at h
        cases hh : Boundaries.filterBrokenBoundaries
            (if highPivot = true then
              Boundaries.updateBoundaries row.HighBoundaries row.High row.Time
             else row.HighBoundaries) row.High true maxBoundaries with
        | none => rw [hh] at h; simp at h
        | some highs1 =>
          cases hl : Boundaries.filterBrokenBoundaries
              (if lowPivot = true then
                Boundaries.updateBoundaries row.LowBoundaries row.Low row.Time
               else row.LowBoundaries) row.Low false maxBoundaries with
          | none => rw [hh, hl] at h; simp at h
          | some lows1 =>
            rw [hh, hl] at h
            simp only [Option.some.injEq] at h
            subst h
            exact ⟨rfl, rfl, rfl, rfl, highPivot, lowPivot, rfl, rfl, hh, hl⟩
      | some p =>
        by_cases hi : i > 0
        · simp only [hi, if_true] at h
          cases hh : Boundaries.filterBrokenBoundaries
              (if highPivot = true then
                Boundaries.updateBoundaries p.HighBoundaries row.High row.Time
               else p.HighBoundaries) row.High true maxBoundaries with
          | none => rw [hh] at h; simp at h
          | some highs1 =>
            cases hl : Boundaries.filterBrokenBoundaries
                (if lowPivot = true then
                  Boundaries.updateBoundaries p.LowBoundaries row.Low row.Time
                 else p.LowBoundaries) row.Low false maxBoundaries with
            | none => rw [hh, hl] at h; simp at h
            | some lows1 =>
              rw [hh, hl] at h
              simp only [Option.some.injEq] at h
              subst h
              refine ⟨rfl, rfl, rfl, rfl, highPivot, lowPivot, rfl, rfl, ?_, ?_⟩
              · simp only [sideStep, carriedList, hi, if_true]; exact hh
              · simp only [sideStep, carriedList, hi, if_true]; exact hl
        · simp only [hi, if_false] at h
          cases hh : Boundaries.filterBrokenBoundaries
              (if highPivot = true then
                Boundaries.updateBoundaries row.HighBoundaries row.High row.Time
               else row.HighBoundaries) row.High true maxBoundaries with
          | none => rw [hh] at h; simp at h
          | some highs1 =>
            cases hl : Boundaries.filterBrokenBoundaries
                (if lowPivot = true then
                  Boundaries.updateBoundaries row.LowBoundaries row.Low row.Time
                 else row.LowBoundaries) row.Low false maxBoundaries with
            | none => rw [hh, hl] at h; simp at h
            | some lows1 =>
              rw [hh, hl] at h
              simp only [Option.some.injEq] at h
              subst h
              refine ⟨rfl, rfl, rfl, rfl, highPivot, lowPivot, rfl, rfl, ?_, ?_⟩
              · simp only [sideStep, carriedList, hi, if_false]; exact hh
              · simp only [sideStep, carriedList, hi, if_false]; exact hl
/-- The rows the loop of `CalculateUnbrokenHighsLows` returns, index by index: row
`k` is the pass on input row `k`, with the returned row `k - 1` as the row before. -/
theorem calculateLoop_index (d : Data) (leftBars rightBars maxBoundaries : Int) :
    ∀ (rows : List Row) (i : Nat) (previousRow : Option Row) (out : List Row),
      calculateLoop d leftBars rightBars maxBoundaries i previousRow rows = some out →
      out.length = rows.length ∧
      ∀ (k : Nat) (r : Row), rows[k]? = some r →
        ∃ o, out[k]? = some o ∧
          calculateRow d leftBars rightBars maxBoundaries (i + k) r
            (match k with
             | 0 => previousRow
             | k1 + 1 => out[k1]?) = some o := by
  intro rows
  induction rows with
  | nil =>
    intro i previousRow out h
    simp only [calculateLoop, Option.some.injEq] at h
    subst h
    exact ⟨rfl, by intro k r hk; simp at hk⟩
  | cons row rest ih =>
    intro i previousRow out h
    unfold calculateLoop at h
    cases hrow : calculateRow d leftBars rightBars maxBoundaries i row previousRow with
    | none => rw [hrow] at h; simp at h
    | some row1 =>
      rw [hrow] at h
      simp only at h
      cases hrest : calculateLoop d leftBars rightBars maxBoundaries (i + 1) (some row1) rest with
      | none => rw [hrest] at h; simp at h
      | some rest1 =>
        rw [hrest] at h
        simp only [Option.some.injEq] at h
        subst h
        obtain ⟨hlen, hidx⟩ := ih (i + 1) (some row1) rest1 hrest
        refine ⟨by simp [hlen], ?_⟩
        intro k r hk
        cases k with
        | zero =>
          simp only [List.getElem?_cons_zero, Option.some.injEq] at hk
          subst hk
          exact ⟨row1, by simp, by simpa using hrow⟩
        | succ k =>
          simp only [List.getElem?_cons_succ] at hk
          obtain ⟨o, ho, hcalc⟩ := hidx k r hk
          refine ⟨o, by simpa using ho, ?_⟩
          have hi : i + (k + 1) = i + 1 + k := by omega
          rw [hi]
          cases k with
          | zero => simpa using hcalc
          | succ k1 => simpa using hcalc

/-- One pass returns whenever the index is one of the series, the sum of the pivot
guard does not overflow and the cap is not negative. -/
theorem calculateRow_total (d : Data) (leftBars rightBars maxBoundaries : Int) (i : Nat)
    (row : Row) (previousRow : Option Row) (hi : i < d.length)
    (hsum : sumInRange (i : Int) rightBars) (hmax : 0 ≤ maxBoundaries) :
    ∃ o, calculateRow d leftBars rightBars maxBoundaries i row previousRow = some o := by
  have hin : (0 ≤ leftBars ∧ 0 ≤ rightBars) ∨ (0 ≤ (i : Int) ∧ (i : Int) < (d.length : Int)) :=
    Or.inr ⟨by omega, by omega⟩
  obtain ⟨hp, hhp, _⟩ := pivotCheck_spec d (fun cur r => decide (r.High ≥ cur.High))
    i leftBars rightBars hsum hin
  obtain ⟨lp, hlp, _⟩ := pivotCheck_spec d (fun cur r => decide (r.Low ≤ cur.Low))
    i leftBars rightBars hsum hin
  rw [← isPivotHigh_eq_pivotCheck] at hhp
  rw [← isPivotLow_eq_pivotCheck] at hlp
  unfold calculateRow
  rw [hhp, hlp]
  simp only
  obtain ⟨hs, hhs, _⟩ := filterBrokenBoundaries_total
    (if hp = true then
      Boundaries.updateBoundaries
        (match previousRow with
          | some p => if i > 0 then { row with HighBoundaries := p.HighBoundaries,
                                               LowBoundaries := p.LowBoundaries }
                      else row
          | none => row).HighBoundaries row.High row.Time
     else (match previousRow with
          | some p => if i > 0 then { row with HighBoundaries := p.HighBoundaries,
                                               LowBoundaries := p.LowBoundaries }
                      else row
          | none => row).HighBoundaries) row.High true maxBoundaries hmax
  obtain ⟨ls, hls, _⟩ := filterBrokenBoundaries_total
    (if lp = true then
      Boundaries.updateBoundaries
        (match previousRow with
          | some p => if i > 0 then { row with HighBoundaries := p.HighBoundaries,
                                               LowBoundaries := p.LowBoundaries }
                      else row
          | none => row).LowBoundaries row.Low row.Time
     else (match previousRow with
          | some p => if i > 0 then { row with HighBoundaries := p.HighBoundaries,
                                               LowBoundaries := p.LowBoundaries }
                      else row
          | none => row).LowBoundaries) row.Low false maxBoundaries hmax
  rw [hhs, hls]
  exact ⟨_, rfl⟩

/-- The guard sum is in range at every index of the series when it is in range for
the series. -/
theorem sumsInRange_at (n : Nat) (rightBars : Int) (h : sumsInRange n rightBars) (i : Nat)
    (hi : i < n) : sumInRange (i : Int) rightBars := by
  unfold sumsInRange MinInt64 MaxInt64 at h
  unfold sumInRange MinInt64 MaxInt64
  omega

theorem calculateLoop_total (d : Data) (leftBars rightBars maxBoundaries : Int)
    (hmax : 0 ≤ maxBoundaries) (hsum : sumsInRange d.length rightBars) :
    ∀ (rows : List Row) (i : Nat) (previousRow : Option Row), i + rows.length ≤ d.length →
      ∃ out, calculateLoop d leftBars rightBars maxBoundaries i previousRow rows = some out := by
  intro rows
  induction rows with
  | nil => intro i previousRow _; exact ⟨[], rfl⟩
  | cons row rest ih =>
    intro i previousRow hlen
    simp only [List.length_cons] at hlen
    obtain ⟨row1, hrow⟩ := calculateRow_total d leftBars rightBars maxBoundaries i row
      previousRow (by omega) (sumsInRange_at d.length rightBars hsum i (by omega)) hmax
    obtain ⟨rest1, hrest⟩ := ih (i + 1) (some row1) (by omega)
    exact ⟨row1 :: rest1, by simp [calculateLoop, hrow, hrest]⟩

/-- `CalculateUnbrokenHighsLows` returns when the cap is not negative and the guard
sum of the pivot tests does not overflow at any index of the series. -/
theorem CalculateUnbrokenHighsLows_total (d : Data) (leftBars rightBars maxBoundaries : Int)
    (hmax : 0 ≤ maxBoundaries) (hsum : sumsInRange d.length rightBars) :
    ∃ out, CalculateUnbrokenHighsLows d leftBars rightBars maxBoundaries = some out := by
  unfold CalculateUnbrokenHighsLows
  exact calculateLoop_total d leftBars rightBars maxBoundaries hmax hsum d 0 none (by omega)

theorem filterOldBoundaries_some (b : Boundaries) (maxBoundaries : Int) (out : Boundaries)
    (h : Boundaries.filterOldBoundaries b maxBoundaries = some out) :
    0 ≤ maxBoundaries ∧ (out.length : Int) ≤ maxBoundaries ∧ (∀ c ∈ out, c ∈ b) ∧
    ((b.map (fun x => x.Time)).Nodup → (out.map (fun x => x.Time)).Nodup) := by
  have hmax : 0 ≤ maxBoundaries := by
    by_contra hneg
    have hneg := not_le.mp hneg
    unfold Boundaries.filterOldBoundaries at h
    have hc : ¬ ((b.length : Int) ≤ maxBoundaries) := by omega
    simp only [hc, if_false] at h
    unfold sliceFrom at h
    have hlen := (sortSlice_perm (fun x y : Boundary => decide (x.Time < y.Time)) b).length_eq
    have : ((sortSlice (fun x y : Boundary => decide (x.Time < y.Time)) b).length : Int)
        < (b.length : Int) - maxBoundaries := by rw [hlen]; omega
    rw [if_pos (Or.inr this)] at h
    exact absurd h (by simp)
  obtain ⟨out2, h2, hlen, hmem, hnd⟩ := filterOldBoundaries_total b maxBoundaries hmax
  rw [h] at h2
  injection h2 with h2
  subst h2
  refine ⟨hmax, hlen, hmem, ?_⟩
  intro hb
  rcases hnd with hn | hn
  · exact hn
  · exact absurd hb hn

theorem markedUnbroken_mem (b : Boundaries) (currentValue : ℚ) (isHigh : Bool) (c : Boundary)
    (h : c ∈ markedUnbroken b currentValue isHigh) :
    ∃ a ∈ b, a.Broken = false ∧ c = markBroken currentValue isHigh a := by
  unfold markedUnbroken at h
  obtain ⟨a, ha, hac⟩ := List.mem_map.mp h
  have hm := List.mem_filter.mp ha
  exact ⟨a, hm.1, by simpa using hm.2, hac.symm⟩

/-- The entries of the list a pass leaves: each is an entry that was unbroken in the
list carried in, or the pivot just added, marked by the break rule. -/
theorem sideStep_mem (base : Boundaries) (time : Time) (pivot : Bool) (cur : ℚ)
    (isHigh : Bool) (maxBoundaries : Int) (next : Boundaries)
    (h : sideStep base time pivot cur isHigh maxBoundaries next) (c : Boundary)
    (hc : c ∈ next) :
    ∃ a, (a ∈ base ∨ (pivot = true ∧ a = { Time := time, Value := cur, Broken := false })) ∧
      a.Broken = false ∧ c = markBroken cur isHigh a := by
  unfold sideStep Boundaries.filterBrokenBoundaries at h
  rw [brokenLoop_eq] at h
  obtain ⟨_, _, hsub, _⟩ := filterOldBoundaries_some _ _ _ h
  obtain ⟨a, ha, hab, hca⟩ := markedUnbroken_mem _ _ _ _ (hsub c hc)
  refine ⟨a, ?_, hab, hca⟩
  cases pivot with
  | false => left; simpa using ha
  | true =>
    simp only [if_true, Boundaries.updateBoundaries] at ha
    rcases List.mem_cons.mp ha with h1 | h1
    · right; exact ⟨rfl, h1⟩
    · left; exact h1

theorem sideStep_length (base : Boundaries) (time : Time) (pivot : Bool) (cur : ℚ)
    (isHigh : Bool) (maxBoundaries : Int) (next : Boundaries)
    (h : sideStep base time pivot cur isHigh maxBoundaries next) :
    0 ≤ maxBoundaries ∧ (next.length : Int) ≤ maxBoundaries := by
  unfold sideStep Boundaries.filterBrokenBoundaries at h
  obtain ⟨h0, h1, _, _⟩ := filterOldBoundaries_some _ _ _ h
  exact ⟨h0, h1⟩

/-- The result of `CalculateUnbrokenHighsLows`, candle by candle: the candle fields
are kept, the first candle steps from its own lists and every other candle from the
lists of the candle before. -/
theorem CalculateUnbrokenHighsLows_steps (d : Data) (leftBars rightBars maxBoundaries : Int)
    (out : Data) (h : CalculateUnbrokenHighsLows d leftBars rightBars maxBoundaries = some out) :
    out.length = d.length ∧
    (∀ (k : Nat) (r o : Row), d[k]? = some r → out[k]? = some o →
      o.Time = r.Time ∧ o.High = r.High ∧ o.Low = r.Low ∧ o.Close = r.Close) ∧
    (∀ (r o : Row), d[0]? = some r → out[0]? = some o →
      ∃ hp lp, isPivotHigh d 0 leftBars rightBars = some hp ∧
        isPivotLow d 0 leftBars rightBars = some lp ∧
        sideStep r.HighBoundaries r.Time hp r.High true maxBoundaries o.HighBoundaries ∧
        sideStep r.LowBoundaries r.Time lp r.Low false maxBoundaries o.LowBoundaries) ∧
    (∀ (k : Nat) (r p o : Row), d[k + 1]? = some r → out[k]? = some p → out[k + 1]? = some o →
      ∃ hp lp, isPivotHigh d ((k + 1 : Nat) : Int) leftBars rightBars = some hp ∧
        isPivotLow d ((k + 1 : Nat) : Int) leftBars rightBars = some lp ∧
        sideStep p.HighBoundaries r.Time hp r.High true maxBoundaries o.HighBoundaries ∧
        sideStep p.LowBoundaries r.Time lp r.Low false maxBoundaries o.LowBoundaries) := by
  unfold CalculateUnbrokenHighsLows at h
  obtain ⟨hlen, hidx⟩ := calculateLoop_index d leftBars rightBars maxBoundaries d 0 none out h
  refine ⟨hlen, ?_, ?_, ?_⟩
  · intro k r o hr ho
    obtain ⟨o2, ho2, hcalc⟩ := hidx k r hr
    rw [ho] at ho2
    injection ho2 with ho2
    subst ho2
    obtain ⟨h1, h2, h3, h4, _⟩ := calculateRow_some _ _ _ _ _ _ _ _ hcalc
    exact ⟨h1, h2, h3, h4⟩
  · intro r o hr ho
    obtain ⟨o2, ho2, hcalc⟩ := hidx 0 r hr
    rw [ho] at ho2
    injection ho2 with ho2
    subst ho2
    obtain ⟨_, _, _, _, hp, lp, h1, h2, h3, h4⟩ := calculateRow_some _ _ _ _ _ _ _ _ hcalc
    refine ⟨hp, lp, by simpa using h1, by simpa using h2, ?_, ?_⟩
    · simpa [carriedList] using h3
    · simpa [carriedList] using h4
  · intro k r p o hr hp0 ho
    obtain ⟨o2, ho2, hcalc⟩ := hidx (k + 1) r hr
    rw [ho] at ho2
    injection ho2 with ho2
    subst ho2
    simp only [hp0] at hcalc
    obtain ⟨_, _, _, _, hp, lp, h1, h2, h3, h4⟩ := calculateRow_some _ _ _ _ _ _ _ _ hcalc
    have hpos : 0 + (k + 1) > 0 := by omega
    refine ⟨hp, lp, ?_, ?_, ?_, ?_⟩
    · simpa using h1
    · simpa using h2
    · simpa [carriedList, hpos] using h3
    · simpa [carriedList, hpos] using h4

/-- C17: the retention cap.  For every series and every maxBoundaries >= 0, in the
series `CalculateUnbrokenHighsLows(leftBars, rightBars, maxBoundaries)` leaves each
candle's HighBoundaries and each candle's LowBoundaries has at most maxBoundaries
entries (and the series has as many candles as before).  The call returns whenever
maxBoundaries >= 0 and the sum index + rightBars of the pivot guard does not overflow
the Go `int` at any index of the series. -/
theorem retention_cap (d : Data) (leftBars rightBars maxBoundaries : Int) :
    (∀ out, CalculateUnbrokenHighsLows d leftBars rightBars maxBoundaries = some out →
      out.length = d.length ∧
      ∀ o ∈ out, (o.HighBoundaries.length : Int) ≤ maxBoundaries ∧
        (o.LowBoundaries.length : Int) ≤ maxBoundaries) ∧
    (0 ≤ maxBoundaries → sumsInRange d.length rightBars →
      ∃ out, CalculateUnbrokenHighsLows d leftBars rightBars maxBoundaries = some out) := by
  refine ⟨?_, fun hmax hsum =>
    CalculateUnbrokenHighsLows_total d leftBars rightBars maxBoundaries hmax hsum⟩
  intro out hout2
  obtain ⟨hlen, _, hfirst, hnext⟩ := CalculateUnbrokenHighsLows_steps d leftBars rightBars
    maxBoundaries out hout2
  refine ⟨hlen, ?_⟩
  intro o ho
  obtain ⟨k, hk, hko⟩ := List.getElem_of_mem ho
  have hko2 : out[k]? = some o := by rw [List.getElem?_eq_getElem hk, hko]
  have hkd : k < d.length := by omega
  have hr : d[k]? = some d[k] := List.getElem?_eq_getElem hkd
  cases k with
  | zero =>
    obtain ⟨hp, lp, _, _, h1, h2⟩ := hfirst _ o hr hko2
    exact ⟨(sideStep_length _ _ _ _ _ _ _ h1).2, (sideStep_length _ _ _ _ _ _ _ h2).2⟩
  | succ k =>
    have hk1 : k < out.length := by omega
    have hp0 : out[k]? = some out[k] := List.getElem?_eq_getElem hk1
    obtain ⟨hp, lp, _, _, h1, h2⟩ := hnext k _ _ o hr hp0 hko2
    exact ⟨(sideStep_length _ _ _ _ _ _ _ h1).2, (sideStep_length _ _ _ _ _ _ _ h2).2⟩

/-- Witness of C17: the five-candle series with one bar on each side and the cap 1;
the two pivot highs never share a list.  With rightBars = `MaxInt64` the guard sum
overflows at the candle of index 3 and the call ends in an out-of-range access. -/
theorem retention_cap_witness :
    (CalculateUnbrokenHighsLows pivotSeries 1 1 1).map
        (fun out => out.map (fun o => o.HighBoundaries)) =
      some [[], [⟨1, 3, false⟩], [⟨1, 3, false⟩], [⟨3, 5, false⟩], [⟨3, 5, false⟩]] ∧
    sumsInRange pivotSeries.length 1 ∧
    (∃ out, CalculateUnbrokenHighsLows pivotSeries 1 1 1 = some out ∧
      out.length = pivotSeries.length ∧
      ∀ o ∈ out, (o.HighBoundaries.length : Int) ≤ 1 ∧ (o.LowBoundaries.length : Int) ≤ 1) ∧
    ¬ sumsInRange pivotSeries.length MaxInt64 ∧
    CalculateUnbrokenHighsLows pivotSeries 1 MaxInt64 10 = none := by
  obtain ⟨out, hout⟩ := (retention_cap pivotSeries 1 1 1).2 (by decide) (by decide)
  exact ⟨by decide!, by decide,
    ⟨out, hout, (retention_cap pivotSeries 1 1 1).1 out hout⟩, by decide, by decide!⟩
theorem markBroken_time (cur : ℚ) (isHigh : Bool) (a : Boundary) :
    (markBroken cur isHigh a).Time = a.Time := rfl

/-- C15, as the code has it: a boundary that is marked broken in candle i's list is
not carried into candle i+1's list.  `filterBrokenBoundaries` copies across only the
entries that were not yet broken, so every entry of candle i+1's list is an entry
that was unbroken in candle i's list, or the pivot added at candle i+1, marked broken
exactly when candle i+1 breaks it; an entry that was already broken is dropped at the
next candle, whether or not the retention cap is reached. -/
theorem broken_entries_not_carried (d : Data) (leftBars rightBars maxBoundaries : Int)
    (out : Data) (k : Nat) (p o : Row)
    (h : CalculateUnbrokenHighsLows d leftBars rightBars maxBoundaries = some out)
    (hp : out[k]? = some p) (ho : out[k + 1]? = some o) :
    (∀ c ∈ o.HighBoundaries,
      ∃ a, (a ∈ p.HighBoundaries ∨ a = { Time := o.Time, Value := o.High, Broken := false }) ∧
        a.Broken = false ∧ c = markBroken o.High true a) ∧
    (∀ c ∈ o.LowBoundaries,
      ∃ a, (a ∈ p.LowBoundaries ∨ a = { Time := o.Time, Value := o.Low, Broken := false }) ∧
        a.Broken = false ∧ c = markBroken o.Low false a) := by
  obtain ⟨hlen, hfields, _, hnext⟩ := CalculateUnbrokenHighsLows_steps d leftBars rightBars
    maxBoundaries out h
  have hk : k + 1 < out.length := by
    by_contra hc
    rw [List.getElem?_eq_none (not_lt.mp hc)] at ho
    exact absurd ho (by simp)
  have hkd : k + 1 < d.length := by omega
  have hr : d[k + 1]? = some d[k + 1] := List.getElem?_eq_getElem hkd
  obtain ⟨ht, hh, hl, _⟩ := hfields (k + 1) d[k + 1] o hr ho
  obtain ⟨hpv, lpv, _, _, hs1, hs2⟩ := hnext k d[k + 1] p o hr hp ho
  rw [← ht, ← hh] at hs1
  rw [← ht, ← hl] at hs2
  constructor
  · intro c hc
    obtain ⟨a, ha, hab, hca⟩ := sideStep_mem _ _ _ _ _ _ _ hs1 c hc
    exact ⟨a, ha.imp id (fun hx => hx.2), hab, hca⟩
  · intro c hc
    obtain ⟨a, ha, hab, hca⟩ := sideStep_mem _ _ _ _ _ _ _ hs2 c hc
    exact ⟨a, ha.imp id (fun hx => hx.2), hab, hca⟩

/-- Witness of C15: the candles of index 3 and 4 of the five-candle series (cap 10):
the one entry of the last list comes from the entry of Time 3, unbroken in the list
before; the broken entry of Time 1 is not copied. -/
theorem broken_entries_not_carried_witness :
    CalculateUnbrokenHighsLows pivotSeries 1 1 10 = some pivotSeriesTracked ∧
    ∀ c ∈ ({ candle 4 4 1 0 with HighBoundaries := [⟨3, 5, false⟩] } : Row).HighBoundaries,
      ∃ a, (a ∈ ({ candle 3 5 1 0 with
                    HighBoundaries := [⟨3, 5, false⟩, ⟨1, 3, true⟩] } : Row).HighBoundaries ∨
            a = { Time := 4, Value := 4, Broken := false }) ∧
        a.Broken = false ∧ c = markBroken 4 true a :=
  ⟨by decide,
   (broken_entries_not_carried pivotSeries 1 1 10 pivotSeriesTracked 3
      { candle 3 5 1 0 with HighBoundaries := [⟨3, 5, false⟩, ⟨1, 3, true⟩] }
      { candle 4 4 1 0 with HighBoundaries := [⟨3, 5, false⟩] }
      (by decide) (by decide) (by decide)).1⟩

/-- Counterexample to C15 as stated: in the five-candle series, with the cap 10 never
reached, the boundary of Time 1 is marked broken in the list of the candle of index 3
and is absent from the list of the candle of index 4. -/
theorem broken_boundary_dropped_next_candle :
    (CalculateUnbrokenHighsLows pivotSeries 1 1 10).map
        (fun out => out.map (fun o => o.HighBoundaries)) =
      some [[], [⟨1, 3, false⟩], [⟨1, 3, false⟩], [⟨3, 5, false⟩, ⟨1, 3, true⟩],
        [⟨3, 5, false⟩]] ∧
    (⟨1, 3, true⟩ : Boundary) ∈ ([⟨3, 5, false⟩, ⟨1, 3, true⟩] : Boundaries) ∧
    (⟨1, 3, true⟩ : Boundary) ∉ ([⟨3, 5, false⟩] : Boundaries) ∧
    (([⟨3, 5, false⟩, ⟨1, 3, true⟩] : Boundaries).length : Int) ≤ 10 := by
  decide

/-! ## Moving averages -/

/-- The summing loop over `n` candles from index `j`, all in the series: it returns
the running sum plus their closes. -/
theorem sumCloseLoop_eq (d : Data) :
    ∀ (n j : Nat) (sum : ℚ), j + n ≤ d.length →
      sumCloseLoop d n (j : Int) sum =
        some (sum + (((d.drop j).take n).map (fun r => r.Close)).sum) := by
  intro n
  induction n with
  | zero => intro j sum _; simp [sumCloseLoop]
  | succ n ih =>
    intro j sum hlen
    have hj : j < d.length := by omega
    have hidx : indexAt d (j : Int) = some d[j] := by
      unfold indexAt
      have : ¬ ((j : Int) < 0) := by omega
      rw [if_neg this]
      simp [List.getElem?_eq_getElem hj]
    have hdrop : d.drop j = d[j] :: d.drop (j + 1) := List.drop_eq_getElem_cons hj
    have hnext := ih (j + 1) (sum + d[j].Close) (by omega)
    have hcast : ((j : Int) + 1) = ((j + 1 : Nat) : Int) := by push_cast; rfl
    simp only [sumCloseLoop, hidx]
    rw [hcast, hnext, hdrop]
    simp only [List.take_succ_cons, List.map_cons, List.sum_cons]
    rw [add_assoc]

/-- The average of one row: for a positive lookback amount it is the rounded mean of
the specification. -/
theorem smaAt_eq (d : Data) (i : Nat) (lookbackAmount : Int) (tickSize : ℚ)
    (hi : i < d.length) (hpos : 0 < lookbackAmount) :
    smaAt d i lookbackAmount tickSize = some (roundedMeanClose d i lookbackAmount tickSize) := by
  unfold smaAt roundedMeanClose meanClose
  simp only
  have hlb1 : 1 ≤ min ((i : Int) + 1) lookbackAmount := by
    apply le_min <;> omega
  have hlb2 : min ((i : Int) + 1) lookbackAmount ≤ (i : Int) + 1 := min_le_left _ _
  have hstart : (i : Int) - min ((i : Int) + 1) lookbackAmount + 1 =
      ((((i : Int) - lookbackAmount + 1).toNat : Nat) : Int) := by
    rcases le_total ((i : Int) + 1) lookbackAmount with h | h
    · rw [min_eq_left h]; omega
    · rw [min_eq_right h]; omega
  have hcount : (min ((i : Int) + 1) lookbackAmount).toNat =
      i + 1 - ((i : Int) - lookbackAmount + 1).toNat := by
    rcases le_total ((i : Int) + 1) lookbackAmount with h | h
    · rw [min_eq_left h]; omega
    · rw [min_eq_right h]; omega
  have hq : ((min ((i : Int) + 1) lookbackAmount : Int) : ℚ) =
      ((i + 1 - ((i : Int) - lookbackAmount + 1).toNat : Nat) : ℚ) := by
    rw [← hcount]
    have h3 : ((min ((i : Int) + 1) lookbackAmount).toNat : Int) =
        min ((i : Int) + 1) lookbackAmount := Int.toNat_of_nonneg (by omega)
    have h4 := congrArg (fun z : Int => (z : ℚ)) h3
    simp only [Int.cast_natCast] at h4
    exact h4.symm
  rw [hstart, hcount, sumCloseLoop_eq d _ _ 0 (by omega)]
  simp only [zero_add]
  rw [hq]

/-- The rows the loop of `CalculateSMA` returns, index by index. -/
theorem calculateSMALoop_index (d : Data) (config : InstrumentConfiguration) (tickSize : ℚ)
    (hl : 0 < config.LargeSMALookbackAmount) (hs : 0 < config.SmallSMALookbackAmount) :
    ∀ (rows : List Row) (i : Nat), i + rows.length ≤ d.length →
      ∃ out, calculateSMALoop d config tickSize i rows = some out ∧
        out.length = rows.length ∧
        ∀ (k : Nat) (r : Row), rows[k]? = some r →
          out[k]? = some { r with
            LargeSMA := roundedMeanClose d (i + k) config.LargeSMALookbackAmount tickSize
            SmallSMA := roundedMeanClose d (i + k) config.SmallSMALookbackAmount tickSize } := by
  intro rows
  induction rows with
  | nil => intro i _; exact ⟨[], rfl, rfl, by intro k r hk; simp at hk⟩
  | cons row rest ih =>
    intro i hlen
    simp only [List.length_cons] at hlen
    obtain ⟨rest1, hrest, hlen1, hidx⟩ := ih (i + 1) (by omega)
    have h1 := smaAt_eq d i config.LargeSMALookbackAmount tickSize (by omega) hl
    have h2 := smaAt_eq d i config.SmallSMALookbackAmount tickSize (by omega) hs
    refine ⟨{ row with
        LargeSMA := roundedMeanClose d i config.LargeSMALookbackAmount tickSize
        SmallSMA := roundedMeanClose d i config.SmallSMALookbackAmount tickSize } :: rest1,
      by simp only [calculateSMALoop, h1, h2, hrest], by simp [hlen1], ?_⟩
    intro k r hk
    cases k with
    | zero =>
      simp only [List.getElem?_cons_zero, Option.some.injEq] at hk
      subst hk
      simp
    | succ k =>
      simp only [List.getElem?_cons_succ] at hk
      have := hidx k r hk
      have hik : i + (k + 1) = i + 1 + k := by omega
      rw [hik]
      simpa using this

/-- C20: the value of `CalculateSMA`.  For a non-empty series and positive lookbacks
the call returns no error and, for every index i, leaves row i with SmallSMA the
rounding to the tick size of the mean of Close over the indices
max(0, i - small + 1) .. i, with LargeSMA the same for the large lookback, and with
its other fields as they were.  (Prices are rationals: the mean is exact.) -/
theorem CalculateSMA_value (d : Data) (config : InstrumentConfiguration) (tickSize : ℚ)
    (hne : d ≠ []) (hl : 0 < config.LargeSMALookbackAmount)
    (hs : 0 < config.SmallSMALookbackAmount) :
    ∃ out, CalculateSMA d config tickSize = some (none, out) ∧ out.length = d.length ∧
      ∀ (i : Nat) (r : Row), d[i]? = some r →
        out[i]? = some { r with
          LargeSMA := roundedMeanClose d i config.LargeSMALookbackAmount tickSize
          SmallSMA := roundedMeanClose d i config.SmallSMALookbackAmount tickSize } := by
  obtain ⟨out, hout, hlen, hidx⟩ := calculateSMALoop_index d config tickSize hl hs d 0 (by omega)
  refine ⟨out, ?_, hlen, ?_⟩
  · unfold CalculateSMA
    have h1 : ¬ (config.LargeSMALookbackAmount ≤ 0 ∨ config.SmallSMALookbackAmount ≤ 0) := by
      rintro (h | h) <;> omega
    have h2 : ¬ d.length = 0 := by
      intro h0; exact hne (List.length_eq_zero.mp h0)
    rw [if_neg h1, if_neg h2, hout]
  · intro i r hr
    have := hidx i r hr
    simpa using this

/-- Witness of C20: the test "Valid small and large SMA calculation" of
`data_test.go`: closes 100, 200, 300 with small = 2, large = 3 and tick 0.01 give the
small averages 100, 150, 250 and the large averages 100, 150, 200. -/
theorem CalculateSMA_value_witness :
    (CalculateSMA smaSeries smaConfiguration (1 / 100)).map
        (fun res => (res.1, res.2.map (fun r => (r.SmallSMA, r.LargeSMA)))) =
      some (none, [(100, 100), (150, 150), (250, 200)]) ∧
    ∃ out, CalculateSMA smaSeries smaConfiguration (1 / 100) = some (none, out) ∧
      out.length = smaSeries.length ∧
      ∀ (i : Nat) (r : Row), smaSeries[i]? = some r →
        out[i]? = some { r with
          LargeSMA := roundedMeanClose smaSeries i smaConfiguration.LargeSMALookbackAmount
            (1 / 100)
          SmallSMA := roundedMeanClose smaSeries i smaConfiguration.SmallSMALookbackAmount
            (1 / 100) } :=
  ⟨by decide!,
   CalculateSMA_value smaSeries smaConfiguration (1 / 100) (by decide) (by decide) (by decide)⟩

/-- C21: the error contract of `CalculateSMA`.  With a large or a small lookback
amount that is zero or negative the call returns `SMALookbackInvalid`; with both
positive and a series without candles it returns `DataEmptyError`; with both positive
and at least one candle it returns no error (and does not panic); and on either error
the series is left exactly as it was, so no row's SmallSMA or LargeSMA is modified. -/
theorem CalculateSMA_error_contract (d : Data) (config : InstrumentConfiguration)
    (tickSize : ℚ) :
    ((config.LargeSMALookbackAmount ≤ 0 ∨ config.SmallSMALookbackAmount ≤ 0) →
      CalculateSMA d config tickSize = some (some DataError.SMALookbackInvalid, d)) ∧
    ((0 < config.LargeSMALookbackAmount ∧ 0 < config.SmallSMALookbackAmount ∧ d = []) →
      CalculateSMA d config tickSize = some (some DataError.DataEmptyError, d)) ∧
    ((0 < config.LargeSMALookbackAmount ∧ 0 < config.SmallSMALookbackAmount ∧ d ≠ []) →
      ∃ out, CalculateSMA d config tickSize = some (none, out)) ∧
    (∀ (err : DataError) (out : Data),
      CalculateSMA d config tickSize = some (some err, out) →
        out = d ∧
        (err = DataError.SMALookbackInvalid ∨ err = DataError.DataEmptyError) ∧
        (err = DataError.SMALookbackInvalid ↔
          (config.LargeSMALookbackAmount ≤ 0 ∨ config.SmallSMALookbackAmount ≤ 0)) ∧
        (err = DataError.DataEmptyError ↔
          (0 < config.LargeSMALookbackAmount ∧ 0 < config.SmallSMALookbackAmount ∧
            d = []))) := by
  refine ⟨?_, ?_, ?_, ?_⟩
  · intro h
    unfold CalculateSMA
    rw [if_pos h]
  · rintro ⟨hl, hs, hd⟩
    unfold CalculateSMA
    have h1 : ¬ (config.LargeSMALookbackAmount ≤ 0 ∨ config.SmallSMALookbackAmount ≤ 0) := by
      rintro (h | h) <;> omega
    rw [if_neg h1, if_pos (by rw [hd]; rfl)]
  · rintro ⟨hl, hs, hd⟩
    obtain ⟨out, hout, _, _⟩ :=
      calculateSMALoop_index d config tickSize hl hs d 0 (by omega)
    refine ⟨out, ?_⟩
    unfold CalculateSMA
    have h1 : ¬ (config.LargeSMALookbackAmount ≤ 0 ∨ config.SmallSMALookbackAmount ≤ 0) := by
      rintro (h | h) <;> omega
    have h2 : ¬ d.length = 0 := by
      intro h0; exact hd (List.length_eq_zero.mp h0)
    rw [if_neg h1, if_neg h2, hout]
  · intro err out h
    unfold CalculateSMA at h
    by_cases h1 : config.LargeSMALookbackAmount ≤ 0 ∨ config.SmallSMALookbackAmount ≤ 0
    · rw [if_pos h1] at h
      simp only [Option.some.injEq, Prod.mk.injEq] at h
      obtain ⟨he, hd⟩ := h
      subst he; subst hd
      refine ⟨rfl, Or.inl rfl, ⟨fun _ => h1, fun _ => rfl⟩, ⟨fun hc => (by cases hc), ?_⟩⟩
      rintro ⟨hl, hs, _⟩
      rcases h1 with h | h <;> omega
    · rw [if_neg h1] at h
      have hl : 0 < config.LargeSMALookbackAmount := by
        by_contra hc; exact h1 (Or.inl (by omega))
      have hs : 0 < config.SmallSMALookbackAmount := by
        by_contra hc; exact h1 (Or.inr (by omega))
      by_cases h2 : d.length = 0
      · rw [if_pos h2] at h
        simp only [Option.some.injEq, Prod.mk.injEq] at h
        obtain ⟨he, hd⟩ := h
        subst he; subst hd
        refine ⟨rfl, Or.inr rfl, ⟨fun hc => (by cases hc), fun hc => absurd hc h1⟩,
          ⟨fun _ => ⟨hl, hs, List.length_eq_zero.mp h2⟩, fun _ => rfl⟩⟩
      · rw [if_neg h2] at h
        cases hloop : calculateSMALoop d config tickSize 0 d with
        | none => rw [hloop] at h; simp at h
        | some d1 => rw [hloop] at h; simp at h

/-! ## Trading windows -/

theorem durMinute_eq : durMinute = 60000000000 := by decide

theorem durHour_eq : durHour = 3600000000000 := by decide

theorem durDay_eq : durDay = 86400000000000 := by decide

/-- The hour of an instant is between 0 and 23, its minute between 0 and 59. -/
theorem Hour_Minute_range (t : Time) :
    0 ≤ Hour t ∧ Hour t < 24 ∧ 0 ≤ Minute t ∧ Minute t < 60 := by
  unfold Hour Minute
  rw [durDay_eq, durHour_eq, durMinute_eq]
  omega

/-- The instant `hour:min` on the day number `k` lies on that day and shows that clock
time. -/
theorem clock_parts (k hour min : Int) (hh : 0 ≤ hour ∧ hour < 24) (hm : 0 ≤ min ∧ min < 60) :
    dayNumber (k * durDay + hour * durHour + min * durMinute) = k ∧
    Hour (k * durDay + hour * durHour + min * durMinute) = hour ∧
    Minute (k * durDay + hour * durHour + min * durMinute) = min := by
  unfold Hour Minute dayNumber
  rw [durDay_eq, durHour_eq, durMinute_eq]
  omega

/-- The instant `hour:min` on the day of `refDate` lies on that day and shows that
clock time. -/
theorem dateOnDayOf_clock (refDate : Time) (hour min : Int)
    (hh : 0 ≤ hour ∧ hour < 24) (hm : 0 ≤ min ∧ min < 60) :
    dayNumber (dateOnDayOf refDate hour min) = dayNumber refDate ∧
    Hour (dateOnDayOf refDate hour min) = hour ∧
    Minute (dateOnDayOf refDate hour min) = min :=
  clock_parts (dayNumber refDate) hour min hh hm

/-- A text `time.Parse("15:04", ·)` accepts gives an hour below 24 and a minute below
60 on the first of January of year 0. -/
theorem timeParse_spec (value : String) (t : Time) (h : timeParse value = some t) :
    ∃ hour min : Int, 0 ≤ hour ∧ hour < 24 ∧ 0 ≤ min ∧ min < 60 ∧
      t = (-366) * durDay + hour * durHour + min * durMinute := by
  unfold timeParse at h
  cases h1 : getnum value.toList false with
  | none => rw [h1] at h; simp at h
  | some p =>
    obtain ⟨hour, rest⟩ := p
    rw [h1] at h
    simp only at h
    by_cases hr : hour < 0 ∨ 24 ≤ hour
    · rw [if_pos hr] at h; simp at h
    · rw [if_neg hr] at h
      match rest, h with
      | [], h => simp at h
      | c :: rest1, h =>
        by_cases hc : c = ':'
        · subst hc
          simp only at h
          cases h2 : getnum rest1 true with
          | none => rw [h2] at h; simp at h
          | some q =>
            obtain ⟨min, rest2⟩ := q
            rw [h2] at h
            simp only at h
            by_cases hm : min < 0 ∨ 60 ≤ min
            · rw [if_pos hm] at h; simp at h
            · rw [if_neg hm] at h
              by_cases he : rest2 ≠ []
              · rw [if_pos he] at h; simp at h
              · rw [if_neg he] at h
                simp only [Option.some.injEq] at h
                refine ⟨hour, min, by omega, by omega, by omega, by omega, ?_⟩
                rw [← h]
                unfold Date daysBeforeYear daysBeforeMonth
                have h0 : isLeap 0 = true := by decide
                simp [h0]
        · simp [hc] at h

theorem timeParse_parsedClock (value : String) (t : Time) (h : timeParse value = some t) :
    parsedClock t :=
  timeParse_spec value t h

/-- A parsed clock time is the first of January of year 0 plus its offset. -/
theorem parsedClock_offset (t : Time) (h : parsedClock t) :
    (t : Int) = (-366) * durDay + clockOffset t ∧ 0 ≤ clockOffset t ∧
      clockOffset t < durDay := by
  obtain ⟨hour, min, h1, h2, h3, h4, ht⟩ := h
  obtain ⟨_, hH, hM⟩ := clock_parts (-366) hour min ⟨h1, h2⟩ ⟨h3, h4⟩
  rw [← ht] at hH hM
  unfold clockOffset
  rw [hH, hM]
  refine ⟨by rw [ht]; ring, ?_, ?_⟩
  · rw [durHour_eq, durMinute_eq]; omega
  · rw [durDay_eq, durHour_eq, durMinute_eq]; omega

/-- The offset of any clock time is less than a day. -/
theorem clockOffset_range (t : Time) : 0 ≤ clockOffset t ∧ clockOffset t < durDay := by
  have h := Hour_Minute_range t
  unfold clockOffset
  rw [durDay_eq, durHour_eq, durMinute_eq]
  omega

/-- Parsed clock times compare as their offsets do. -/
theorem parsedClock_gt (tStart tEnd : Time) (hs : parsedClock tStart) (he : parsedClock tEnd) :
    tStart > tEnd ↔ clockOffset tStart > clockOffset tEnd := by
  have h1 := (parsedClock_offset tStart hs).1
  have h2 := (parsedClock_offset tEnd he).1
  unfold Time at *
  constructor
  · intro h; omega
  · intro h; omega

theorem fullStartTime_eq (tStart ref : Time) :
    fullStartTime tStart ref = startBoundary tStart (dayNumber ref) := by
  unfold fullStartTime dateOnDayOf startBoundary clockOffset
  unfold Time at *
  omega

theorem fullEndTime_eq (tStart tEnd ref : Time) (hs : parsedClock tStart)
    (he : parsedClock tEnd) :
    fullEndTime tStart tEnd ref = endBoundary tStart tEnd (dayNumber ref) := by
  have hgt := parsedClock_gt tStart tEnd hs he
  unfold fullEndTime fullStartTime dateOnDayOf endBoundary
  unfold clockOffset at hgt ⊢
  by_cases h : tStart > tEnd
  · have h2 := hgt.mp h
    rw [if_pos h, if_pos (by unfold Time at *; omega)]
    rw [durDay_eq, durHour_eq]
    unfold Time at *
    omega
  · have h2 : ¬ (Hour tStart * durHour + Minute tStart * durMinute >
        Hour tEnd * durHour + Minute tEnd * durMinute) := fun hc => h (hgt.mpr hc)
    rw [if_neg h, if_neg (by unfold Time at *; omega)]
    unfold Time at *
    omega

/-- The head and the last row of a list that is not empty. -/
theorem head_getLast_of_ne_nil {α : Type} (l : List α) (h : l ≠ []) :
    ∃ first last, l.head? = some first ∧ l.getLast? = some last := by
  cases l with
  | nil => exact absurd rfl h
  | cons a tl =>
    refine ⟨a, (a :: tl).getLast (by simp), rfl, ?_⟩
    exact List.getLast?_eq_getLast _ _

/-- The end of the loop body leaves the result as it was or appends the subset, and
appends it only when it starts on `start` and ends on `finish`. -/
theorem closeSubset_result (start finish : Time) (result : List Data) (subset : Data)
    (isNextDay : Bool) (row : Row) :
    (closeSubset start finish result subset isNextDay row).result = result ∨
    ((closeSubset start finish result subset isNextDay row).result = result ++ [subset] ∧
      (closeSubset start finish result subset isNextDay row).subset = [] ∧
      (closeSubset start finish result subset isNextDay row).isNextDay = false ∧
      row.Time = finish ∧
      ∃ first last, subset.head? = some first ∧ subset.getLast? = some last ∧
        first.Time = start ∧ last.Time = finish) := by
  unfold closeSubset
  by_cases h : row.Time = finish ∧ subset ≠ []
  · rw [if_pos h]
    obtain ⟨first, last, hf, hl⟩ := head_getLast_of_ne_nil subset h.2
    rw [hf, hl]
    simp only
    unfold checkSubset
    by_cases hc : first.Time ≠ start ∨ last.Time ≠ finish
    · rw [if_pos hc]; exact Or.inl rfl
    · rw [if_neg hc]
      have h1 : first.Time = start := by
        by_contra hx; exact hc (Or.inl hx)
      have h2 : last.Time = finish := by
        by_contra hx; exact hc (Or.inr hx)
      exact Or.inr ⟨rfl, rfl, rfl, h.1, first, last, rfl, rfl, h1, h2⟩
  · rw [if_neg h]; exact Or.inl rfl

/-- One pass of the loop keeps the windows emitted so far and emits at most one more,
which has exact boundaries. -/
theorem subsetStep_result (tStart tEnd : Time) (hs : parsedClock tStart)
    (he : parsedClock tEnd) (spans : Bool) (st : SubsetState) (row : Row) :
    (subsetStep tStart tEnd spans st row).result = st.result ∨
    ∃ w, (subsetStep tStart tEnd spans st row).result = st.result ++ [w] ∧
      exactBoundary tStart tEnd w := by
  unfold subsetStep
  split_ifs with h1 h2
  · exact Or.inl rfl
  · exact Or.inl rfl
  · rcases closeSubset_result
        (fullStartTime tStart (refDate spans st.isNextDay row))
        (fullEndTime tStart tEnd (refDate spans st.isNextDay row))
        st.result
        (appendToSubset spans
          (fullStartTime tStart (refDate spans st.isNextDay row))
          (fullEndTime tStart tEnd (refDate spans st.isNextDay row))
          st.isNextDay st.subset row)
        st.isNextDay row with h | ⟨h, _, _, _, first, last, hf, hl, h3, h4⟩
    · exact Or.inl h
    · refine Or.inr ⟨_, h, first, last, hf, hl, dayNumber (refDate spans st.isNextDay row), ?_, ?_⟩
      · rw [h3, fullStartTime_eq]
      · rw [h4, fullEndTime_eq _ _ _ hs he]

/-- The loop on a series that is not empty: one pass, then the loop on the rest. -/
theorem subsetLoop_cons (tStart tEnd : Time) (spans : Bool) (st : SubsetState) (row : Row)
    (rest : List Row) :
    subsetLoop tStart tEnd spans st (row :: rest) =
      subsetLoop tStart tEnd spans (subsetStep tStart tEnd spans st row) rest := rfl

/-- Every window the loop emits has exact boundaries. -/
theorem subsetLoop_exact (tStart tEnd : Time) (hs : parsedClock tStart)
    (he : parsedClock tEnd) (spans : Bool) :
    ∀ (rows : List Row) (st : SubsetState),
      (∀ w ∈ st.result, exactBoundary tStart tEnd w) →
      ∀ w ∈ (subsetLoop tStart tEnd spans st rows).result, exactBoundary tStart tEnd w := by
  intro rows
  induction rows with
  | nil => intro st h; exact h
  | cons row rest ih =>
    intro st h
    rw [subsetLoop_cons]
    apply ih
    rcases subsetStep_result tStart tEnd hs he spans st row with h1 | ⟨w1, h1, h2⟩
    · rw [h1]; exact h
    · rw [h1]
      intro w hw
      rcases List.mem_append.mp hw with hw | hw
      · exact h w hw
      · simp only [List.mem_singleton] at hw
        rw [hw]; exact h2

/-- The result of `SubsetDataForMultipleDays` on texts that parse. -/
theorem SubsetDataForMultipleDays_ok (d : Data) (startTime endTime : String)
    (tStart tEnd : Time) (hs : timeParse startTime = some tStart)
    (he : timeParse endTime = some tEnd) :
    SubsetDataForMultipleDays d startTime endTime =
      .ok (subsetLoop tStart tEnd (decide (tStart > tEnd))
        { result := [], subset := [], isNextDay := false } d).result := by
  unfold SubsetDataForMultipleDays
  rw [hs, he]

/-- C22: the exact-boundary invariant of `SubsetDataForMultipleDays`.  For every
series and every start and end text that `time.Parse("15:04", ·)` accepts (same-day
or spanning midnight) the call returns windows, and every window returned is not
empty, its first candle's time is the start boundary of a session (the start clock
time on a calendar day) and its last candle's time is the end boundary of that
session (the end clock time on the same day, or on the next day when the start is
after the end); in particular the first and last candles show the clock times asked
for. -/
theorem exact_boundary_invariant (d : Data) (startTime endTime : String)
    (tStart tEnd : Time) (hs : timeParse startTime = some tStart)
    (he : timeParse endTime = some tEnd) :
    ∃ windows, SubsetDataForMultipleDays d startTime endTime = .ok windows ∧
      ∀ w ∈ windows, w ≠ [] ∧ exactBoundary tStart tEnd w ∧
        ∀ first last, w.head? = some first → w.getLast? = some last →
          Hour first.Time = Hour tStart ∧ Minute first.Time = Minute tStart ∧
          Hour last.Time = Hour tEnd ∧ Minute last.Time = Minute tEnd ∧
          last.Time - first.Time =
            clockOffset tEnd - clockOffset tStart + (if tStart > tEnd then durDay else 0) := by
  refine ⟨_, SubsetDataForMultipleDays_ok d startTime endTime tStart tEnd hs he, ?_⟩
  have hps := timeParse_parsedClock startTime tStart hs
  have hpe := timeParse_parsedClock endTime tEnd he
  intro w hw
  have hex := subsetLoop_exact tStart tEnd hps hpe (decide (tStart > tEnd)) d
    { result := [], subset := [], isNextDay := false } (by intro w hw; simp at hw) w hw
  refine ⟨?_, hex, ?_⟩
  · obtain ⟨first, _, hf, _⟩ := hex
    intro hnil; rw [hnil] at hf; simp at hf
  · intro first last hf hl
    obtain ⟨first1, last1, hf1, hl1, day, h1, h2⟩ := hex
    rw [hf] at hf1; rw [hl] at hl1
    simp only [Option.some.injEq] at hf1 hl1
    subst hf1; subst hl1
    have hrs := Hour_Minute_range tStart
    have hre := Hour_Minute_range tEnd
    unfold startBoundary at h1
    unfold endBoundary at h2
    have e1 : first.Time = day * durDay + Hour tStart * durHour + Minute tStart * durMinute := by
      rw [h1]; unfold clockOffset; unfold Time at *; omega
    have e2 : last.Time = (day + (if tStart > tEnd then 1 else 0)) * durDay +
        Hour tEnd * durHour + Minute tEnd * durMinute := by
      rw [h2]; unfold clockOffset
      by_cases hc : tStart > tEnd
      · rw [if_pos hc, if_pos hc]; unfold Time at *; ring
      · rw [if_neg hc, if_neg hc]; unfold Time at *; ring
    obtain ⟨_, a1, a2⟩ := clock_parts day (Hour tStart) (Minute tStart) ⟨hrs.1, hrs.2.1⟩ hrs.2.2
    obtain ⟨_, b1, b2⟩ := clock_parts (day + (if tStart > tEnd then 1 else 0)) (Hour tEnd)
      (Minute tEnd) ⟨hre.1, hre.2.1⟩ hre.2.2
    rw [← e1] at a1 a2
    rw [← e2] at b1 b2
    refine ⟨a1, a2, b1, b2, ?_⟩
    rw [h1, h2]; unfold Time at *; ring

/-- Witness of C22: the session 23:35 to 06:00, which spans midnight, on the 5-minute
series from 2020-06-01 23:00 to 2020-06-03 09:00. -/
theorem exact_boundary_invariant_witness :
    timeParse "23:35" = some (Date 0 1 1 23 35 0 0) ∧
    timeParse "06:00" = some (Date 0 1 1 6 0 0 0) ∧
    ∃ windows,
      SubsetDataForMultipleDays
        (mockSeries (Date 2020 6 1 23 0 0 0) (Date 2020 6 3 9 0 0 0)) "23:35" "06:00" =
          .ok windows ∧
      ∀ w ∈ windows, w ≠ [] ∧
        exactBoundary (Date 0 1 1 23 35 0 0) (Date 0 1 1 6 0 0 0) w ∧
        ∀ first last, w.head? = some first → w.getLast? = some last →
          Hour first.Time = Hour (Date 0 1 1 23 35 0 0) ∧
          Minute first.Time = Minute (Date 0 1 1 23 35 0 0) ∧
          Hour last.Time = Hour (Date 0 1 1 6 0 0 0) ∧
          Minute last.Time = Minute (Date 0 1 1 6 0 0 0) ∧
          last.Time - first.Time =
            clockOffset (Date 0 1 1 6 0 0 0) - clockOffset (Date 0 1 1 23 35 0 0) +
              (if Date 0 1 1 23 35 0 0 > Date 0 1 1 6 0 0 0 then durDay else 0) :=
  ⟨by decide, by decide,
   exact_boundary_invariant (mockSeries (Date 2020 6 1 23 0 0 0) (Date 2020 6 3 9 0 0 0))
     "23:35" "06:00" (Date 0 1 1 23 35 0 0) (Date 0 1 1 6 0 0 0) (by decide) (by decide)⟩

/-! ## Same-day windows -/

/-- For a same-day span the rows of a session lie on its calendar day. -/
theorem inSession_day (tStart tEnd : Time) (hspan : ¬ tStart > tEnd) (day : Int) (r : Row)
    (h : inSession tStart tEnd day r = true) : dayNumber r.Time = day := by
  unfold inSession at h
  simp only [decide_eq_true_eq] at h
  obtain ⟨h1, h2⟩ := h
  unfold startBoundary at h1
  unfold endBoundary at h2
  rw [if_neg hspan] at h2
  have hs := clockOffset_range tStart
  have he := clockOffset_range tEnd
  unfold dayNumber
  rw [durDay_eq] at *
  unfold Time at *
  omega

/-- A row in the session of its own weekday is a row in its own session, and
conversely. -/
theorem ownSession_of_day (tStart tEnd : Time) (r : Row)
    (hw : ¬ (Weekday r.Time = Saturday ∨ Weekday r.Time = Sunday)) :
    ownSession tStart tEnd r = inSession tStart tEnd (dayNumber r.Time) r := by
  unfold ownSession inSession
  simp only [hw, not_false_eq_true, true_and]

/-- The weekday depends on the calendar day only. -/
theorem Weekday_of_day (a b : Time) (h : dayNumber a = dayNumber b) : Weekday a = Weekday b := by
  unfold Weekday; rw [h]

/-- One pass of the loop for a same-day span. -/
theorem subsetStep_sameDay (tStart tEnd : Time) (hs : parsedClock tStart)
    (he : parsedClock tEnd) (st : SubsetState) (row : Row) :
    subsetStep tStart tEnd false st row =
      if Weekday row.Time = Saturday ∨ Weekday row.Time = Sunday then st
      else closeSubset (startBoundary tStart (dayNumber row.Time))
        (endBoundary tStart tEnd (dayNumber row.Time)) st.result
        (st.subset ++ [row].filter (ownSession tStart tEnd)) st.isNextDay row := by
  unfold subsetStep
  by_cases hw : Weekday row.Time = Saturday ∨ Weekday row.Time = Sunday
  · rw [if_pos hw, if_pos hw]
  · rw [if_neg hw, if_neg hw]
    have h1 : ¬ ((false : Bool) = true ∧ isLastIntervalOfDay row = true ∧ st.isNextDay = false) := by
      rintro ⟨h, _⟩; cases h
    rw [if_neg h1]
    have href : refDate false st.isNextDay row = row.Time := by
      unfold refDate
      rw [if_neg (by rintro ⟨_, h⟩; cases h)]
    rw [href, fullStartTime_eq, fullEndTime_eq _ _ _ hs he]
    congr 1
    unfold appendToSubset
    rw [if_neg (by intro h; cases h)]
    simp only [List.filter_cons, List.filter_nil]
    rw [ownSession_of_day tStart tEnd row hw]
    unfold inSession
    by_cases hr : startBoundary tStart (dayNumber row.Time) ≤ row.Time ∧
        row.Time ≤ endBoundary tStart tEnd (dayNumber row.Time)
    · have hr2 : (row.Time > startBoundary tStart (dayNumber row.Time) ∨
          row.Time = startBoundary tStart (dayNumber row.Time)) ∧
          (row.Time < endBoundary tStart tEnd (dayNumber row.Time) ∨
          row.Time = endBoundary tStart tEnd (dayNumber row.Time)) := by
        obtain ⟨a, b⟩ := hr
        constructor
        · rcases lt_or_eq_of_le a with h | h
          · exact Or.inl h
          · exact Or.inr h.symm
        · rcases lt_or_eq_of_le b with h | h
          · exact Or.inl h
          · exact Or.inr h
      rw [if_pos hr2]
      simp [hr]
    · have hr2 : ¬ ((row.Time > startBoundary tStart (dayNumber row.Time) ∨
          row.Time = startBoundary tStart (dayNumber row.Time)) ∧
          (row.Time < endBoundary tStart tEnd (dayNumber row.Time) ∨
          row.Time = endBoundary tStart tEnd (dayNumber row.Time))) := by
        rintro ⟨a, b⟩
        apply hr
        constructor
        · rcases a with h | h
          · exact le_of_lt h
          · exact le_of_eq h.symm
        · rcases b with h | h
          · exact le_of_lt h
          · exact le_of_eq h
      rw [if_neg hr2]
      simp [hr]

/-- A window already emitted is not changed by a later row: the row is past the end
boundary. -/
theorem filter_inSession_snoc (tStart tEnd : Time) (pre : List Row) (row : Row) (day : Int)
    (hsorted : strictlyIncreasingTimes (pre ++ [row]))
    (hl : ∃ l ∈ pre, l.Time = endBoundary tStart tEnd day) :
    (pre ++ [row]).filter (inSession tStart tEnd day) =
      pre.filter (inSession tStart tEnd day) := by
  obtain ⟨l, hlm, hlt⟩ := hl
  unfold strictlyIncreasingTimes at hsorted
  have hlt2 : l.Time < row.Time :=
    (List.pairwise_append.mp hsorted).2.2 l hlm row (by simp)
  rw [List.filter_append]
  have : [row].filter (inSession tStart tEnd day) = [] := by
    rw [List.filter_eq_nil_iff]
    intro a ha
    simp only [List.mem_singleton] at ha
    subst ha
    unfold inSession
    simp only [decide_eq_true_eq, not_and, not_le]
    intro _
    rw [← hlt]; exact hlt2
  rw [this, List.append_nil]

/-- A subset that passes the check at the end boundary is exactly the rows seen so
far that lie in the session of the day. -/
theorem subset_is_session (tStart tEnd : Time) (hspan : ¬ tStart > tEnd)
    (pre1 pre2 : List Row) (row first : Row)
    (hsorted : strictlyIncreasingTimes (pre1 ++ (pre2 ++ [row])))
    (hw : ¬ (Weekday row.Time = Saturday ∨ Weekday row.Time = Sunday))
    (hfirst : ((pre2 ++ [row]).filter (ownSession tStart tEnd)).head? = some first)
    (hstart : first.Time = startBoundary tStart (dayNumber row.Time))
    (hend : row.Time = endBoundary tStart tEnd (dayNumber row.Time)) :
    (pre2 ++ [row]).filter (ownSession tStart tEnd) =
      (pre1 ++ (pre2 ++ [row])).filter (inSession tStart tEnd (dayNumber row.Time)) := by
  unfold strictlyIncreasingTimes at hsorted
  obtain ⟨_, hs2, hcross⟩ := List.pairwise_append.mp hsorted
  have hrowlast : ∀ x ∈ pre2 ++ [row], x.Time ≤ row.Time := by
    intro x hx
    rcases List.mem_append.mp hx with hx | hx
    · exact le_of_lt ((List.pairwise_append.mp hs2).2.2 x hx row (by simp))
    · simp only [List.mem_singleton] at hx; rw [hx]
  -- the first row of the subset is the least row of the subset
  have hfmem : first ∈ (pre2 ++ [row]).filter (ownSession tStart tEnd) :=
    List.mem_of_mem_head? hfirst
  have hfmem2 : first ∈ pre2 ++ [row] := (List.mem_filter.mp hfmem).1
  have hfilt : ((pre2 ++ [row]).filter (ownSession tStart tEnd)).Pairwise
      (fun a b => a.Time < b.Time) := List.Pairwise.sublist (List.filter_sublist _) hs2
  have hleast : ∀ x ∈ (pre2 ++ [row]).filter (ownSession tStart tEnd),
      first.Time ≤ x.Time := by
    intro x hx
    cases hfl : (pre2 ++ [row]).filter (ownSession tStart tEnd) with
    | nil => rw [hfl] at hx; simp at hx
    | cons a tl =>
      rw [hfl] at hfirst hx hfilt
      simp only [List.head?_cons, Option.some.injEq] at hfirst
      subst hfirst
      rcases List.mem_cons.mp hx with hx | hx
      · rw [hx]
      · exact le_of_lt ((List.pairwise_cons.mp hfilt).1 x hx)
  have hsplit : (pre1 ++ (pre2 ++ [row])).filter (inSession tStart tEnd (dayNumber row.Time)) =
      pre1.filter (inSession tStart tEnd (dayNumber row.Time)) ++
        (pre2 ++ [row]).filter (inSession tStart tEnd (dayNumber row.Time)) :=
    List.filter_append _ _
  rw [hsplit]
  have h1 : pre1.filter (inSession tStart tEnd (dayNumber row.Time)) = [] := by
    rw [List.filter_eq_nil_iff]
    intro a ha
    have hlt : a.Time < first.Time := hcross a ha first hfmem2
    unfold inSession
    simp only [decide_eq_true_eq, not_and, not_le]
    intro hc
    rw [hstart] at hlt
    exact absurd hc (not_le.mpr hlt)
  rw [h1, List.nil_append]
  apply List.filter_congr
  intro x hx
  by_cases hin : inSession tStart tEnd (dayNumber row.Time) x = true
  · have hday := inSession_day tStart tEnd hspan _ x hin
    have hwx : ¬ (Weekday x.Time = Saturday ∨ Weekday x.Time = Sunday) := by
      rw [Weekday_of_day x.Time row.Time hday]; exact hw
    rw [ownSession_of_day tStart tEnd x hwx, hday]
  · have hin2 : inSession tStart tEnd (dayNumber row.Time) x = false := by
      simpa using hin
    rw [hin2]
    by_contra hown
    have hown2 : ownSession tStart tEnd x = true := by simpa using hown
    have hxm : x ∈ (pre2 ++ [row]).filter (ownSession tStart tEnd) :=
      List.mem_filter.mpr ⟨hx, hown2⟩
    have ha := hleast x hxm
    have hb := hrowlast x hx
    apply hin
    unfold inSession
    simp only [decide_eq_true_eq]
    constructor
    · rw [← hstart]; exact ha
    · rw [← hend]; exact hb

/-- One pass of the loop keeps the invariant of the same-day span. -/
theorem subsetStep_sameDay_invariant (tStart tEnd : Time) (hs : parsedClock tStart)
    (he : parsedClock tEnd) (hspan : ¬ tStart > tEnd) (pre : List Row) (st : SubsetState)
    (row : Row) (hsorted : strictlyIncreasingTimes (pre ++ [row]))
    (hinv : sameDayInvariant tStart tEnd pre st) :
    sameDayInvariant tStart tEnd (pre ++ [row]) (subsetStep tStart tEnd false st row) := by
  obtain ⟨⟨pre1, pre2, hpre, hsub⟩, hres⟩ := hinv
  -- windows emitted before stay as they are
  have hold : ∀ w ∈ st.result, ∃ day : Int,
      w = (pre ++ [row]).filter (inSession tStart tEnd day) ∧ w ≠ [] ∧
        ∃ l ∈ pre ++ [row], l.Time = endBoundary tStart tEnd day := by
    intro w hw
    obtain ⟨day, h1, h2, l, hl, hlt⟩ := hres w hw
    refine ⟨day, ?_, h2, l, List.mem_append_left _ hl, hlt⟩
    rw [filter_inSession_snoc tStart tEnd pre row day hsorted ⟨l, hl, hlt⟩]
    exact h1
  have hassoc : pre ++ [row] = pre1 ++ (pre2 ++ [row]) := by
    rw [hpre, List.append_assoc]
  have hsubset : st.subset ++ [row].filter (ownSession tStart tEnd) =
      (pre2 ++ [row]).filter (ownSession tStart tEnd) := by
    rw [hsub, List.filter_append]
  rw [subsetStep_sameDay tStart tEnd hs he]
  by_cases hw : Weekday row.Time = Saturday ∨ Weekday row.Time = Sunday
  · rw [if_pos hw]
    refine ⟨⟨pre1, pre2 ++ [row], hassoc, ?_⟩, hold⟩
    rw [← hsubset]
    have : [row].filter (ownSession tStart tEnd) = [] := by
      rw [List.filter_eq_nil_iff]
      intro a ha
      simp only [List.mem_singleton] at ha
      subst ha
      unfold ownSession
      simp only [decide_eq_true_eq, not_and]
      intro hc; exact absurd hw hc
    rw [this, List.append_nil]
  · rw [if_neg hw, hsubset]
    unfold closeSubset
    by_cases hc : row.Time = endBoundary tStart tEnd (dayNumber row.Time) ∧
        (pre2 ++ [row]).filter (ownSession tStart tEnd) ≠ []
    · rw [if_pos hc]
      obtain ⟨first, last, hf, hl⟩ := head_getLast_of_ne_nil _ hc.2
      rw [hf, hl]
      simp only
      unfold checkSubset
      by_cases hk : first.Time ≠ startBoundary tStart (dayNumber row.Time) ∨
          last.Time ≠ endBoundary tStart tEnd (dayNumber row.Time)
      · rw [if_pos hk]
        exact ⟨⟨pre ++ [row], [], by simp, by simp⟩, hold⟩
      · rw [if_neg hk]
        have hstart : first.Time = startBoundary tStart (dayNumber row.Time) := by
          by_contra hx; exact hk (Or.inl hx)
        refine ⟨⟨pre ++ [row], [], by simp, by simp⟩, ?_⟩
        intro w hwm
        rcases List.mem_append.mp hwm with hwm | hwm
        · exact hold w hwm
        · simp only [List.mem_singleton] at hwm
          refine ⟨dayNumber row.Time, ?_, ?_, row, by simp, hc.1⟩
          · rw [hwm, hassoc]
            exact subset_is_session tStart tEnd hspan pre1 pre2 row first
              (by rw [← hassoc]; exact hsorted) hw hf hstart hc.1
          · rw [hwm]; exact hc.2
    · rw [if_neg hc]
      exact ⟨⟨pre1, pre2 ++ [row], hassoc, rfl⟩, hold⟩

/-- The loop keeps the invariant of the same-day span. -/
theorem subsetLoop_sameDay_invariant (tStart tEnd : Time) (hs : parsedClock tStart)
    (he : parsedClock tEnd) (hspan : ¬ tStart > tEnd) :
    ∀ (rest pre : List Row) (st : SubsetState),
      strictlyIncreasingTimes (pre ++ rest) → sameDayInvariant tStart tEnd pre st →
      sameDayInvariant tStart tEnd (pre ++ rest) (subsetLoop tStart tEnd false st rest) := by
  intro rest
  induction rest with
  | nil =>
    intro pre st _ hinv
    simp only [List.append_nil, subsetLoop]
    exact hinv
  | cons row rest ih =>
    intro pre st hsorted hinv
    rw [subsetLoop_cons]
    have hre : pre ++ row :: rest = (pre ++ [row]) ++ rest := by simp
    rw [hre] at hsorted ⊢
    apply ih
    · exact hsorted
    · apply subsetStep_sameDay_invariant tStart tEnd hs he hspan pre st row _ hinv
      unfold strictlyIncreasingTimes at hsorted ⊢
      exact (List.pairwise_append.mp hsorted).1

/-- C26: windows of a same-day span.  For start and end texts that parse with the
start not after the end, and for every series with strictly increasing times (on
weekdays or not), the call returns windows, and every window returned consists of
exactly the input candles, in input order, whose time lies in the closed interval
from the start boundary to the end boundary of one calendar day; the window is not
empty and all its candles are on that day. -/
theorem same_day_window_exact (d : Data) (startTime endTime : String) (tStart tEnd : Time)
    (hs : timeParse startTime = some tStart) (he : timeParse endTime = some tEnd)
    (hspan : ¬ tStart > tEnd) (hsorted : strictlyIncreasingTimes d) :
    ∃ windows, SubsetDataForMultipleDays d startTime endTime = .ok windows ∧
      ∀ w ∈ windows, ∃ day : Int,
        w = d.filter (fun r => decide (startBoundary tStart day ≤ r.Time ∧
          r.Time ≤ endBoundary tStart tEnd day)) ∧
        w ≠ [] ∧ ∀ r ∈ w, dayNumber r.Time = day := by
  refine ⟨_, SubsetDataForMultipleDays_ok d startTime endTime tStart tEnd hs he, ?_⟩
  have hps := timeParse_parsedClock startTime tStart hs
  have hpe := timeParse_parsedClock endTime tEnd he
  have hdec : decide (tStart > tEnd) = false := by simpa using hspan
  rw [hdec]
  have hinit : sameDayInvariant tStart tEnd []
      { result := [], subset := [], isNextDay := false } :=
    ⟨⟨[], [], rfl, rfl⟩, by intro w hw; simp at hw⟩
  have hfin := subsetLoop_sameDay_invariant tStart tEnd hps hpe hspan d [] _
    (by simpa using hsorted) hinit
  simp only [List.nil_append] at hfin
  intro w hw
  obtain ⟨day, h1, h2, _⟩ := hfin.2 w hw
  refine ⟨day, h1, h2, ?_⟩
  intro r hr
  rw [h1] at hr
  exact inSession_day tStart tEnd hspan day r (List.mem_filter.mp hr).2

/-- Witness of C26: the session 13:35 to 20:00 on the 5-minute series from 2020-06-05
13:30 to 21:00. -/
theorem same_day_window_exact_witness :
    timeParse "13:35" = some (Date 0 1 1 13 35 0 0) ∧
    timeParse "20:00" = some (Date 0 1 1 20 0 0 0) ∧
    ¬ Date 0 1 1 13 35 0 0 > Date 0 1 1 20 0 0 0 ∧
    strictlyIncreasingTimes (mockSeries (Date 2020 6 5 13 30 0 0) (Date 2020 6 5 21 0 0 0)) ∧
    ∃ windows,
      SubsetDataForMultipleDays
        (mockSeries (Date 2020 6 5 13 30 0 0) (Date 2020 6 5 21 0 0 0)) "13:35" "20:00" =
          .ok windows ∧
      ∀ w ∈ windows, ∃ day : Int,
        w = (mockSeries (Date 2020 6 5 13 30 0 0) (Date 2020 6 5 21 0 0 0)).filter
          (fun r => decide (startBoundary (Date 0 1 1 13 35 0 0) day ≤ r.Time ∧
            r.Time ≤ endBoundary (Date 0 1 1 13 35 0 0) (Date 0 1 1 20 0 0 0) day)) ∧
        w ≠ [] ∧ ∀ r ∈ w, dayNumber r.Time = day :=
  ⟨by decide, by decide, by decide, by decide!,
   same_day_window_exact (mockSeries (Date 2020 6 5 13 30 0 0) (Date 2020 6 5 21 0 0 0))
     "13:35" "20:00" (Date 0 1 1 13 35 0 0) (Date 0 1 1 20 0 0 0) (by decide) (by decide)
     (by decide) (by decide!)⟩

/-! ## Trading windows of the test series -/

/-- The windows of the session 13:35 to 20:00 on the 5-minute series from 2020-06-05
13:30 to 21:00 (test "Test RDR one day one subset" of `data_test.go`). -/
theorem oneDayRDR_windows :
    SubsetDataForMultipleDays
        (mockSeries (Date 2020 6 5 13 30 0 0) (Date 2020 6 5 21 0 0 0)) "13:35" "20:00" =
      .ok [mockSeries (Date 2020 6 5 13 35 0 0) (Date 2020 6 5 20 0 0 0)] := by
  decide!

/-- Number of candles of the 5-minute series from 13:35 to 20:00. -/
theorem oneDayRDR_length :
    (mockSeries (Date 2020 6 5 13 35 0 0) (Date 2020 6 5 20 0 0 0)).length = 78 := by
  decide!

/-- C23, as amended: the session 13:35 to 20:00 on the 5-minute series from 2020-06-05
13:30 to 21:00 UTC (a Friday) yields exactly one window; that window is the 5-minute
series from 13:35 to 20:00, it has 78 candles, and its first and last timestamps are
exactly 13:35 and 20:00 of that day. -/
theorem oneDayRDR_one_window_of_78 :
    Weekday (Date 2020 6 5 13 30 0 0) = 5 ∧
    (mockSeries (Date 2020 6 5 13 30 0 0) (Date 2020 6 5 21 0 0 0)).length = 91 ∧
    ∃ w, SubsetDataForMultipleDays
        (mockSeries (Date 2020 6 5 13 30 0 0) (Date 2020 6 5 21 0 0 0)) "13:35" "20:00" =
          .ok [w] ∧
      w = (mockSeries (Date 2020 6 5 13 30 0 0) (Date 2020 6 5 21 0 0 0)).filter
        (fun r => decide (Date 2020 6 5 13 35 0 0 ≤ r.Time ∧ r.Time ≤ Date 2020 6 5 20 0 0 0)) ∧
      w.length = 78 ∧
      w.head?.map (fun r => r.Time) = some (Date 2020 6 5 13 35 0 0) ∧
      w.getLast?.map (fun r => r.Time) = some (Date 2020 6 5 20 0 0 0) :=
  ⟨by decide, by decide!, _, oneDayRDR_windows, by decide!, oneDayRDR_length, by decide!,
    by decide!⟩

/-- C23, counterexample: the one window of that call does not have 79 candles. -/
theorem oneDayRDR_window_not_79 :
    ¬ ∃ w, SubsetDataForMultipleDays
        (mockSeries (Date 2020 6 5 13 30 0 0) (Date 2020 6 5 21 0 0 0)) "13:35" "20:00" =
          .ok [w] ∧
      w.length = 79 ∧
      w.head?.map (fun r => r.Time) = some (Date 2020 6 5 13 35 0 0) ∧
      w.getLast?.map (fun r => r.Time) = some (Date 2020 6 5 20 0 0 0) := by
  rintro ⟨w, hw, hlen, _⟩
  rw [oneDayRDR_windows] at hw
  simp only [Except.ok.injEq, List.cons.injEq, and_true] at hw
  rw [← hw, oneDayRDR_length] at hlen
  exact absurd hlen (by decide)

/-- C24: the session 23:35 to 06:00, which spans midnight, on the 5-minute series from
2020-06-01 23:00 to 2020-06-02 09:00 UTC yields exactly one window, and that window
consists of every input candle from 2020-06-01 23:35 through 2020-06-02 06:00
inclusive, in input order: the 5-minute series between these two times, as the test
"Test ADR cross days one subset" of `data_test.go` expects. -/
theorem oneDayADR_one_window :
    Weekday (Date 2020 6 1 23 0 0 0) = 1 ∧
    SubsetDataForMultipleDays
        (mockSeries (Date 2020 6 1 23 0 0 0) (Date 2020 6 2 9 0 0 0)) "23:35" "06:00" =
      .ok [(mockSeries (Date 2020 6 1 23 0 0 0) (Date 2020 6 2 9 0 0 0)).filter
        (fun r => decide (Date 2020 6 1 23 35 0 0 ≤ r.Time ∧ r.Time ≤ Date 2020 6 2 6 0 0 0))] ∧
    (mockSeries (Date 2020 6 1 23 0 0 0) (Date 2020 6 2 9 0 0 0)).filter
        (fun r => decide (Date 2020 6 1 23 35 0 0 ≤ r.Time ∧ r.Time ≤ Date 2020 6 2 6 0 0 0)) =
      mockSeries (Date 2020 6 1 23 35 0 0) (Date 2020 6 2 6 0 0 0) := by
  refine ⟨by decide, by decide!, by decide!⟩

/-- C25, the code at the failing input: the 5-minute series from 2020-06-01 23:45 to
2020-06-03 09:00 (Monday to Wednesday) holds every candle of the session from
2020-06-02 23:35 to 2020-06-03 06:00 (its candles between these two times are the
5-minute series from the one to the other), yet the call for the session 23:35 to
06:00 returns no window at all; the same series begun ten minutes earlier, at 23:35,
gives both sessions. -/
theorem truncated_session_hides_complete_session :
    (mockSeries (Date 2020 6 1 23 45 0 0) (Date 2020 6 3 9 0 0 0)).filter
        (fun r => decide (Date 2020 6 2 23 35 0 0 ≤ r.Time ∧ r.Time ≤ Date 2020 6 3 6 0 0 0)) =
      mockSeries (Date 2020 6 2 23 35 0 0) (Date 2020 6 3 6 0 0 0) ∧
    (∀ r ∈ mockSeries (Date 2020 6 1 23 45 0 0) (Date 2020 6 3 9 0 0 0),
      Weekday r.Time ≠ Saturday ∧ Weekday r.Time ≠ Sunday) ∧
    SubsetDataForMultipleDays
        (mockSeries (Date 2020 6 1 23 45 0 0) (Date 2020 6 3 9 0 0 0)) "23:35" "06:00" =
      .ok [] ∧
    SubsetDataForMultipleDays
        (mockSeries (Date 2020 6 1 23 35 0 0) (Date 2020 6 3 9 0 0 0)) "23:35" "06:00" =
      .ok [mockSeries (Date 2020 6 1 23 35 0 0) (Date 2020 6 2 6 0 0 0),
           mockSeries (Date 2020 6 2 23 35 0 0) (Date 2020 6 3 6 0 0 0)] := by
  refine ⟨by decide!, by decide!, by decide!, by decide!⟩

/-! ## Trailing stop and break-even -/

/-- With the trailing stop enabled, a candle that meets neither the stop nor the
target goes through the trailing-stop adjustment and the loop goes on. -/
theorem validateSwitch_trailing (cfg : InstrumentConfiguration) (tick : ℚ) (t : Trade)
    (row : Row) (htrail : cfg.TrailingStop = true)
    (h : ¬ hitsStopOrTarget t.Direction t.StopPrice t.TargetPrice row) :
    validateSwitch cfg tick t row = .next (trailingStopAdjust tick t row) := by
  unfold hitsStopOrTarget at h
  unfold validateSwitch
  have h1 : ¬ (t.Direction = LONG ∧ row.Low ≤ t.StopPrice) :=
    fun hc => h (Or.inl ⟨hc.1, Or.inl hc.2⟩)
  have h2 : ¬ (t.Direction = SHORT ∧ row.High ≥ t.StopPrice) :=
    fun hc => h (Or.inr ⟨hc.1, Or.inl hc.2⟩)
  have h3 : ¬ (t.Direction = LONG ∧ row.High ≥ t.TargetPrice) :=
    fun hc => h (Or.inl ⟨hc.1, Or.inr hc.2⟩)
  have h4 : ¬ (t.Direction = SHORT ∧ row.Low ≤ t.TargetPrice) :=
    fun hc => h (Or.inr ⟨hc.1, Or.inr hc.2⟩)
  rw [if_neg h1, if_neg h2, if_neg h3, if_neg h4, if_pos htrail]

/-- The stop after the trailing-stop adjustment of a LONG trade. -/
theorem trailingStopAdjust_long (tick : ℚ) (t : Trade) (row : Row) (hdir : t.Direction = LONG) :
    (trailingStopAdjust tick t row).StopPrice =
      if row.High > t.EntryPrice ∧
          RoundToDecimalLength (t.StopPrice + (row.High - t.EntryPrice)) tick > t.StopPrice then
        RoundToDecimalLength (t.StopPrice + (row.High - t.EntryPrice)) tick
      else t.StopPrice := by
  unfold trailingStopAdjust
  rw [if_pos hdir]
  by_cases h1 : row.High > t.EntryPrice
  · rw [if_pos h1]
    by_cases h2 : RoundToDecimalLength (t.StopPrice + (row.High - t.EntryPrice)) tick > t.StopPrice
    · simp only [h1, h2, and_self, if_true]
    · simp only [h1, h2, and_false, if_false]
  · rw [if_neg h1]
    simp only [h1, false_and, if_false]

/-- The stop after the trailing-stop adjustment of a SHORT trade. -/
theorem trailingStopAdjust_short (tick : ℚ) (t : Trade) (row : Row)
    (hdir : t.Direction = SHORT) :
    (trailingStopAdjust tick t row).StopPrice =
      if row.Low < t.EntryPrice ∧
          RoundToDecimalLength (t.StopPrice - (t.EntryPrice - row.Low)) tick < t.StopPrice then
        RoundToDecimalLength (t.StopPrice - (t.EntryPrice - row.Low)) tick
      else t.StopPrice := by
  unfold trailingStopAdjust
  rw [if_neg (by rw [hdir]; exact SHORT_ne_LONG), if_pos hdir]
  by_cases h1 : row.Low < t.EntryPrice
  · rw [if_pos h1]
    by_cases h2 : RoundToDecimalLength (t.StopPrice - (t.EntryPrice - row.Low)) tick < t.StopPrice
    · simp only [h1, h2, and_self, if_true]
    · simp only [h1, h2, and_false, if_false]
  · rw [if_neg h1]
    simp only [h1, false_and, if_false]

/-- The trailing-stop adjustment writes the stop and nothing else. -/
theorem trailingStopAdjust_only_stop (tick : ℚ) (t : Trade) (row : Row) :
    trailingStopAdjust tick t row =
      { t with StopPrice := (trailingStopAdjust tick t row).StopPrice } := by
  unfold trailingStopAdjust
  by_cases h1 : t.Direction = LONG
  · rw [if_pos h1]
    by_cases h2 : row.High > t.EntryPrice
    · rw [if_pos h2]
      simp only
      by_cases h3 : RoundToDecimalLength (t.StopPrice + (row.High - t.EntryPrice)) tick >
          t.StopPrice
      · rw [if_pos h3]
      · rw [if_neg h3]
    · rw [if_neg h2]
  · rw [if_neg h1]
    by_cases h4 : t.Direction = SHORT
    · rw [if_pos h4]
      by_cases h2 : row.Low < t.EntryPrice
      · rw [if_pos h2]
        simp only
        by_cases h3 : RoundToDecimalLength (t.StopPrice - (t.EntryPrice - row.Low)) tick <
            t.StopPrice
        · rw [if_pos h3]
        · rw [if_neg h3]
      · rw [if_neg h2]
    · rw [if_neg h4]

/-- The trailing-stop adjustment moves the stop in the favour of the trade only. -/
theorem trailingStopAdjust_monotone (tick : ℚ) (t : Trade) (row : Row) :
    (t.Direction = LONG → t.StopPrice ≤ (trailingStopAdjust tick t row).StopPrice) ∧
    (t.Direction = SHORT → (trailingStopAdjust tick t row).StopPrice ≤ t.StopPrice) := by
  constructor
  · intro hdir
    rw [trailingStopAdjust_long tick t row hdir]
    split_ifs with h
    · exact le_of_lt h.2
    · exact le_refl _
  · intro hdir
    rw [trailingStopAdjust_short tick t row hdir]
    split_ifs with h
    · exact le_of_lt h.2
    · exact le_refl _

/-- With the trailing stop enabled the `switch` leaves the stop where it is or moves
it through the trailing-stop adjustment. -/
theorem validateSwitch_trailing_stop (cfg : InstrumentConfiguration) (tick : ℚ) (t : Trade)
    (row : Row) (htrail : cfg.TrailingStop = true) :
    (validateSwitch cfg tick t row).trade.StopPrice = t.StopPrice ∨
    (validateSwitch cfg tick t row).trade.StopPrice = (trailingStopAdjust tick t row).StopPrice := by
  unfold validateSwitch
  split_ifs
  · exact Or.inl rfl
  · exact Or.inl rfl
  · exact Or.inl rfl
  · exact Or.inl rfl
  · exact Or.inr rfl

/-- With the trailing stop enabled one pass of the loop moves the stop in the favour
of the trade only. -/
theorem validateRow_trailing_monotone (cfg : InstrumentConfiguration) (tick : ℚ) (t : Trade)
    (row : Row) (htrail : cfg.TrailingStop = true) :
    (t.Direction = LONG → t.StopPrice ≤ (validateRow cfg tick t row).trade.StopPrice) ∧
    (t.Direction = SHORT → (validateRow cfg tick t row).trade.StopPrice ≤ t.StopPrice) := by
  have hm := trailingStopAdjust_monotone tick t row
  unfold validateRow
  split_ifs
  · exact ⟨fun _ => le_refl _, fun _ => le_refl _⟩
  · rcases validateSwitch_trailing_stop cfg tick t row htrail with h | h
    · rw [h]; exact ⟨fun _ => le_refl _, fun _ => le_refl _⟩
    · rw [h]; exact hm

/-- With the trailing stop enabled the loop moves the stop in the favour of the trade
only. -/
theorem validateLoop_trailing_monotone (cfg : InstrumentConfiguration) (tick : ℚ)
    (htrail : cfg.TrailingStop = true) :
    ∀ (rows : List Row) (t : Trade),
      (t.Direction = LONG → t.StopPrice ≤ (validateLoop cfg tick t rows).trade.StopPrice) ∧
      (t.Direction = SHORT → (validateLoop cfg tick t rows).trade.StopPrice ≤ t.StopPrice) := by
  intro rows
  induction rows with
  | nil => intro t; exact ⟨fun _ => le_refl _, fun _ => le_refl _⟩
  | cons row rest ih =>
    intro t
    have hrow := validateRow_trailing_monotone cfg tick t row htrail
    have hsame := validateRow_sameEntry cfg tick t row
    cases hr : validateRow cfg tick t row with
    | ret t1 =>
      rw [validateLoop_cons_ret cfg tick t t1 row rest hr]
      rw [hr] at hrow
      exact hrow
    | next t1 =>
      rw [validateLoop_cons_next cfg tick t t1 row rest hr]
      rw [hr] at hrow hsame
      have hdir : t.Direction = t1.Direction := hsame.2.2.1
      have hrest := ih t1
      constructor
      · intro hl
        exact le_trans (hrow.1 hl) (hrest.1 (hdir ▸ hl))
      · intro hs
        exact le_trans (hrest.2 (hdir ▸ hs)) (hrow.2 hs)

/-- The stop of the trade `ValidateTradeWithWindow` returns is the stop the loop
leaves. -/
theorem ValidateTradeWithWindow_stop (cfg : InstrumentConfiguration) (tick : ℚ) (t t1 : Trade)
    (window : Data) (h : ValidateTradeWithWindow t window cfg tick = some t1) :
    t1.StopPrice = stopAfter cfg tick t window := by
  unfold ValidateTradeWithWindow at h
  unfold stopAfter
  cases hl : validateLoop cfg tick t window with
  | ret t2 =>
    rw [hl] at h
    simp only [Option.some.injEq] at h
    rw [← h]; rfl
  | next t2 =>
    rw [hl] at h
    simp only at h
    by_cases hc : t2.ClosedAtPrice = 0
    · rw [if_pos hc] at h
      cases hlast : window.getLast? with
      | none => rw [hlast] at h; simp at h
      | some lastRow =>
        rw [hlast] at h
        simp only [Option.some.injEq] at h
        rw [← h]; rfl
    · rw [if_neg hc] at h
      simp only [Option.some.injEq] at h
      rw [← h]; rfl

/-- C27: the trailing stop only moves in the favour of the trade.  With the trailing
stop enabled, for every trade and window: on every candle of the window the stop in
force after the candle is not below the stop in force before it for a LONG trade,
and not above it for a SHORT trade; the trade `ValidateTradeWithWindow` returns has a
stop not below (LONG) or not above (SHORT) the stop it started with; and, from any
state of the trade, a candle after `TakenAt` that meets neither the stop nor the
target leaves the trade open (the loop goes on, the closing fields and every field
but the stop are as before), with the stop of a LONG trade set to
RoundToDecimalLength(StopPrice + (high - EntryPrice), tickSize) exactly when
high > EntryPrice and that value is greater than the current stop, and the stop of a
SHORT trade set to RoundToDecimalLength(StopPrice - (EntryPrice - low), tickSize)
exactly when low < EntryPrice and that value is less than the current stop. -/
theorem trailing_stop_moves_in_favour (cfg : InstrumentConfiguration) (tick : ℚ)
    (t : Trade) (window : Data) (htrail : cfg.TrailingStop = true) :
    (∀ rows row rest, window = rows ++ row :: rest →
      (t.Direction = LONG →
        stopAfter cfg tick t rows ≤ stopAfter cfg tick t (rows ++ [row])) ∧
      (t.Direction = SHORT →
        stopAfter cfg tick t (rows ++ [row]) ≤ stopAfter cfg tick t rows)) ∧
    (∀ t1, ValidateTradeWithWindow t window cfg tick = some t1 →
      (t.Direction = LONG → t.StopPrice ≤ t1.StopPrice) ∧
      (t.Direction = SHORT → t1.StopPrice ≤ t.StopPrice)) ∧
    (∀ (cur : Trade) (row : Row), row.Time > cur.TakenAt →
      ¬ hitsStopOrTarget cur.Direction cur.StopPrice cur.TargetPrice row →
      ∃ t1, validateRow cfg tick cur row = .next t1 ∧
        t1 = { cur with StopPrice := t1.StopPrice } ∧
        (cur.Direction = LONG → t1.StopPrice =
          if row.High > cur.EntryPrice ∧
              RoundToDecimalLength (cur.StopPrice + (row.High - cur.EntryPrice)) tick >
                cur.StopPrice then
            RoundToDecimalLength (cur.StopPrice + (row.High - cur.EntryPrice)) tick
          else cur.StopPrice) ∧
        (cur.Direction = SHORT → t1.StopPrice =
          if row.Low < cur.EntryPrice ∧
              RoundToDecimalLength (cur.StopPrice - (cur.EntryPrice - row.Low)) tick <
                cur.StopPrice then
            RoundToDecimalLength (cur.StopPrice - (cur.EntryPrice - row.Low)) tick
          else cur.StopPrice)) := by
  refine ⟨?_, ?_, ?_⟩
  · intro rows row rest _
    unfold stopAfter
    rw [validateLoop_append cfg tick rows t [row]]
    have hsame := validateLoop_sameEntry cfg tick rows t
    cases hl : validateLoop cfg tick t rows with
    | ret t1 => exact ⟨fun _ => le_refl _, fun _ => le_refl _⟩
    | next t1 =>
      rw [hl] at hsame
      have hdir : t.Direction = t1.Direction := hsame.2.2.1
      have hm := validateLoop_trailing_monotone cfg tick htrail [row] t1
      simp only [Flow.trade]
      exact ⟨fun hd => hm.1 (hdir ▸ hd), fun hd => hm.2 (hdir ▸ hd)⟩
  · intro t1 h1
    rw [ValidateTradeWithWindow_stop cfg tick t t1 window h1]
    exact validateLoop_trailing_monotone cfg tick htrail window t
  · intro cur row hafter hquiet
    refine ⟨trailingStopAdjust tick cur row, ?_, ?_, ?_, ?_⟩
    · rw [validateRow_after cfg tick cur row hafter]
      exact validateSwitch_trailing cfg tick cur row htrail hquiet
    · exact trailingStopAdjust_only_stop tick cur row
    · intro hd; exact trailingStopAdjust_long tick cur row hd
    · intro hd; exact trailingStopAdjust_short tick cur row hd

/-- Witness of C27: the trade and the window of the test "Test LONG position move to
BE at 50%" of `trade_test.go` with the trailing stop enabled and a tick size of 0.5:
the candle with high 215 trails the stop from 50 to 165, where the next candle (low
130) closes the trade. -/
theorem trailing_stop_moves_in_favour_witness :
    trailingConfiguration.TrailingStop = true ∧
    ValidateTradeWithWindow breakEvenTrade breakEvenWindow trailingConfiguration (1 / 2) =
      some { breakEvenTrade with StopPrice := 165, ClosedAtPrice := 165, ClosedAtTime := 3 } ∧
    ((∀ rows row rest, breakEvenWindow = rows ++ row :: rest →
      (breakEvenTrade.Direction = LONG →
        stopAfter trailingConfiguration (1 / 2) breakEvenTrade rows ≤
          stopAfter trailingConfiguration (1 / 2) breakEvenTrade (rows ++ [row])) ∧
      (breakEvenTrade.Direction = SHORT →
        stopAfter trailingConfiguration (1 / 2) breakEvenTrade (rows ++ [row]) ≤
          stopAfter trailingConfiguration (1 / 2) breakEvenTrade rows)) ∧
    (∀ t1, ValidateTradeWithWindow breakEvenTrade breakEvenWindow trailingConfiguration (1 / 2) =
        some t1 →
      (breakEvenTrade.Direction = LONG → breakEvenTrade.StopPrice ≤ t1.StopPrice) ∧
      (breakEvenTrade.Direction = SHORT → t1.StopPrice ≤ breakEvenTrade.StopPrice)) ∧
    (∀ (cur : Trade) (row : Row), row.Time > cur.TakenAt →
      ¬ hitsStopOrTarget cur.Direction cur.StopPrice cur.TargetPrice row →
      ∃ t1, validateRow trailingConfiguration (1 / 2) cur row = .next t1 ∧
        t1 = { cur with StopPrice := t1.StopPrice } ∧
        (cur.Direction = LONG → t1.StopPrice =
          if row.High > cur.EntryPrice ∧
              RoundToDecimalLength (cur.StopPrice + (row.High - cur.EntryPrice)) (1 / 2) >
                cur.StopPrice then
            RoundToDecimalLength (cur.StopPrice + (row.High - cur.EntryPrice)) (1 / 2)
          else cur.StopPrice) ∧
        (cur.Direction = SHORT → t1.StopPrice =
          if row.Low < cur.EntryPrice ∧
              RoundToDecimalLength (cur.StopPrice - (cur.EntryPrice - row.Low)) (1 / 2) <
                cur.StopPrice then
            RoundToDecimalLength (cur.StopPrice - (cur.EntryPrice - row.Low)) (1 / 2)
          else cur.StopPrice))) :=
  ⟨rfl, by decide!,
   trailing_stop_moves_in_favour trailingConfiguration (1 / 2) breakEvenTrade breakEvenWindow rfl⟩

/-- With the trailing stop disabled, a break-even threshold and a stop that is not at
the entry price, a candle that meets neither the stop nor the target goes through the
break-even check and the loop goes on. -/
theorem validateSwitch_breakEven (cfg : InstrumentConfiguration) (tick : ℚ) (t : Trade)
    (row : Row) (hno : cfg.TrailingStop = false) (hp : cfg.MoveToBreakEvenAt > 0)
    (hstop : t.StopPrice ≠ t.EntryPrice)
    (h : ¬ hitsStopOrTarget t.Direction t.StopPrice t.TargetPrice row) :
    validateSwitch cfg tick t row = .next (breakEvenAdjust cfg t row) := by
  unfold hitsStopOrTarget at h
  unfold validateSwitch
  have h1 : ¬ (t.Direction = LONG ∧ row.Low ≤ t.StopPrice) :=
    fun hc => h (Or.inl ⟨hc.1, Or.inl hc.2⟩)
  have h2 : ¬ (t.Direction = SHORT ∧ row.High ≥ t.StopPrice) :=
    fun hc => h (Or.inr ⟨hc.1, Or.inl hc.2⟩)
  have h3 : ¬ (t.Direction = LONG ∧ row.High ≥ t.TargetPrice) :=
    fun hc => h (Or.inl ⟨hc.1, Or.inr hc.2⟩)
  have h4 : ¬ (t.Direction = SHORT ∧ row.Low ≤ t.TargetPrice) :=
    fun hc => h (Or.inr ⟨hc.1, Or.inr hc.2⟩)
  have h5 : ¬ (cfg.TrailingStop = true) := by rw [hno]; decide
  rw [if_neg h1, if_neg h2, if_neg h3, if_neg h4, if_neg h5, if_pos ⟨hp, hstop⟩]

/-- The break-even check of a LONG trade. -/
theorem breakEvenAdjust_long (cfg : InstrumentConfiguration) (t : Trade) (row : Row)
    (hdir : t.Direction = LONG) :
    breakEvenAdjust cfg t row =
      if row.High ≥ t.EntryPrice * (1 + cfg.MoveToBreakEvenAt / 100) then
        { t with StopPrice := t.EntryPrice }
      else t := by
  unfold breakEvenAdjust
  simp only [hdir, if_true]
  by_cases h : row.High ≥ t.EntryPrice * (1 + cfg.MoveToBreakEvenAt / 100)
  · simp [h]
  · simp [h]

/-- With the trailing stop disabled the `switch` does not move a stop that is at the
entry price. -/
theorem validateSwitch_at_entry (cfg : InstrumentConfiguration) (tick : ℚ) (t : Trade)
    (row : Row) (hno : cfg.TrailingStop = false) (hat : t.StopPrice = t.EntryPrice) :
    (validateSwitch cfg tick t row).trade.StopPrice = t.StopPrice := by
  unfold validateSwitch
  have h5 : ¬ (cfg.TrailingStop = true) := by rw [hno]; decide
  have h6 : ¬ (cfg.MoveToBreakEvenAt > 0 ∧ t.StopPrice ≠ t.EntryPrice) :=
    fun hc => hc.2 hat
  rw [if_neg h5, if_neg h6]
  split_ifs <;> rfl

/-- With the trailing stop disabled the loop does not move a stop that is at the entry
price. -/
theorem validateLoop_at_entry (cfg : InstrumentConfiguration) (tick : ℚ)
    (hno : cfg.TrailingStop = false) :
    ∀ (rows : List Row) (t : Trade), t.StopPrice = t.EntryPrice →
      (validateLoop cfg tick t rows).trade.StopPrice = t.EntryPrice := by
  intro rows
  induction rows with
  | nil => intro t hat; exact hat
  | cons row rest ih =>
    intro t hat
    have hsame := validateRow_sameEntry cfg tick t row
    have hstep : (validateRow cfg tick t row).trade.StopPrice = t.StopPrice := by
      unfold validateRow
      split_ifs
      · rfl
      · exact validateSwitch_at_entry cfg tick t row hno hat
    cases hr : validateRow cfg tick t row with
    | ret t1 =>
      rw [validateLoop_cons_ret cfg tick t t1 row rest hr]
      rw [hr] at hstep
      simp only [Flow.trade] at hstep ⊢
      rw [hstep, hat]
    | next t1 =>
      rw [validateLoop_cons_next cfg tick t t1 row rest hr]
      rw [hr] at hstep hsame
      simp only [Flow.trade] at hstep hsame
      have hentry : t.EntryPrice = t1.EntryPrice := hsame.2.2.2.1
      rw [ih t1 (by rw [hstep, hat, hentry]), hentry]

/-- C28: break-even for a LONG trade.  With the trailing stop disabled, a break-even
threshold p > 0 and a stop that is not at the entry price, a candle strictly after
`TakenAt` that meets neither the stop nor the target leaves the trade open with every
field but the stop as before, and its stop is set to the entry price if and only if
the candle's high is at least EntryPrice * (1 + p/100), otherwise the stop stays
where it was.  With the trailing stop disabled, once the stop of a trade equals its
entry price no candle changes it: it is the stop in force after any rows and the
stop of the trade `ValidateTradeWithWindow` returns. -/
theorem break_even_long (cfg : InstrumentConfiguration) (tick : ℚ) (t : Trade) (row : Row)
    (hno : cfg.TrailingStop = false) (hp : cfg.MoveToBreakEvenAt > 0)
    (hdir : t.Direction = LONG) (hstop : t.StopPrice ≠ t.EntryPrice)
    (hafter : row.Time > t.TakenAt)
    (hquiet : ¬ (row.Low ≤ t.StopPrice ∨ row.High ≥ t.TargetPrice)) :
    (∃ t1, validateRow cfg tick t row = .next t1 ∧
      t1 = { t with StopPrice := t1.StopPrice } ∧
      (t1.StopPrice = t.EntryPrice ↔
        row.High ≥ t.EntryPrice * (1 + cfg.MoveToBreakEvenAt / 100)) ∧
      (¬ row.High ≥ t.EntryPrice * (1 + cfg.MoveToBreakEvenAt / 100) →
        t1.StopPrice = t.StopPrice)) ∧
    (∀ (cur : Trade) (rows : List Row), cur.StopPrice = cur.EntryPrice →
      stopAfter cfg tick cur rows = cur.EntryPrice ∧
      ∀ t2, ValidateTradeWithWindow cur rows cfg tick = some t2 →
        t2.StopPrice = cur.EntryPrice) := by
  constructor
  · have hq : ¬ hitsStopOrTarget t.Direction t.StopPrice t.TargetPrice row := by
      unfold hitsStopOrTarget
      rintro (⟨_, h⟩ | ⟨h, _⟩)
      · exact hquiet h
      · rw [hdir] at h; exact SHORT_ne_LONG h.symm
    refine ⟨breakEvenAdjust cfg t row, ?_, ?_, ?_, ?_⟩
    · rw [validateRow_after cfg tick t row hafter]
      exact validateSwitch_breakEven cfg tick t row hno hp hstop hq
    · rw [breakEvenAdjust_long cfg t row hdir]
      split_ifs <;> rfl
    · rw [breakEvenAdjust_long cfg t row hdir]
      by_cases h : row.High ≥ t.EntryPrice * (1 + cfg.MoveToBreakEvenAt / 100)
      · rw [if_pos h]
        exact ⟨fun _ => h, fun _ => rfl⟩
      · rw [if_neg h]
        exact ⟨fun hc => absurd hc hstop, fun hc => absurd hc h⟩
    · intro h
      rw [breakEvenAdjust_long cfg t row hdir, if_neg h]
  · intro cur rows hat
    have h1 := validateLoop_at_entry cfg tick hno rows cur hat
    refine ⟨h1, ?_⟩
    intro t2 h2
    rw [ValidateTradeWithWindow_stop cfg tick cur t2 rows h2]
    exact h1

/-- Witness of C28: the test "Test LONG position move to BE at 50%" of `trade_test.go`
(entry 100, stop 50, threshold 50 per cent): the candle with high 215 moves the stop
to 100, and the trade is closed at the last close, 150, with its stop at 100. -/
theorem break_even_long_witness :
    breakEvenConfiguration.TrailingStop = false ∧
    breakEvenConfiguration.MoveToBreakEvenAt > 0 ∧
    validateRow breakEvenConfiguration (1 / 2) breakEvenTrade
        { candle 2 215 110 150 with Open := 120 } =
      .next { breakEvenTrade with StopPrice := 100 } ∧
    ValidateTradeWithWindow breakEvenTrade breakEvenWindow breakEvenConfiguration (1 / 2) =
      some { breakEvenTrade with StopPrice := 100, ClosedAtPrice := 150, ClosedAtTime := 3 } ∧
    ((∃ t1, validateRow breakEvenConfiguration (1 / 2) breakEvenTrade
          { candle 2 215 110 150 with Open := 120 } = .next t1 ∧
      t1 = { breakEvenTrade with StopPrice := t1.StopPrice } ∧
      (t1.StopPrice = breakEvenTrade.EntryPrice ↔
        ({ candle 2 215 110 150 with Open := 120 } : Row).High ≥
          breakEvenTrade.EntryPrice * (1 + breakEvenConfiguration.MoveToBreakEvenAt / 100)) ∧
      (¬ ({ candle 2 215 110 150 with Open := 120 } : Row).High ≥
          breakEvenTrade.EntryPrice * (1 + breakEvenConfiguration.MoveToBreakEvenAt / 100) →
        t1.StopPrice = breakEvenTrade.StopPrice)) ∧
    (∀ (cur : Trade) (rows : List Row), cur.StopPrice = cur.EntryPrice →
      stopAfter breakEvenConfiguration (1 / 2) cur rows = cur.EntryPrice ∧
      ∀ t2, ValidateTradeWithWindow cur rows breakEvenConfiguration (1 / 2) = some t2 →
        t2.StopPrice = cur.EntryPrice)) :=
  ⟨rfl, by decide, by decide!, by decide!,
   break_even_long breakEvenConfiguration (1 / 2) breakEvenTrade
     { candle 2 215 110 150 with Open := 120 } rfl (by decide) rfl (by decide) (by decide)
     (by decide)⟩

/-- With the trailing stop enabled the `switch` does not read the break-even
threshold. -/
theorem validateSwitch_ignores_breakEven (cfg : InstrumentConfiguration) (tick : ℚ)
    (t : Trade) (row : Row) (htrail : cfg.TrailingStop = true) (p : ℚ) :
    validateSwitch cfg tick t row =
      validateSwitch { cfg with MoveToBreakEvenAt := p } tick t row := by
  unfold validateSwitch
  simp only [htrail, if_true]

/-- With the trailing stop enabled the loop does not read the break-even threshold. -/
theorem validateLoop_ignores_breakEven (cfg : InstrumentConfiguration) (tick : ℚ)
    (htrail : cfg.TrailingStop = true) (p : ℚ) :
    ∀ (rows : List Row) (t : Trade),
      validateLoop cfg tick t rows =
        validateLoop { cfg with MoveToBreakEvenAt := p } tick t rows := by
  intro rows
  induction rows with
  | nil => intro t; rfl
  | cons row rest ih =>
    intro t
    have hrow : validateRow cfg tick t row =
        validateRow { cfg with MoveToBreakEvenAt := p } tick t row := by
      unfold validateRow
      rw [validateSwitch_ignores_breakEven cfg tick t row htrail p]
    simp only [validateLoop]
    rw [← hrow]
    cases validateRow cfg tick t row with
    | ret t1 => rfl
    | next t1 => exact ih t1

/-- C29: trailing stop and break-even are mutually exclusive and the trailing stop
takes precedence.  With the trailing stop enabled (whatever the break-even threshold,
in particular when it is greater than 0), `ValidateTradeWithWindow` returns exactly
the trade it returns with `MoveToBreakEvenAt = 0`, so the same StopPrice,
ClosedAtPrice and ClosedAtTime; and on every candle, from every state of the trade,
the `switch` closes the trade or applies the trailing-stop adjustment, never the
break-even rule. -/
theorem trailing_excludes_break_even (cfg : InstrumentConfiguration) (tick : ℚ) (t : Trade)
    (window : Data) (htrail : cfg.TrailingStop = true) :
    ValidateTradeWithWindow t window cfg tick =
      ValidateTradeWithWindow t window { cfg with MoveToBreakEvenAt := 0 } tick ∧
    (∀ t1 t0, ValidateTradeWithWindow t window cfg tick = some t1 →
      ValidateTradeWithWindow t window { cfg with MoveToBreakEvenAt := 0 } tick = some t0 →
      t1.StopPrice = t0.StopPrice ∧ t1.ClosedAtPrice = t0.ClosedAtPrice ∧
        t1.ClosedAtTime = t0.ClosedAtTime) ∧
    (∀ (cur : Trade) (row : Row),
      validateRow cfg tick cur row =
        validateRow { cfg with MoveToBreakEvenAt := 0 } tick cur row ∧
      ((∃ t1, validateSwitch cfg tick cur row = .ret t1) ∨
        validateSwitch cfg tick cur row = .next (trailingStopAdjust tick cur row))) := by
  have hmain : ValidateTradeWithWindow t window cfg tick =
      ValidateTradeWithWindow t window { cfg with MoveToBreakEvenAt := 0 } tick := by
    unfold ValidateTradeWithWindow
    rw [validateLoop_ignores_breakEven cfg tick htrail 0 window t]
  refine ⟨hmain, ?_, ?_⟩
  · intro t1 t0 h1 h0
    rw [hmain, h0] at h1
    simp only [Option.some.injEq] at h1
    rw [h1]
    exact ⟨rfl, rfl, rfl⟩
  · intro cur row
    constructor
    · unfold validateRow
      rw [validateSwitch_ignores_breakEven cfg tick cur row htrail 0]
    · by_cases hq : hitsStopOrTarget cur.Direction cur.StopPrice cur.TargetPrice row
      · obtain ⟨t1, h1, _⟩ := validateSwitch_hit cfg tick cur row hq
        exact Or.inl ⟨t1, h1⟩
      · exact Or.inr (validateSwitch_trailing cfg tick cur row htrail hq)

/-- Witness of C29: the trade and the window of the test "Test LONG position move to
BE at 50%" of `trade_test.go` with the trailing stop enabled and the threshold 50:
the result is the one for the threshold 0 (stop trailed to 165, closed there), not
the break-even result (stop 100, closed at 150). -/
theorem trailing_excludes_break_even_witness :
    trailingConfiguration.TrailingStop = true ∧
    trailingConfiguration.MoveToBreakEvenAt > 0 ∧
    ValidateTradeWithWindow breakEvenTrade breakEvenWindow
        { trailingConfiguration with MoveToBreakEvenAt := 0 } (1 / 2) =
      some { breakEvenTrade with StopPrice := 165, ClosedAtPrice := 165, ClosedAtTime := 3 } ∧
    (ValidateTradeWithWindow breakEvenTrade breakEvenWindow trailingConfiguration (1 / 2) =
      ValidateTradeWithWindow breakEvenTrade breakEvenWindow
        { trailingConfiguration with MoveToBreakEvenAt := 0 } (1 / 2) ∧
    (∀ t1 t0,
      ValidateTradeWithWindow breakEvenTrade breakEvenWindow trailingConfiguration (1 / 2) =
        some t1 →
      ValidateTradeWithWindow breakEvenTrade breakEvenWindow
        { trailingConfiguration with MoveToBreakEvenAt := 0 } (1 / 2) = some t0 →
      t1.StopPrice = t0.StopPrice ∧ t1.ClosedAtPrice = t0.ClosedAtPrice ∧
        t1.ClosedAtTime = t0.ClosedAtTime) ∧
    (∀ (cur : Trade) (row : Row),
      validateRow trailingConfiguration (1 / 2) cur row =
        validateRow { trailingConfiguration with MoveToBreakEvenAt := 0 } (1 / 2) cur row ∧
      ((∃ t1, validateSwitch trailingConfiguration (1 / 2) cur row = .ret t1) ∨
        validateSwitch trailingConfiguration (1 / 2) cur row =
          .next (trailingStopAdjust (1 / 2) cur row)))) :=
  ⟨rfl, by decide, by decide!,
   trailing_excludes_break_even trailingConfiguration (1 / 2) breakEvenTrade breakEvenWindow rfl⟩

/-- C30: `ValidateTradeWithWindow` changes only StopPrice, ClosedAtPrice and
ClosedAtTime.  For every trade, window, configuration and tick size the trade
returned has the InitialStopPrice, EntryPrice, TargetPrice, Direction, TakenAt and
Instrument of the trade passed in (it is that trade with the three other fields
written), and the call returns a trade for every window that is not empty.  So
every trade `GenerateTradesInWindow` returns was created on a candle of the window
and its InitialStopPrice still is the stop computed at creation:
RoundToDecimalLength(high + tickSize * StopSizeAddition, tickSize) for a SHORT
trade, RoundToDecimalLength(low - tickSize * StopSizeAddition, tickSize) for a LONG
trade. -/
theorem ValidateTradeWithWindow_frame (t : Trade) (window : Data)
    (cfg : InstrumentConfiguration) (tick : ℚ) (instrument : String) :
    (∀ t1, ValidateTradeWithWindow t window cfg tick = some t1 →
      t1.InitialStopPrice = t.InitialStopPrice ∧ t1.EntryPrice = t.EntryPrice ∧
      t1.TargetPrice = t.TargetPrice ∧ t1.Direction = t.Direction ∧
      t1.TakenAt = t.TakenAt ∧ t1.Instrument = t.Instrument ∧
      t1 = { t with StopPrice := t1.StopPrice, ClosedAtPrice := t1.ClosedAtPrice,
                    ClosedAtTime := t1.ClosedAtTime }) ∧
    (window ≠ [] → ∃ t1, ValidateTradeWithWindow t window cfg tick = some t1) ∧
    (∃ trades, GenerateTradesInWindow window cfg instrument tick = some trades ∧
      ∀ tr ∈ trades, ∃ row ∈ window, ∃ s,
        entrySetup row tr.Direction cfg tick = .ready s ∧
        tr.TakenAt = row.Time ∧ tr.InitialStopPrice = s.stopPrice ∧
        (tr.Direction = SHORT ∨ tr.Direction = LONG) ∧
        (tr.Direction = SHORT → tr.InitialStopPrice =
          RoundToDecimalLength (row.High + tick * (cfg.StopSizeAddition : ℚ)) tick) ∧
        (tr.Direction = LONG → tr.InitialStopPrice =
          RoundToDecimalLength (row.Low - tick * (cfg.StopSizeAddition : ℚ)) tick)) := by
  refine ⟨?_, ?_, ?_⟩
  · intro t1 h1
    by_cases hne : window = []
    · subst hne
      unfold ValidateTradeWithWindow at h1
      simp only [validateLoop] at h1
      by_cases hc : t.ClosedAtPrice = 0
      · rw [if_pos hc] at h1; simp at h1
      · rw [if_neg hc] at h1
        simp only [Option.some.injEq] at h1
        subst h1
        exact ⟨rfl, rfl, rfl, rfl, rfl, rfl, rfl⟩
    · obtain ⟨t2, h2, hsame⟩ := ValidateTradeWithWindow_total cfg tick t window hne
      rw [h2] at h1
      simp only [Option.some.injEq] at h1
      subst h1
      obtain ⟨a, b, c, d, e, f⟩ := hsame
      refine ⟨e.symm, d.symm, f.symm, c.symm, b.symm, a.symm, ?_⟩
      cases t
      cases t2
      simp only at a b c d e f
      subst a; subst b; subst c; subst d; subst e; subst f
      rfl
  · intro hne
    obtain ⟨t2, h2, _⟩ := ValidateTradeWithWindow_total cfg tick t window hne
    exact ⟨t2, h2⟩
  · obtain ⟨trades, htr, hall⟩ := GenerateTradesInWindow_trace window cfg instrument tick
    refine ⟨trades, htr, ?_⟩
    intro tr hmem
    obtain ⟨hne, row, hrow, s, hcreated⟩ := hall tr hmem
    obtain ⟨h1, _, h3, _, h5⟩ := createdAt_fields window cfg instrument tick row s tr hne hcreated
    refine ⟨row, hrow, s, ?_, h1, h3, ?_, ?_, ?_⟩
    · rcases h5 with ⟨hd, hs⟩ | ⟨hd, hs⟩
      · rw [hd]; exact hs
      · rw [hd]; exact hs
    · rcases h5 with ⟨hd, _⟩ | ⟨hd, _⟩
      · exact Or.inl hd
      · exact Or.inr hd
    · intro hd
      rcases h5 with ⟨_, hs⟩ | ⟨hd2, _⟩
      · rcases entrySetup_short row cfg tick with ⟨_, hskip⟩ | ⟨m, _, _, _, hready⟩
        · rw [hskip] at hs; cases hs
        · rw [hready] at hs
          simp only [SetupOutcome.ready.injEq] at hs
          rw [h3, ← hs]
      · rw [hd] at hd2; exact absurd hd2 SHORT_ne_LONG
    · intro hd
      rcases h5 with ⟨hd2, _⟩ | ⟨_, hs⟩
      · rw [hd] at hd2; exact absurd hd2.symm SHORT_ne_LONG
      · rcases entrySetup_long row cfg tick with ⟨_, hskip⟩ | ⟨m, _, _, _, hready⟩
        · rw [hskip] at hs; cases hs
        · rw [hready] at hs
          simp only [SetupOutcome.ready.injEq] at hs
          rw [h3, ← hs]

/-! ## Rounding -/

/-- `math.Round` gives an integer at distance at most one half. -/
theorem mathRound_spec (x : ℚ) :
    ∃ k : Int, mathRound x = (k : ℚ) ∧ |(k : ℚ) - x| ≤ 1 / 2 := by
  unfold mathRound
  by_cases h : x < 0
  · rw [if_pos h]
    refine ⟨-(Rat.floor (-x + 1 / 2)), by push_cast; rfl, ?_⟩
    have h1 : ((Rat.floor (-x + 1 / 2) : Int) : ℚ) ≤ -x + 1 / 2 := by
      exact Int.floor_le (α := ℚ) _
    have h2 : -x + 1 / 2 < ((Rat.floor (-x + 1 / 2) : Int) : ℚ) + 1 := by
      exact Int.lt_floor_add_one (α := ℚ) _
    rw [abs_le]
    push_cast
    constructor <;> linarith
  · rw [if_neg h]
    refine ⟨Rat.floor (x + 1 / 2), rfl, ?_⟩
    have h1 : ((Rat.floor (x + 1 / 2) : Int) : ℚ) ≤ x + 1 / 2 := by
      exact Int.floor_le (α := ℚ) _
    have h2 : x + 1 / 2 < ((Rat.floor (x + 1 / 2) : Int) : ℚ) + 1 := by
      exact Int.lt_floor_add_one (α := ℚ) _
    rw [abs_le]
    constructor <;> linarith

/-- The scaling by the power of ten cancels: `RoundToDecimalLength` is `math.Round` of
the quotient times the increment. -/
theorem RoundToDecimalLength_eq (numberA numberB : ℚ) :
    RoundToDecimalLength numberA numberB = mathRound (numberA / numberB) * numberB := by
  unfold RoundToDecimalLength
  simp only
  have hm : (10 : ℚ) ^ getDecimalPlaces numberB ≠ 0 := pow_ne_zero _ (by norm_num)
  rw [mul_div_mul_right numberA numberB hm]
  field_simp
  ring

/-- C31: `RoundToDecimalLength(1234.567, 0.005)` is 1234.565, and the other cases of
the test: (1234.567, 0.01) gives 1234.57, (1234.567, 0.1) gives 1234.6,
(0.01234, 0.005) gives 0.01 and (0.01234, 0.001) gives 0.012.  For every number and
every increment that is not zero the result is a multiple of the increment, and no
multiple of the increment is nearer to the number.  (Numbers are rationals.) -/
theorem RoundToDecimalLength_nearest_multiple :
    RoundToDecimalLength (1234567 / 1000) (5 / 1000) = 1234565 / 1000 ∧
    RoundToDecimalLength (1234567 / 1000) (1 / 100) = 123457 / 100 ∧
    RoundToDecimalLength (1234567 / 1000) (1 / 10) = 12346 / 10 ∧
    RoundToDecimalLength (1234 / 100000) (5 / 1000) = 1 / 100 ∧
    RoundToDecimalLength (1234 / 100000) (1 / 1000) = 12 / 1000 ∧
    ∀ numberA numberB : ℚ, numberB ≠ 0 →
      ∃ k : Int, RoundToDecimalLength numberA numberB = (k : ℚ) * numberB ∧
        ∀ j : Int, |(k : ℚ) * numberB - numberA| ≤ |(j : ℚ) * numberB - numberA| := by
  refine ⟨by decide!, by decide!, by decide!, by decide!, by decide!, ?_⟩
  intro a b hb
  obtain ⟨k, hk, hdist⟩ := mathRound_spec (a / b)
  refine ⟨k, by rw [RoundToDecimalLength_eq a b, hk], ?_⟩
  intro j
  have hbpos : 0 < |b| := abs_pos.mpr hb
  have e1 : ∀ n : Int, (n : ℚ) * b - a = ((n : ℚ) - a / b) * b := by
    intro n; field_simp
  rw [e1 k, e1 j, abs_mul, abs_mul]
  apply mul_le_mul_of_nonneg_right _ (le_of_lt hbpos)
  by_cases hjk : j = k
  · rw [hjk]
  · have hne : (1 : ℚ) ≤ |(j : ℚ) - (k : ℚ)| := by
      have : (1 : Int) ≤ |j - k| := Int.one_le_abs (sub_ne_zero.mpr hjk)
      have h2 : ((1 : Int) : ℚ) ≤ ((|j - k| : Int) : ℚ) := by exact_mod_cast this
      simpa using h2
    have htri : |(j : ℚ) - (k : ℚ)| ≤ |(j : ℚ) - a / b| + |(k : ℚ) - a / b| := by
      have := abs_sub_le (j : ℚ) (a / b) (k : ℚ)
      rw [abs_sub_comm (a / b) (k : ℚ)] at this
      exact this
    linarith

/-! ## Trailing by ticks and break-even of a SHORT trade -/

/-- C32, the code at the failing input: on the test "Test SHORT position trailing
STOP" of `trade_test.go` (entry 100, stop 300, target 50, TrailingStopAmount 50, tick
0.5) the trade is closed at 75 at the last candle, as the test expects, but its stop
is still 300, not 85: `TrailingStopAmount` is never read.  With the flag
`TrailingStop` set as well, the stop ends at 240 (300 - 20 - 40), not at 85 either. -/
theorem tick_trailing_stop_not_applied :
    ValidateTradeWithWindow tickTrailTrade tickTrailWindow tickTrailConfiguration (1 / 2) =
      some { tickTrailTrade with StopPrice := 300, ClosedAtPrice := 75, ClosedAtTime := 3 } ∧
    ValidateTradeWithWindow tickTrailTrade tickTrailWindow
        { tickTrailConfiguration with TrailingStop := true } (1 / 2) =
      some { tickTrailTrade with StopPrice := 240, ClosedAtPrice := 75, ClosedAtTime := 3 } ∧
    (60 : ℚ) + 50 * (1 / 2) = 85 := by
  refine ⟨by decide!, by decide!, by norm_num⟩

/-- C33, the code at the failing input: a SHORT trade entered at 200 (stop 300, target
100) with the break-even threshold 50 and the trailing stop disabled.  The candle
after the entry trades between 250 and 280, entirely above the entry price, yet it
moves the stop from 300 to the entry price 200 (the threshold the code computes is
200 * (1 + 50/100) = 300, above the entry); the next candle, still above the entry
price, then stops the trade out at 200. -/
theorem short_break_even_without_profit :
    breakEvenConfiguration.TrailingStop = false ∧
    breakEvenConfiguration.MoveToBreakEvenAt > 0 ∧
    shortBreakEvenTrade.Direction = SHORT ∧
    (candle 2 280 250 260).Low > shortBreakEvenTrade.EntryPrice ∧
    validateRow breakEvenConfiguration (1 / 2) shortBreakEvenTrade (candle 2 280 250 260) =
      .next { shortBreakEvenTrade with StopPrice := 200 } ∧
    ValidateTradeWithWindow shortBreakEvenTrade shortBreakEvenWindow breakEvenConfiguration
        (1 / 2) =
      some { shortBreakEvenTrade with
        StopPrice := 200, ClosedAtPrice := 200, ClosedAtTime := 3 } := by
  refine ⟨rfl, by decide, by decide, by decide, by decide!, by decide!⟩

/-! ## Weekends -/

/-- The conditional appends add the row or nothing. -/
theorem appendToSubset_cases (spans : Bool) (start finish : Time) (isNextDay : Bool)
    (subset : Data) (row : Row) :
    appendToSubset spans start finish isNextDay subset row = subset ∨
    appendToSubset spans start finish isNextDay subset row = subset ++ [row] := by
  unfold appendToSubset
  split_ifs
  · exact Or.inr rfl
  · exact Or.inr rfl
  · exact Or.inl rfl
  · exact Or.inr rfl
  · exact Or.inl rfl

/-- The end of the loop body keeps the subset or empties it. -/
theorem closeSubset_subset (start finish : Time) (result : List Data) (subset : Data)
    (isNextDay : Bool) (row : Row) :
    (closeSubset start finish result subset isNextDay row).subset = subset ∨
    (closeSubset start finish result subset isNextDay row).subset = [] := by
  unfold closeSubset
  by_cases h : row.Time = finish ∧ subset ≠ []
  · rw [if_pos h]
    obtain ⟨first, last, hf, hl⟩ := head_getLast_of_ne_nil subset h.2
    rw [hf, hl]
    simp only
    unfold checkSubset
    split_ifs
    · exact Or.inr rfl
    · exact Or.inr rfl
  · rw [if_neg h]; exact Or.inl rfl

/-- One pass of the loop keeps weekend candles out of the subset and out of the
windows. -/
theorem subsetStep_weekdays (tStart tEnd : Time) (spans : Bool) (st : SubsetState) (row : Row)
    (hsub : ∀ r ∈ st.subset, onWeekday r) (hres : ∀ w ∈ st.result, ∀ r ∈ w, onWeekday r) :
    (∀ r ∈ (subsetStep tStart tEnd spans st row).subset, onWeekday r) ∧
    (∀ w ∈ (subsetStep tStart tEnd spans st row).result, ∀ r ∈ w, onWeekday r) := by
  unfold subsetStep
  by_cases hw : Weekday row.Time = Saturday ∨ Weekday row.Time = Sunday
  · rw [if_pos hw]; exact ⟨hsub, hres⟩
  · rw [if_neg hw]
    have happ : ∀ r ∈ appendToSubset spans
        (fullStartTime tStart (refDate spans st.isNextDay row))
        (fullEndTime tStart tEnd (refDate spans st.isNextDay row))
        st.isNextDay st.subset row, onWeekday r := by
      intro r hr
      rcases appendToSubset_cases spans
          (fullStartTime tStart (refDate spans st.isNextDay row))
          (fullEndTime tStart tEnd (refDate spans st.isNextDay row))
          st.isNextDay st.subset row with h | h
      · rw [h] at hr; exact hsub r hr
      · rw [h] at hr
        rcases List.mem_append.mp hr with hr | hr
        · exact hsub r hr
        · simp only [List.mem_singleton] at hr
          rw [hr]; exact hw
    by_cases h2 : spans = true ∧ isLastIntervalOfDay row = true ∧ st.isNextDay = false
    · rw [if_pos h2]; exact ⟨happ, hres⟩
    · rw [if_neg h2]
      constructor
      · intro r hr
        rcases closeSubset_subset
            (fullStartTime tStart (refDate spans st.isNextDay row))
            (fullEndTime tStart tEnd (refDate spans st.isNextDay row)) st.result
            (appendToSubset spans
              (fullStartTime tStart (refDate spans st.isNextDay row))
              (fullEndTime tStart tEnd (refDate spans st.isNextDay row))
              st.isNextDay st.subset row) st.isNextDay row with h | h
        · rw [h] at hr; exact happ r hr
        · rw [h] at hr; simp at hr
      · intro w hwm r hr
        rcases closeSubset_result
            (fullStartTime tStart (refDate spans st.isNextDay row))
            (fullEndTime tStart tEnd (refDate spans st.isNextDay row)) st.result
            (appendToSubset spans
              (fullStartTime tStart (refDate spans st.isNextDay row))
              (fullEndTime tStart tEnd (refDate spans st.isNextDay row))
              st.isNextDay st.subset row) st.isNextDay row with h | ⟨h, _⟩
        · rw [h] at hwm; exact hres w hwm r hr
        · rw [h] at hwm
          rcases List.mem_append.mp hwm with hwm | hwm
          · exact hres w hwm r hr
          · simp only [List.mem_singleton] at hwm
            rw [hwm] at hr; exact happ r hr

/-- The loop keeps weekend candles out of the subset and out of the windows. -/
theorem subsetLoop_weekdays (tStart tEnd : Time) (spans : Bool) :
    ∀ (rows : List Row) (st : SubsetState),
      (∀ r ∈ st.subset, onWeekday r) → (∀ w ∈ st.result, ∀ r ∈ w, onWeekday r) →
      ∀ w ∈ (subsetLoop tStart tEnd spans st rows).result, ∀ r ∈ w, onWeekday r := by
  intro rows
  induction rows with
  | nil => intro st _ hres; exact hres
  | cons row rest ih =>
    intro st hsub hres
    rw [subsetLoop_cons]
    obtain ⟨h1, h2⟩ := subsetStep_weekdays tStart tEnd spans st row hsub hres
    exact ih _ h1 h2

/-- C34: `SubsetDataForMultipleDays` skips weekends.  For every series and every
start and end text (same-day or spanning midnight), no window of the result holds a
candle whose time falls on a Saturday or on a Sunday. -/
theorem windows_skip_weekends (d : Data) (startTime endTime : String) (windows : List Data)
    (h : SubsetDataForMultipleDays d startTime endTime = .ok windows) :
    ∀ w ∈ windows, ∀ r ∈ w, Weekday r.Time ≠ Saturday ∧ Weekday r.Time ≠ Sunday := by
  unfold SubsetDataForMultipleDays at h
  cases hs : timeParse startTime with
  | none => rw [hs] at h; cases h
  | some tStart =>
    rw [hs] at h
    simp only at h
    cases he : timeParse endTime with
    | none => rw [he] at h; cases h
    | some tEnd =>
      rw [he] at h
      simp only [Except.ok.injEq] at h
      intro w hw r hr
      rw [← h] at hw
      have hwd := subsetLoop_weekdays tStart tEnd (decide (tStart > tEnd)) d
        { result := [], subset := [], isNextDay := false }
        (by intro r hr; simp at hr) (by intro w hw; simp at hw) w hw r hr
      exact ⟨fun hc => hwd (Or.inl hc), fun hc => hwd (Or.inr hc)⟩

/-- Witness of C34: candles at 10:00 and 10:05 on a Friday, a Saturday, a Sunday and a
Monday with the session 10:00 to 10:05: the windows are those of the Friday and of
the Monday. -/
theorem windows_skip_weekends_witness :
    Weekday (Date 2020 6 6 10 0 0 0) = Saturday ∧
    Weekday (Date 2020 6 7 10 0 0 0) = Sunday ∧
    SubsetDataForMultipleDays weekendSeries "10:00" "10:05" =
      .ok [[mockRow (Date 2020 6 5 10 0 0 0), mockRow (Date 2020 6 5 10 5 0 0)],
           [mockRow (Date 2020 6 8 10 0 0 0), mockRow (Date 2020 6 8 10 5 0 0)]] ∧
    ∀ w ∈ [[mockRow (Date 2020 6 5 10 0 0 0), mockRow (Date 2020 6 5 10 5 0 0)],
           [mockRow (Date 2020 6 8 10 0 0 0), mockRow (Date 2020 6 8 10 5 0 0)]],
      ∀ r ∈ w, Weekday r.Time ≠ Saturday ∧ Weekday r.Time ≠ Sunday :=
  ⟨by decide, by decide, by decide!,
   windows_skip_weekends weekendSeries "10:00" "10:05" _ (by decide!)⟩

/-! ## Boundaries against the candle that carries them -/

/-- Reading a slice at an index that is a natural number. -/
theorem indexAt_natCast {α : Type} (s : List α) (n : Nat) : indexAt s (n : Int) = s[n]? := by
  unfold indexAt
  have h : ¬ ((n : Int) < 0) := by omega
  rw [if_neg h, Int.toNat_ofNat]

/-- On each side every entry of a candle's list is marked broken exactly when the
candle's own value is past the entry's Value. -/
theorem CalculateUnbrokenHighsLows_marked (d : Data) (leftBars rightBars maxBoundaries : Int)
    (out : Data) (h : CalculateUnbrokenHighsLows d leftBars rightBars maxBoundaries = some out) :
    ∀ (k : Nat) (o : Row), out[k]? = some o →
      (∀ b ∈ o.HighBoundaries, b.Broken = decide (b.Value < o.High)) ∧
      (∀ b ∈ o.LowBoundaries, b.Broken = decide (o.Low < b.Value)) := by
  obtain ⟨hlen, hsame, h0, hstep⟩ :=
    CalculateUnbrokenHighsLows_steps d leftBars rightBars maxBoundaries out h
  intro k o ho
  have hk : k < d.length := by
    rw [← hlen]
    by_contra hc
    rw [List.getElem?_eq_none (by omega)] at ho
    cases ho
  have hr : d[k]? = some d[k] := List.getElem?_eq_getElem hk
  obtain ⟨_, hH, hL, _⟩ := hsame k d[k] o hr ho
  have hmark : ∀ (base : Boundaries) (pv : Bool) (cur : ℚ) (isHigh : Bool) (next : Boundaries),
      sideStep base d[k].Time pv cur isHigh maxBoundaries next →
      ∀ b ∈ next, b.Broken = if isHigh then decide (b.Value < cur) else decide (cur < b.Value) := by
    intro base pv cur isHigh next hs b hb
    obtain ⟨a, _, _, hc⟩ := sideStep_mem base d[k].Time pv cur isHigh maxBoundaries next hs b hb
    rw [hc]
    rfl
  cases k with
  | zero =>
    obtain ⟨hp, lp, _, _, s1, s2⟩ := h0 d[0] o hr ho
    constructor
    · intro b hb
      have := hmark _ _ _ _ _ s1 b hb
      rw [hH]; simpa using this
    · intro b hb
      have := hmark _ _ _ _ _ s2 b hb
      rw [hL]; simpa using this
  | succ k =>
    have hk1 : k < out.length := by rw [hlen]; omega
    have hp1 : out[k]? = some out[k] := List.getElem?_eq_getElem hk1
    obtain ⟨hp, lp, _, _, s1, s2⟩ := hstep k d[k + 1] out[k] o hr hp1 ho
    constructor
    · intro b hb
      have := hmark _ _ _ _ _ s1 b hb
      rw [hH]; simpa using this
    · intro b hb
      have := hmark _ _ _ _ _ s2 b hb
      rw [hL]; simpa using this

/-- C35: after `CalculateUnbrokenHighsLows`, for every candle: every boundary of its
HighBoundaries that is marked broken has a Value strictly less than the candle's
High and every unbroken one a Value greater than or equal to it; every boundary of
its LowBoundaries that is marked broken has a Value strictly greater than the
candle's Low and every unbroken one a Value less than or equal to it.  The call
returns whenever the cap is not negative and the sum index + rightBars of the pivot
guard does not overflow the Go `int` at any index of the series. -/
theorem boundaries_marked_by_own_candle (d : Data) (leftBars rightBars maxBoundaries : Int)
    (out : Data) (h : CalculateUnbrokenHighsLows d leftBars rightBars maxBoundaries = some out) :
    (∀ o ∈ out,
      (∀ b ∈ o.HighBoundaries,
        (b.Broken = true → b.Value < o.High) ∧ (b.Broken = false → b.Value ≥ o.High)) ∧
      (∀ b ∈ o.LowBoundaries,
        (b.Broken = true → b.Value > o.Low) ∧ (b.Broken = false → b.Value ≤ o.Low))) ∧
    (0 ≤ maxBoundaries → ∀ d1 : Data, sumsInRange d1.length rightBars →
      ∃ out1, CalculateUnbrokenHighsLows d1 leftBars rightBars maxBoundaries = some out1) := by
  constructor
  · intro o ho
    obtain ⟨k, hk⟩ := List.getElem?_of_mem ho
    obtain ⟨hh, hl⟩ :=
      CalculateUnbrokenHighsLows_marked d leftBars rightBars maxBoundaries out h k o hk
    constructor
    · intro b hb
      have := hh b hb
      constructor
      · intro hbr
        rw [hbr] at this
        exact of_decide_eq_true this.symm
      · intro hbr
        rw [hbr] at this
        exact not_lt.mp (of_decide_eq_false this.symm)
    · intro b hb
      have := hl b hb
      constructor
      · intro hbr
        rw [hbr] at this
        exact of_decide_eq_true this.symm
      · intro hbr
        rw [hbr] at this
        exact not_lt.mp (of_decide_eq_false this.symm)
  · intro hmax d1 hsum
    exact CalculateUnbrokenHighsLows_total d1 leftBars rightBars maxBoundaries hmax hsum

/-- Witness of C35: the series of five candles with highs 1, 3, 2, 5, 4, one bar on
each side and the cap 10; the candle with high 5 carries the boundary 3 broken and
its own boundary 5 unbroken. -/
theorem boundaries_marked_by_own_candle_witness :
    CalculateUnbrokenHighsLows pivotSeries 1 1 10 = some pivotSeriesTracked ∧
    ((∀ o ∈ pivotSeriesTracked,
      (∀ b ∈ o.HighBoundaries,
        (b.Broken = true → b.Value < o.High) ∧ (b.Broken = false → b.Value ≥ o.High)) ∧
      (∀ b ∈ o.LowBoundaries,
        (b.Broken = true → b.Value > o.Low) ∧ (b.Broken = false → b.Value ≤ o.Low))) ∧
    (0 ≤ (10 : Int) → ∀ d1 : Data, sumsInRange d1.length 1 →
      ∃ out1, CalculateUnbrokenHighsLows d1 1 1 10 = some out1)) :=
  ⟨by decide!, boundaries_marked_by_own_candle pivotSeries 1 1 10 pivotSeriesTracked (by decide!)⟩

/-! ## Where a boundary comes from -/

/-- Along a chain of passes that starts from an empty list, every entry of a list
carries the time and the value of a candle that was a pivot at or before it. -/
theorem origin_of_steps (d out : Data) (side : Row → Boundaries) (val : Row → ℚ)
    (piv : Nat → Option Bool) (isHigh : Bool) (maxBoundaries : Int)
    (hlen : out.length = d.length)
    (hfresh : ∀ r, d[0]? = some r → side r = [])
    (h0 : ∀ r o, d[0]? = some r → out[0]? = some o →
      ∃ pv, piv 0 = some pv ∧ sideStep (side r) r.Time pv (val r) isHigh maxBoundaries (side o))
    (hs : ∀ (k : Nat) (r p o : Row), d[k + 1]? = some r → out[k]? = some p →
      out[k + 1]? = some o →
      ∃ pv, piv (k + 1) = some pv ∧
        sideStep (side p) r.Time pv (val r) isHigh maxBoundaries (side o)) :
    ∀ (k : Nat) (o : Row), out[k]? = some o → ∀ b ∈ side o,
      ∃ (p : Nat) (r : Row), p ≤ k ∧ d[p]? = some r ∧ piv p = some true ∧
        b.Time = r.Time ∧ b.Value = val r := by
  intro k
  induction k with
  | zero =>
    intro o ho b hb
    have hk : 0 < d.length := by
      rw [← hlen]
      by_contra hc
      rw [List.getElem?_eq_none (by omega)] at ho
      cases ho
    have hr : d[0]? = some d[0] := List.getElem?_eq_getElem hk
    obtain ⟨pv, hpv, hstep⟩ := h0 d[0] o hr ho
    obtain ⟨a, ha, _, hc⟩ := sideStep_mem _ _ _ _ _ _ _ hstep b hb
    rw [hfresh d[0] hr] at ha
    rcases ha with ha | ⟨hp, ha⟩
    · simp at ha
    · refine ⟨0, d[0], le_refl _, hr, by rw [hpv, hp], ?_, ?_⟩
      · rw [hc, markBroken_time, ha]
      · rw [hc, ha]; rfl
  | succ k ih =>
    intro o ho b hb
    have hk : k + 1 < d.length := by
      rw [← hlen]
      by_contra hc
      rw [List.getElem?_eq_none (by omega)] at ho
      cases ho
    have hr : d[k + 1]? = some d[k + 1] := List.getElem?_eq_getElem hk
    have hk1 : k < out.length := by rw [hlen]; omega
    have hp1 : out[k]? = some out[k] := List.getElem?_eq_getElem hk1
    obtain ⟨pv, hpv, hstep⟩ := hs k d[k + 1] out[k] o hr hp1 ho
    obtain ⟨a, ha, _, hc⟩ := sideStep_mem _ _ _ _ _ _ _ hstep b hb
    rcases ha with ha | ⟨hp, ha⟩
    · obtain ⟨p, r, hle, hd, hpiv, ht, hv⟩ := ih out[k] hp1 a ha
      refine ⟨p, r, by omega, hd, hpiv, ?_, ?_⟩
      · rw [hc, markBroken_time, ht]
      · rw [hc, ← hv]; rfl
    · refine ⟨k + 1, d[k + 1], le_refl _, hr, by rw [hpv, hp], ?_, ?_⟩
      · rw [hc, markBroken_time, ha]
      · rw [hc, ha]; rfl

/-- A pivot high is strictly above each of the `rightBars` candles after it. -/
theorem pivotHigh_right (d : Data) (leftBars rightBars : Int) (p i : Nat) (r c : Row)
    (hpiv : isPivotHigh d (p : Int) leftBars rightBars = some true)
    (hr : d[p]? = some r) (hc : d[i]? = some c) (hpi : p < i)
    (hi : (i : Int) ≤ (p : Int) + rightBars) : c.High < r.High := by
  have hp : p < d.length := by
    by_contra hx
    rw [List.getElem?_eq_none (by omega)] at hr
    cases hr
  rw [isPivotHigh_eq_pivotCheck] at hpiv
  obtain ⟨_, cur, hcur, _, hright⟩ := pivotCheck_true d _ (p : Int) leftBars rightBars hpiv
  rw [indexAt_natCast, hr] at hcur
  simp only [Option.some.injEq] at hcur
  subst hcur
  obtain ⟨r1, hr1, hbad⟩ := hright ((i : Int) - (p : Int)) (by omega) (by omega)
  have hidx : (p : Int) + ((i : Int) - (p : Int)) = ((i : Nat) : Int) := by omega
  rw [hidx, indexAt_natCast, hc] at hr1
  simp only [Option.some.injEq] at hr1
  subst hr1
  simpa using hbad

/-- A pivot low is strictly below each of the `rightBars` candles after it. -/
theorem pivotLow_right (d : Data) (leftBars rightBars : Int) (p i : Nat) (r c : Row)
    (hpiv : isPivotLow d (p : Int) leftBars rightBars = some true)
    (hr : d[p]? = some r) (hc : d[i]? = some c) (hpi : p < i)
    (hi : (i : Int) ≤ (p : Int) + rightBars) : r.Low < c.Low := by
  have hp : p < d.length := by
    by_contra hx
    rw [List.getElem?_eq_none (by omega)] at hr
    cases hr
  rw [isPivotLow_eq_pivotCheck] at hpiv
  obtain ⟨_, cur, hcur, _, hright⟩ := pivotCheck_true d _ (p : Int) leftBars rightBars hpiv
  rw [indexAt_natCast, hr] at hcur
  simp only [Option.some.injEq] at hcur
  subst hcur
  obtain ⟨r1, hr1, hbad⟩ := hright ((i : Int) - (p : Int)) (by omega) (by omega)
  have hidx : (p : Int) + ((i : Int) - (p : Int)) = ((i : Nat) : Int) := by omega
  rw [hidx, indexAt_natCast, hc] at hr1
  simp only [Option.some.injEq] at hr1
  subst hr1
  simpa using hbad

/-- In a series with strictly increasing times a time names one candle. -/
theorem time_names_candle (d : Data) (hsorted : strictlyIncreasingTimes d) (p q : Nat)
    (r rq : Row) (hp : d[p]? = some r) (hq : d[q]? = some rq) (ht : r.Time = rq.Time) :
    p = q := by
  unfold strictlyIncreasingTimes at hsorted
  rw [List.pairwise_iff_getElem] at hsorted
  obtain ⟨hpl, hpe⟩ := List.getElem?_eq_some.mp hp
  obtain ⟨hql, hqe⟩ := List.getElem?_eq_some.mp hq
  rcases Nat.lt_trichotomy p q with h | h | h
  · have := hsorted p q hpl hql h
    rw [hpe, hqe, ht] at this
    exact absurd this (lt_irrefl _)
  · exact h
  · have := hsorted q p hql hpl h
    rw [hpe, hqe, ht] at this
    exact absurd this (lt_irrefl _)

/-- C36, as the code has it: a boundary cannot be broken within `rightBars` candles
of its pivot.  For a series with strictly increasing times whose first candle carries
no boundary lists when the call starts, in the series `CalculateUnbrokenHighsLows`
returns every boundary of the HighBoundaries of the candle of index i carries the
Time and the High of a candle of index p <= i that is a pivot high, the only candle
of the series with that time, and if it is marked broken then i > p + rightBars; the
same holds for the LowBoundaries with the Low of a pivot low.  The call returns
whenever the cap is not negative and the sum index + rightBars of the pivot guard
does not overflow the Go `int` at any index of the series. -/
theorem broken_after_right_bars (d : Data) (leftBars rightBars maxBoundaries : Int)
    (hsorted : strictlyIncreasingTimes d) (hfresh : firstCandleUnannotated d) :
    (0 ≤ maxBoundaries → sumsInRange d.length rightBars →
      ∃ out, CalculateUnbrokenHighsLows d leftBars rightBars maxBoundaries = some out) ∧
    ∀ out, CalculateUnbrokenHighsLows d leftBars rightBars maxBoundaries = some out →
      ∀ (i : Nat) (o : Row), out[i]? = some o →
        (∀ b ∈ o.HighBoundaries, ∃ (p : Nat) (r : Row), p ≤ i ∧ d[p]? = some r ∧
          isPivotHigh d (p : Int) leftBars rightBars = some true ∧
          b.Time = r.Time ∧ b.Value = r.High ∧
          (∀ (q : Nat) (rq : Row), d[q]? = some rq → rq.Time = b.Time → q = p) ∧
          (b.Broken = true → (i : Int) > (p : Int) + rightBars)) ∧
        (∀ b ∈ o.LowBoundaries, ∃ (p : Nat) (r : Row), p ≤ i ∧ d[p]? = some r ∧
          isPivotLow d (p : Int) leftBars rightBars = some true ∧
          b.Time = r.Time ∧ b.Value = r.Low ∧
          (∀ (q : Nat) (rq : Row), d[q]? = some rq → rq.Time = b.Time → q = p) ∧
          (b.Broken = true → (i : Int) > (p : Int) + rightBars)) := by
  refine ⟨fun hm hsum =>
    CalculateUnbrokenHighsLows_total d leftBars rightBars maxBoundaries hm hsum, ?_⟩
  intro out hout
  obtain ⟨hlen, hsame, h0, hstep⟩ :=
    CalculateUnbrokenHighsLows_steps d leftBars rightBars maxBoundaries out hout
  have hf : ∀ r, d[0]? = some r → r.HighBoundaries = [] ∧ r.LowBoundaries = [] := by
    intro r hr0
    apply hfresh r
    cases d with
    | nil => simp at hr0
    | cons a tl => simpa using hr0
  have horigH := origin_of_steps d out (fun r => r.HighBoundaries) (fun r => r.High)
    (fun p => isPivotHigh d (p : Int) leftBars rightBars) true maxBoundaries hlen
    (fun r hr0 => (hf r hr0).1)
    (fun r o hr0 ho0 => by
      obtain ⟨hp, lp, e1, _, s1, _⟩ := h0 r o hr0 ho0
      exact ⟨hp, e1, s1⟩)
    (fun k r p o hr1 hp1 ho1 => by
      obtain ⟨hp, lp, e1, _, s1, _⟩ := hstep k r p o hr1 hp1 ho1
      exact ⟨hp, e1, s1⟩)
  have horigL := origin_of_steps d out (fun r => r.LowBoundaries) (fun r => r.Low)
    (fun p => isPivotLow d (p : Int) leftBars rightBars) false maxBoundaries hlen
    (fun r hr0 => (hf r hr0).2)
    (fun r o hr0 ho0 => by
      obtain ⟨hp, lp, _, e2, _, s2⟩ := h0 r o hr0 ho0
      exact ⟨lp, e2, s2⟩)
    (fun k r p o hr1 hp1 ho1 => by
      obtain ⟨hp, lp, _, e2, _, s2⟩ := hstep k r p o hr1 hp1 ho1
      exact ⟨lp, e2, s2⟩)
  intro i o ho
  have hi : i < d.length := by
    rw [← hlen]
    by_contra hc
    rw [List.getElem?_eq_none (by omega)] at ho
    cases ho
  have hdi : d[i]? = some d[i] := List.getElem?_eq_getElem hi
  obtain ⟨_, hH, hL, _⟩ := hsame i d[i] o hdi ho
  obtain ⟨hmH, hmL⟩ :=
    CalculateUnbrokenHighsLows_marked d leftBars rightBars maxBoundaries out hout i o ho
  constructor
  · intro b hb
    obtain ⟨p, r, hle, hd, hpiv, ht, hv⟩ := horigH i o ho b hb
    refine ⟨p, r, hle, hd, hpiv, ht, hv,
      fun q rq hq hqt => time_names_candle d hsorted q p rq r hq hd (by rw [hqt, ht]), ?_⟩
    intro hbr
    have hlt : b.Value < o.High := by
      have := hmH b hb
      rw [hbr] at this
      exact of_decide_eq_true this.symm
    rw [hv, hH] at hlt
    by_contra hcon
    rcases Nat.lt_or_ge p i with hpi | hpi
    · have := pivotHigh_right d leftBars rightBars p i r d[i] hpiv hd hdi hpi (by omega)
      exact absurd hlt (not_lt.mpr (le_of_lt this))
    · have hpe : p = i := by omega
      subst hpe
      rw [hdi] at hd
      simp only [Option.some.injEq] at hd
      rw [hd] at hlt
      exact lt_irrefl _ hlt
  · intro b hb
    obtain ⟨p, r, hle, hd, hpiv, ht, hv⟩ := horigL i o ho b hb
    refine ⟨p, r, hle, hd, hpiv, ht, hv,
      fun q rq hq hqt => time_names_candle d hsorted q p rq r hq hd (by rw [hqt, ht]), ?_⟩
    intro hbr
    have hlt : o.Low < b.Value := by
      have := hmL b hb
      rw [hbr] at this
      exact of_decide_eq_true this.symm
    rw [hv, hL] at hlt
    by_contra hcon
    rcases Nat.lt_or_ge p i with hpi | hpi
    · have := pivotLow_right d leftBars rightBars p i r d[i] hpiv hd hdi hpi (by omega)
      exact absurd hlt (not_lt.mpr (le_of_lt this))
    · have hpe : p = i := by omega
      subst hpe
      rw [hdi] at hd
      simp only [Option.some.injEq] at hd
      rw [hd] at hlt
      exact lt_irrefl _ hlt

/-- Witness of C36: the series of five candles with highs 1, 3, 2, 5, 4, one bar on
each side and the cap 10: the boundary of the pivot of index 1 is broken at index 3,
two candles after its pivot. -/
theorem broken_after_right_bars_witness :
    strictlyIncreasingTimes pivotSeries ∧ firstCandleUnannotated pivotSeries ∧
    CalculateUnbrokenHighsLows pivotSeries 1 1 10 = some pivotSeriesTracked ∧
    ∀ (i : Nat) (o : Row), pivotSeriesTracked[i]? = some o →
      (∀ b ∈ o.HighBoundaries, ∃ (p : Nat) (r : Row), p ≤ i ∧ pivotSeries[p]? = some r ∧
        isPivotHigh pivotSeries (p : Int) 1 1 = some true ∧
        b.Time = r.Time ∧ b.Value = r.High ∧
        (∀ (q : Nat) (rq : Row), pivotSeries[q]? = some rq → rq.Time = b.Time → q = p) ∧
        (b.Broken = true → (i : Int) > (p : Int) + 1)) ∧
      (∀ b ∈ o.LowBoundaries, ∃ (p : Nat) (r : Row), p ≤ i ∧ pivotSeries[p]? = some r ∧
        isPivotLow pivotSeries (p : Int) 1 1 = some true ∧
        b.Time = r.Time ∧ b.Value = r.Low ∧
        (∀ (q : Nat) (rq : Row), pivotSeries[q]? = some rq → rq.Time = b.Time → q = p) ∧
        (b.Broken = true → (i : Int) > (p : Int) + 1)) :=
  ⟨by decide, by decide, by decide!,
   (broken_after_right_bars pivotSeries 1 1 10 (by decide) (by decide)).2
     pivotSeriesTracked (by decide!)⟩

/-- Counterexample to C36 as stated: a series of two candles with strictly increasing
times whose first candle already carries the high boundary of Time 7 and Value 5 when
the call starts (one bar on each side, cap 10).  The call returns; the first candle
(High 10) carries that boundary marked broken, although no candle of the series has
the Time 7, no candle is a pivot high, and index 0 is not past any pivot. -/
theorem annotated_boundary_without_pivot :
    strictlyIncreasingTimes annotatedSeries ∧
    CalculateUnbrokenHighsLows annotatedSeries 1 1 10 =
      some [{ candle 0 10 1 0 with HighBoundaries := [⟨7, 5, true⟩] }, candle 1 9 1 0] ∧
    (∀ r ∈ annotatedSeries, r.Time ≠ 7) ∧
    isPivotHigh annotatedSeries 0 1 1 = some false ∧
    isPivotHigh annotatedSeries 1 1 1 = some false := by
  decide!

/-! ## Targets and the entry price -/

/-- C37: targets are on the profit side of the entry.  For a window whose candles
are candles of a series returned by `CalculateUnbrokenHighsLows` and satisfy
Low <= Close <= High, `GenerateTradesInWindow` returns trades, and every SHORT trade
returned has TargetPrice <= EntryPrice and every LONG trade TargetPrice >=
EntryPrice: the reward passed to `calculateRR` on its entry candle is not negative. -/
theorem targets_on_profit_side (d : Data) (leftBars rightBars maxBoundaries : Int)
    (out window : Data) (cfg : InstrumentConfiguration) (instrument : String) (tick : ℚ)
    (htracked : CalculateUnbrokenHighsLows d leftBars rightBars maxBoundaries = some out)
    (hrows : ∀ r ∈ window, r ∈ out)
    (hohlc : ∀ r ∈ window, r.Low ≤ r.Close ∧ r.Close ≤ r.High) :
    ∃ trades, GenerateTradesInWindow window cfg instrument tick = some trades ∧
      ∀ tr ∈ trades,
        (tr.Direction = SHORT ∨ tr.Direction = LONG) ∧
        (tr.Direction = SHORT → tr.TargetPrice ≤ tr.EntryPrice) ∧
        (tr.Direction = LONG → tr.TargetPrice ≥ tr.EntryPrice) ∧
        ∃ row ∈ window, ∃ s, entrySetup row tr.Direction cfg tick = .ready s ∧
          tr.TakenAt = row.Time ∧ 0 ≤ s.targetSize := by
  obtain ⟨trades, htr, hall⟩ := GenerateTradesInWindow_trace window cfg instrument tick
  refine ⟨trades, htr, ?_⟩
  intro tr hmem
  obtain ⟨hne, row, hrow, s, hcreated⟩ := hall tr hmem
  obtain ⟨h1, h2, _, h4, h5⟩ := createdAt_fields window cfg instrument tick row s tr hne hcreated
  obtain ⟨k, hk⟩ := List.getElem?_of_mem (hrows row hrow)
  obtain ⟨hmH, hmL⟩ :=
    CalculateUnbrokenHighsLows_marked d leftBars rightBars maxBoundaries out htracked k row hk
  obtain ⟨hlc, hch⟩ := hohlc row hrow
  rcases h5 with ⟨hd, hs⟩ | ⟨hd, hs⟩
  · rcases entrySetup_short row cfg tick with ⟨_, hskip⟩ | ⟨m, hm, hmb, _, hready⟩
    · rw [hskip] at hs; cases hs
    · rw [hready] at hs
      simp only [SetupOutcome.ready.injEq] at hs
      have hval : m.Value ≤ row.Low := by
        have := hmL m hm
        rw [hmb] at this
        exact not_lt.mp (of_decide_eq_false this.symm)
      have htarget : tr.TargetPrice = m.Value := by rw [h4, ← hs]
      have hle : tr.TargetPrice ≤ tr.EntryPrice := by
        rw [htarget, h2]; exact le_trans hval hlc
      refine ⟨Or.inl hd, fun _ => hle, ?_, row, hrow, s, by rw [hd, hready, hs], h1, ?_⟩
      · intro hl; rw [hd] at hl; exact absurd hl SHORT_ne_LONG
      · rw [← hs]
        show 0 ≤ row.Close - m.Value
        linarith
  · rcases entrySetup_long row cfg tick with ⟨_, hskip⟩ | ⟨m, hm, hmb, _, hready⟩
    · rw [hskip] at hs; cases hs
    · rw [hready] at hs
      simp only [SetupOutcome.ready.injEq] at hs
      have hval : m.Value ≥ row.High := by
        have := hmH m hm
        rw [hmb] at this
        exact not_lt.mp (of_decide_eq_false this.symm)
      have htarget : tr.TargetPrice = m.Value := by rw [h4, ← hs]
      have hge : tr.TargetPrice ≥ tr.EntryPrice := by
        rw [htarget, h2]; exact le_trans hch hval
      refine ⟨Or.inr hd, ?_, fun _ => hge, row, hrow, s, by rw [hd, hready, hs], h1, ?_⟩
      · intro hl; rw [hd] at hl; exact absurd hl.symm SHORT_ne_LONG
      · rw [← hs]
        show 0 ≤ m.Value - row.Close
        linarith

/-- Witness of C37: a series of six candles through `CalculateUnbrokenHighsLows` (one
bar on each side, cap 10) and then, as one window, through `GenerateTradesInWindow`:
the SHORT trade taken at 11 has its target at 5. -/
theorem targets_on_profit_side_witness :
    CalculateUnbrokenHighsLows profitSeries 1 1 10 = some profitSeriesTracked ∧
    (∀ r ∈ profitSeriesTracked, r.Low ≤ r.Close ∧ r.Close ≤ r.High) ∧
    GenerateTradesInWindow profitSeriesTracked sampleConfiguration "ES" 1 =
      some [profitSeriesTrade] ∧
    ∃ trades, GenerateTradesInWindow profitSeriesTracked sampleConfiguration "ES" 1 =
        some trades ∧
      ∀ tr ∈ trades,
        (tr.Direction = SHORT ∨ tr.Direction = LONG) ∧
        (tr.Direction = SHORT → tr.TargetPrice ≤ tr.EntryPrice) ∧
        (tr.Direction = LONG → tr.TargetPrice ≥ tr.EntryPrice) ∧
        ∃ row ∈ profitSeriesTracked, ∃ s,
          entrySetup row tr.Direction sampleConfiguration 1 = .ready s ∧
          tr.TakenAt = row.Time ∧ 0 ≤ s.targetSize :=
  ⟨by decide!, by decide!, by decide!,
   targets_on_profit_side profitSeries 1 1 10 profitSeriesTracked profitSeriesTracked
     sampleConfiguration "ES" 1 (by decide!) (fun _ h => h) (by decide!)⟩

/-! ## Where a returned trade is closed -/

/-- In a window with strictly increasing times no candle is later than the last one. -/
theorem last_time_max (w : Data) (hsorted : strictlyIncreasingTimes w) (last : Row)
    (hlast : w.getLast? = some last) : ∀ x ∈ w, x.Time ≤ last.Time := by
  intro x hx
  unfold strictlyIncreasingTimes at hsorted
  rw [List.pairwise_iff_getElem] at hsorted
  obtain ⟨i, hi, hxi⟩ := List.getElem_of_mem hx
  rw [List.getLast?_eq_getElem?] at hlast
  obtain ⟨hl, hle⟩ := List.getElem?_eq_some.mp hlast
  rcases Nat.lt_or_ge i (w.length - 1) with h | h
  · have := hsorted i (w.length - 1) hi hl h
    rw [hxi, hle] at this
    exact le_of_lt this
  · have hil : i = w.length - 1 := by omega
    subst hil
    rw [hxi] at hle
    rw [hle]

/-- In a window with strictly increasing times two candles with the same time are the
same candle. -/
theorem time_names_row (w : Data) (hsorted : strictlyIncreasingTimes w) (x y : Row)
    (hx : x ∈ w) (hy : y ∈ w) (ht : x.Time = y.Time) : x = y := by
  obtain ⟨i, hi⟩ := List.getElem?_of_mem hx
  obtain ⟨j, hj⟩ := List.getElem?_of_mem hy
  have hij := time_names_candle w hsorted i j x y hi hj ht
  subst hij
  rw [hi] at hj
  exact Option.some.inj hj

/-- A trade whose ClosedAtPrice is still 0 comes back from `ValidateTradeWithWindow`
closed on a candle strictly after TakenAt, or closed at the Close and the Time of the
last candle of the window. -/
theorem ValidateTradeWithWindow_closed (cfg : InstrumentConfiguration) (tick : ℚ)
    (t t1 : Trade) (window : Data) (hfresh : t.ClosedAtPrice = 0)
    (h : ValidateTradeWithWindow t window cfg tick = some t1) :
    (∃ r ∈ window, r.Time > t.TakenAt ∧ t1.ClosedAtTime = r.Time) ∨
    (∃ last, window.getLast? = some last ∧ t1.ClosedAtTime = last.Time ∧
      t1.ClosedAtPrice = last.Close) := by
  unfold ValidateTradeWithWindow at h
  cases hloop : validateLoop cfg tick t window with
  | ret t2 =>
    rw [hloop] at h
    simp only [Option.some.injEq] at h
    subst h
    exact Or.inl (validateLoop_ret_after cfg tick window t t2 hloop)
  | next t2 =>
    rw [hloop] at h
    have hclosed := (validateLoop_next_closed cfg tick window t t2 hloop).1
    rw [hfresh] at hclosed
    simp only [hclosed, if_true] at h
    cases hlast : window.getLast? with
    | none =>
      rw [hlast] at h
      exact absurd h (by simp)
    | some last =>
      rw [hlast] at h
      simp only [Option.some.injEq] at h
      subst h
      exact Or.inr ⟨last, rfl, rfl, rfl⟩

/-- C38: every trade returned by `GenerateTradesInWindow` is closed inside its
window.  For a window with strictly increasing times the function returns trades,
and each of them has an entry candle `e` in the window (TakenAt = e.Time, EntryPrice
= e.Close), its ClosedAtTime is the time of a candle of the window and is not
before TakenAt, ClosedAtTime = TakenAt holds exactly when `e` is the last candle of
the window, and in that case ClosedAtPrice = EntryPrice. -/
theorem trades_close_inside_window (window : Data) (cfg : InstrumentConfiguration)
    (instrument : String) (tick : ℚ) (hsorted : strictlyIncreasingTimes window) :
    ∃ trades, GenerateTradesInWindow window cfg instrument tick = some trades ∧
      ∀ tr ∈ trades,
        (∃ c ∈ window, tr.ClosedAtTime = c.Time) ∧
        tr.ClosedAtTime ≥ tr.TakenAt ∧
        (∃ e ∈ window, tr.TakenAt = e.Time ∧ tr.EntryPrice = e.Close ∧
          (tr.ClosedAtTime = tr.TakenAt ↔ window.getLast? = some e)) ∧
        (tr.ClosedAtTime = tr.TakenAt → tr.ClosedAtPrice = tr.EntryPrice) := by
  obtain ⟨trades, htr, hall⟩ := GenerateTradesInWindow_trace window cfg instrument tick
  refine ⟨trades, htr, ?_⟩
  intro tr hmem
  obtain ⟨hne, row, hrow, s, hcreated⟩ := hall tr hmem
  obtain ⟨h1, h2, _, _, _⟩ := createdAt_fields window cfg instrument tick row s tr hne hcreated
  obtain ⟨_, _, _, _, hv⟩ := hcreated
  have hcases := ValidateTradeWithWindow_closed cfg tick _ tr window rfl hv
  have hta : (newTrade instrument row.Time row.TradeDirection.1 row.Close s.stopPrice
      s.target.Value).TakenAt = row.Time := rfl
  rw [hta] at hcases
  rcases hcases with ⟨r, hr, hafter, hclose⟩ | ⟨last, hlast, hclose, hprice⟩
  · have hne2 : tr.ClosedAtTime ≠ tr.TakenAt := by
      rw [hclose, h1]; exact ne_of_gt hafter
    refine ⟨⟨r, hr, hclose⟩, ?_, ⟨row, hrow, h1, h2, ?_⟩, fun h => absurd h hne2⟩
    · rw [hclose, h1]; exact le_of_lt hafter
    · constructor
      · intro h; exact absurd h hne2
      · intro h
        have := last_time_max window hsorted row h r hr
        exact absurd hafter (not_lt.mpr this)
  · have hlmem : last ∈ window := List.mem_of_getLast?_eq_some hlast
    have hiff : tr.ClosedAtTime = tr.TakenAt ↔ window.getLast? = some row := by
      constructor
      · intro h
        have ht : last.Time = row.Time := by rw [← hclose, h, h1]
        rw [hlast, time_names_row window hsorted last row hlmem hrow ht]
      · intro h
        rw [hlast] at h
        simp only [Option.some.injEq] at h
        rw [hclose, h1, h]
    refine ⟨⟨last, hlmem, hclose⟩, ?_, ⟨row, hrow, h1, h2, hiff⟩, ?_⟩
    · rw [hclose, h1]; exact last_time_max window hsorted last hlast row hrow
    · intro h
      have hl := hiff.mp h
      rw [hlast] at hl
      simp only [Option.some.injEq] at hl
      rw [hprice, h2, hl]

/-- Witness of C38: the sample window, whose times strictly increase. -/
theorem trades_close_inside_window_witness :
    strictlyIncreasingTimes sampleWindow ∧
    ∃ trades, GenerateTradesInWindow sampleWindow sampleConfiguration "ES" 1 = some trades ∧
      ∀ tr ∈ trades,
        (∃ c ∈ sampleWindow, tr.ClosedAtTime = c.Time) ∧
        tr.ClosedAtTime ≥ tr.TakenAt ∧
        (∃ e ∈ sampleWindow, tr.TakenAt = e.Time ∧ tr.EntryPrice = e.Close ∧
          (tr.ClosedAtTime = tr.TakenAt ↔ sampleWindow.getLast? = some e)) ∧
        (tr.ClosedAtTime = tr.TakenAt → tr.ClosedAtPrice = tr.EntryPrice) :=
  ⟨by decide, trades_close_inside_window sampleWindow sampleConfiguration "ES" 1 (by decide)⟩

/-! ## Totality of `GenerateTradesInWindow` -/

/-- C39: `GenerateTradesInWindow` is total.  For every window, the empty one included,
and every configuration it returns a list (the empty window gives the empty list);
inside it the loop returns from every state in which a trade has been appended
whenever `inTrade` is set, `IsValidEntry` always returns, the `switch` on the
direction never indexes an empty list, and `ValidateTradeWithWindow` returns on every
non-empty window: it fails only when called on an empty window with a trade whose
ClosedAtPrice is still 0. -/
theorem GenerateTradesInWindow_total (window : Data) (cfg : InstrumentConfiguration)
    (instrument : String) (tick : ℚ) :
    (∃ trades, GenerateTradesInWindow window cfg instrument tick = some trades) ∧
    GenerateTradesInWindow [] cfg instrument tick = some [] ∧
    (∀ (rows : List Row) (inTrade : Bool) (trades : Trades), window ≠ [] →
      (inTrade = true → trades ≠ []) →
      ∃ out, generateLoop window cfg instrument tick rows inTrade trades = some out) ∧
    (∀ (row : Row) (dir : String), ∃ b, row.IsValidEntry dir = some b) ∧
    (∀ (row : Row) (dir : String), entrySetup row dir cfg tick ≠ .crash) ∧
    (∀ (t : Trade) (w : Data),
      ValidateTradeWithWindow t w cfg tick = none ↔ w = [] ∧ t.ClosedAtPrice = 0) := by
  refine ⟨?_, by simp [GenerateTradesInWindow, generateLoop], ?_, ?_, ?_, ?_⟩
  · obtain ⟨trades, h, _⟩ := GenerateTradesInWindow_trace window cfg instrument tick
    exact ⟨trades, h⟩
  · intro rows inTrade trades hne hin
    obtain ⟨new, h, _⟩ := generateLoop_trace window cfg instrument tick hne rows inTrade trades hin
    exact ⟨_, h⟩
  · intro row dir
    exact IsValidEntry_total row dir
  · intro row dir h
    rcases entrySetup_cases row dir cfg tick with h1 | ⟨s, h1⟩
    · rw [h1] at h; cases h
    · rw [h1] at h; cases h
  · intro t w
    constructor
    · intro h
      by_cases hw : w = []
      · subst hw
        refine ⟨rfl, ?_⟩
        by_contra hc
        simp [ValidateTradeWithWindow, validateLoop, hc] at h
      · obtain ⟨t1, h1, _⟩ := ValidateTradeWithWindow_total cfg tick t w hw
        rw [h1] at h
        cases h
    · rintro ⟨hw, hc⟩
      subst hw
      simp [ValidateTradeWithWindow, validateLoop, hc]

/-! ## The trade log -/

/-- The row `AddRow` appends: the fields of the trade, the two formatted strings, the
Win flag of the direction and the Profit. -/
theorem AddRow_row (format : Time → String → String) (l : tradeLog.Log) (trade : Trade) :
    ∃ row : tradeLog.Row, tradeLog.AddRow format l trade = l ++ [row] ∧
      row.Instrument = trade.Instrument ∧ row.TakenAt = trade.TakenAt ∧
      row.Direction = trade.Direction ∧ row.EntryPrice = trade.EntryPrice ∧
      row.StopPrice = trade.StopPrice ∧ row.InitialStopPrice = trade.InitialStopPrice ∧
      row.TargetPrice = trade.TargetPrice ∧ row.ClosedAtPrice = trade.ClosedAtPrice ∧
      row.ClosedAtTime = trade.ClosedAtTime ∧
      row.TakenAtDate = format trade.TakenAt "2006-01-02" ∧
      row.TakenAtTime = format trade.TakenAt "15:04:05" ∧
      row.Win = (if trade.Direction = LONG then decide (trade.ClosedAtPrice > trade.EntryPrice)
        else if trade.Direction = SHORT then decide (trade.ClosedAtPrice < trade.EntryPrice)
        else false) ∧
      row.Profit = (if trade.EntryPrice = trade.InitialStopPrice then 0
        else (trade.ClosedAtPrice - trade.EntryPrice) /
          (trade.EntryPrice - trade.InitialStopPrice)) := by
  refine ⟨_, rfl, ?_⟩
  by_cases he : trade.EntryPrice = trade.InitialStopPrice
  · by_cases hl : trade.Direction = LONG
    · simp only [hl, he, if_true]
      simp
    · by_cases hs : trade.Direction = SHORT
      · simp only [hl, hs, he, SHORT_ne_LONG, if_true, if_false]
        simp
      · simp only [hl, hs, he, SHORT_ne_LONG, if_true, if_false]
        simp
  · by_cases hl : trade.Direction = LONG
    · simp only [hl, he, if_true, if_false]
      simp
    · by_cases hs : trade.Direction = SHORT
      · simp only [hl, hs, he, SHORT_ne_LONG, if_true, if_false]
        simp
      · simp only [hl, hs, he, SHORT_ne_LONG, if_true, if_false]
        simp

/-- C40: Win flag and Profit agree in `AddRow`.  The returned log is the input log
with one row appended; the row has the fields of the trade and Profit =
(ClosedAtPrice - EntryPrice) / (EntryPrice - InitialStopPrice), or 0 when EntryPrice
= InitialStopPrice; for a LONG trade with InitialStopPrice < EntryPrice and for a
SHORT trade with InitialStopPrice > EntryPrice the row has Win = true if and only if
Profit > 0; a trade closed at its initial stop, when that differs from the entry
price, has Profit = -1; and the trade of `TestAddRow` gives a log of one row, with
Win = true and Profit = 1. -/
theorem AddRow_win_iff_profit (format : Time → String → String) (l : tradeLog.Log)
    (trade : Trade) :
    (∃ row : tradeLog.Row, tradeLog.AddRow format l trade = l ++ [row] ∧
      row.Instrument = trade.Instrument ∧ row.TakenAt = trade.TakenAt ∧
      row.Direction = trade.Direction ∧ row.EntryPrice = trade.EntryPrice ∧
      row.StopPrice = trade.StopPrice ∧ row.InitialStopPrice = trade.InitialStopPrice ∧
      row.TargetPrice = trade.TargetPrice ∧ row.ClosedAtPrice = trade.ClosedAtPrice ∧
      row.ClosedAtTime = trade.ClosedAtTime ∧
      row.Profit = (if trade.EntryPrice = trade.InitialStopPrice then 0
        else (trade.ClosedAtPrice - trade.EntryPrice) /
          (trade.EntryPrice - trade.InitialStopPrice)) ∧
      (trade.Direction = LONG → trade.InitialStopPrice < trade.EntryPrice →
        (row.Win = true ↔ row.Profit > 0)) ∧
      (trade.Direction = SHORT → trade.InitialStopPrice > trade.EntryPrice →
        (row.Win = true ↔ row.Profit > 0)) ∧
      (trade.ClosedAtPrice = trade.InitialStopPrice →
        trade.EntryPrice ≠ trade.InitialStopPrice → row.Profit = -1)) ∧
    (tradeLog.AddRow format l trade).length = l.length + 1 ∧
    ∀ now : Time, ∃ row : tradeLog.Row,
      tradeLog.AddRow format [] (mockTrade now) = [row] ∧ row.Instrument = "AAPL" ∧
      row.Win = true ∧ row.Profit = 1 := by
  refine ⟨?_, ?_, ?_⟩
  · obtain ⟨row, hlog, h1, h2, h3, h4, h5, h6, h7, h8, h9, _, _, hwin, hprofit⟩ :=
      AddRow_row format l trade
    refine ⟨row, hlog, h1, h2, h3, h4, h5, h6, h7, h8, h9, hprofit, ?_, ?_, ?_⟩
    · intro hd hlt
      have hne : trade.EntryPrice ≠ trade.InitialStopPrice := ne_of_gt hlt
      have hpos : 0 < trade.EntryPrice - trade.InitialStopPrice := sub_pos.mpr hlt
      rw [hwin, hprofit, if_pos hd, if_neg hne, decide_eq_true_iff, gt_iff_lt, gt_iff_lt,
        div_pos_iff_of_pos_right hpos, sub_pos]
    · intro hd hgt
      have hne : trade.EntryPrice ≠ trade.InitialStopPrice := ne_of_lt hgt
      have hneg : trade.EntryPrice - trade.InitialStopPrice < 0 := sub_neg.mpr hgt
      have hnl : trade.Direction ≠ LONG := by
        rw [hd]; exact SHORT_ne_LONG
      rw [hwin, hprofit, if_neg hnl, if_pos hd, if_neg hne, decide_eq_true_iff, gt_iff_lt,
        div_pos_iff]
      constructor
      · intro h
        exact Or.inr ⟨sub_neg.mpr h, hneg⟩
      · rintro (⟨_, h⟩ | ⟨h, _⟩)
        · exact absurd h (not_lt.mpr (le_of_lt hneg))
        · exact sub_neg.mp h
    · intro hc hne
      rw [hprofit, if_neg hne, hc]
      have hd : trade.EntryPrice - trade.InitialStopPrice ≠ 0 := sub_ne_zero.mpr hne
      rw [div_eq_iff hd]
      ring
  · obtain ⟨row, hlog, _⟩ := AddRow_row format l trade
    rw [hlog]
    simp
  · intro now
    obtain ⟨row, hlog, h1, _, _, _, _, _, _, _, _, _, _, hwin, hprofit⟩ :=
      AddRow_row format [] (mockTrade now)
    refine ⟨row, by simpa using hlog, h1, ?_, ?_⟩
    · rw [hwin]
      have : (mockTrade now).Direction = LONG := rfl
      rw [if_pos this]
      norm_num [mockTrade]
    · rw [hprofit]
      norm_num [mockTrade]

end Strongbow
